import Mathlib

/-!
# The sparse haplotype codec of `cvcf_reader.cpp`

A shallow embedding of `vc::cvcf::marker` (random access, allele frequency, the
size estimators, `marker::write`, `marker::read`) together with the statements
proved about it.

Conventions of the embedding.

* A byte is a `Nat` (`0 .. 255`); a byte sequence is a `List Nat`.
* `std::uint64_t` values are `Nat`s; every C++ operation that can wrap is
  written with an explicit reduction modulo `2 ^ 64` (`u64_add`, `u64_sub`).
  Counters that only count elements or bytes held in memory (`ret`,
  `number_of_repeats`, `allele_cnt`, `size()`) are not reduced.
* `std::vector<T>` and `std::string` are `List`s.
* An output stream is the list of bytes appended to it.  An input stream is the
  list of bytes not yet extracted plus its `good()` flag.
-/

namespace cvcf

/-! ## Machine arithmetic -/

/-- Number of values of a `std::uint64_t`. -/
def u64 : Nat := 2 ^ 64

/-- Addition of two `std::uint64_t`, wrapping. -/
def u64_add (a b : Nat) : Nat := (a + b) % u64

/-- Subtraction of two `std::uint64_t`, wrapping. -/
def u64_sub (a b : Nat) : Nat := (a % u64 + u64 - b % u64) % u64

/-! ## Data model -/

/-- The enum `allele_status`. -/
inductive allele_status where
  | is_missing
  | has_ref
  | has_alt
  deriving DecidableEq, Repr, Inhabited

/-- The struct `sparse_vector_allele`: one stored (non reference) haplotype. -/
structure sparse_vector_allele where
  status : allele_status
  offset : Nat
  deriving DecidableEq, Repr, Inhabited

/-- The data members of `marker`. -/
structure marker where
  non_zero_haplotypes_ : List sparse_vector_allele
  ref_ : List Nat
  alt_ : List Nat
  position_ : Nat
  haplotype_count_ : Nat
  deriving DecidableEq, Repr

/-! ## Varint codec (declared in a header that is not part of the sources at hand) -/

/-- Modelled from the spec: the loop of `varint_encode`, "classic 7-bit
little-endian groups with continuation MSB", shortest form.  The first argument
bounds the number of further groups; ten groups hold any 64-bit value. -/
def varint_encode_loop : Nat → Nat → List Nat
  | 0, input => [input % 128]
  | fuel + 1, input =>
    if input / 128 = 0 then [input % 128]
    else (input % 128 + 128) :: varint_encode_loop fuel (input / 128)

/-- Modelled from the spec: `varint_encode(input, os_it)`, the bytes appended to
the sink for the 64-bit value `input`. -/
def varint_encode (input : Nat) : List Nat :=
  varint_encode_loop 9 (input % u64)

/-- Modelled from the spec: `one_bit_prefixed_varint::encode(pfx, input, os_it)`.
Byte 0 is `[flag:1][cont:1][payload_lo6:6]`; the flag is bit 7 of the byte `pfx`
handed in by the caller (`0x80` or `0x00`); the remaining bits of the value
follow as standard 7-bit groups. -/
def one_bit_prefixed_varint.encode (pfx input : Nat) : List Nat :=
  let v := input % u64
  let first := (pfx / 128 % 2) * 128 + v % 64
  if v / 64 = 0 then [first] else (first + 64) :: varint_encode_loop 9 (v / 64)

/-- Modelled from the spec: `two_bit_prefixed_varint::encode(pfx, input, os_it)`.
Byte 0 is `[flags:2][cont:1][payload_lo5:5]`; the flags are bits 7 and 6 of the
byte `pfx` handed in by the caller; the remaining bits of the value follow as
standard 7-bit groups. -/
def two_bit_prefixed_varint.encode (pfx input : Nat) : List Nat :=
  let v := input % u64
  let first := (pfx / 64 % 4) * 64 + v % 32
  if v / 32 = 0 then [first] else (first + 32) :: varint_encode_loop 9 (v / 32)

/-- Number of 7-bit groups of a value, at least one (bounded like the encoder). -/
def varint_groups : Nat → Nat → Nat
  | 0, _ => 1
  | fuel + 1, input => if input < 128 then 1 else 1 + varint_groups fuel (input / 128)

/-- Modelled from the spec: `varint_encoded_byte_width(input)`, the number of
bytes `varint_encode` produces for `input`. -/
def varint_encoded_byte_width (input : Nat) : Nat :=
  varint_groups 9 (input % u64)

/-- Modelled from the spec: `one_bit_prefixed_varint::encoded_byte_width(input)`:
six payload bits in byte 0, seven in every further byte. -/
def one_bit_prefixed_varint.encoded_byte_width (input : Nat) : Nat :=
  let v := input % u64
  if v < 64 then 1 else 1 + varint_groups 9 (v / 64)

/-- Modelled from the spec: `two_bit_prefixed_varint::encoded_byte_width(input)`:
five payload bits in byte 0, seven in every further byte. -/
def two_bit_prefixed_varint.encoded_byte_width (input : Nat) : Nat :=
  let v := input % u64
  if v < 32 then 1 else 1 + varint_groups 9 (v / 32)

/-! ## Size estimators -/

/-- The `for` loop of `marker::calculate_serialized_gt_size`: `ret` and
`last_pos` are the loop variables, the list is the range `[it, end)`. -/
def calculate_serialized_gt_size_loop (ret last_pos : Nat) :
    List sparse_vector_allele → Nat
  | [] => ret
  | it :: rest =>
    let offset := u64_sub it.offset last_pos
    let last_pos := u64_add it.offset 1
    calculate_serialized_gt_size_loop
      (ret + one_bit_prefixed_varint.encoded_byte_width offset) last_pos rest

/-- The method `marker::calculate_serialized_gt_size`. -/
def marker.calculate_serialized_gt_size (m : marker) : Nat :=
  calculate_serialized_gt_size_loop 0 0 m.non_zero_haplotypes_

/-- What one pass of the outer loop body of
`marker::calculate_rle_serialized_gt_size` adds to `ret` once the inner `while`
has ended: the width of the header and, when there are repeats, of the count. -/
def rle_group_size (offset number_of_repeats : Nat) : Nat :=
  two_bit_prefixed_varint.encoded_byte_width offset +
    (if number_of_repeats ≠ 0 then varint_encoded_byte_width number_of_repeats else 0)

/-- The nested loops of `marker::calculate_rle_serialized_gt_size`, followed
along the single iterator `it` they share.  The arguments are the state at the
test of the inner `while`: `ret`, the anchor gap `offset`, the element `it`
points at, `last_pos`, `number_of_repeats`, and the range `[it + 1, end)`. -/
def calculate_rle_serialized_gt_size_loop
    (ret offset : Nat) (it : sparse_vector_allele) (last_pos number_of_repeats : Nat) :
    List sparse_vector_allele → Nat
  | [] => ret + rle_group_size offset number_of_repeats
  | next_it :: rest =>
    if offset ≠ u64_sub next_it.offset last_pos ∨ it.status ≠ next_it.status then
      -- break; the group is accounted for and `++it` makes `next_it` the new anchor
      calculate_rle_serialized_gt_size_loop
        (ret + rle_group_size offset number_of_repeats)
        (u64_sub next_it.offset last_pos) next_it (u64_add next_it.offset 1) 0 rest
    else
      calculate_rle_serialized_gt_size_loop
        ret offset next_it (u64_add next_it.offset 1) (number_of_repeats + 1) rest

/-- The method `marker::calculate_rle_serialized_gt_size`. -/
def marker.calculate_rle_serialized_gt_size (m : marker) : Nat :=
  match m.non_zero_haplotypes_ with
  | [] => 0
  | it :: rest =>
    calculate_rle_serialized_gt_size_loop 0 (u64_sub it.offset 0) it (u64_add it.offset 1) 0 rest

/-! ## `marker::write` -/

/-- The byte `(status == has_alt ? 0x80 : 0x00)` computed in both write loops. -/
def alt_bit (s : allele_status) : Nat :=
  if s = allele_status.has_alt then 0x80 else 0x00

/-- One pass of the plain `for` loop of `marker::write`: the arguments
`(allele, offset)` of its call of `one_bit_prefixed_varint::encode`. -/
structure plain_call where
  allele : Nat
  offset : Nat
  deriving DecidableEq, Repr, Inhabited

/-- The plain `for` loop of `marker::write` (the `else` branch): the encoder
calls it makes, in order. -/
def write_plain_calls (last_pos : Nat) : List sparse_vector_allele → List plain_call
  | [] => []
  | it :: rest =>
    let offset := u64_sub it.offset last_pos
    let last_pos := u64_add it.offset 1
    ⟨alt_bit it.status, offset⟩ :: write_plain_calls last_pos rest

/-- Bytes appended by one pass of the plain loop. -/
def plain_call.bytes (c : plain_call) : List Nat :=
  one_bit_prefixed_varint.encode c.allele c.offset

/-- The allele payload appended by the plain branch of `marker::write`. -/
def write_plain_payload (source : marker) : List Nat :=
  (write_plain_calls 0 source.non_zero_haplotypes_).flatMap plain_call.bytes

/-- One pass of the outer loop of the RLE branch of `marker::write`: the
arguments of its call of `two_bit_prefixed_varint::encode` and the
`number_of_repeats` it tests and, when non zero, hands to `varint_encode`. -/
structure rle_call where
  allele_repeat_pfx : Nat
  offset : Nat
  number_of_repeats : Nat
  deriving DecidableEq, Repr

/-- The group closed when the inner `while` ends. -/
def rle_call.close (it : sparse_vector_allele) (offset number_of_repeats : Nat) : rle_call :=
  ⟨alt_bit it.status + (if number_of_repeats ≠ 0 then 0x40 else 0), offset, number_of_repeats⟩

/-- The nested loops of the RLE branch of `marker::write`, followed along the
iterator `it` they share; the arguments are the state at the test of the inner
`while` (as in `calculate_rle_serialized_gt_size_loop`), the result the encoder
calls made, in order. -/
def write_rle_calls
    (offset : Nat) (it : sparse_vector_allele) (last_pos number_of_repeats : Nat) :
    List sparse_vector_allele → List rle_call
  | [] => [rle_call.close it offset number_of_repeats]
  | next_it :: rest =>
    if offset ≠ u64_sub next_it.offset last_pos ∨ it.status ≠ next_it.status then
      rle_call.close it offset number_of_repeats ::
        write_rle_calls (u64_sub next_it.offset last_pos) next_it (u64_add next_it.offset 1) 0 rest
    else
      write_rle_calls offset next_it (u64_add next_it.offset 1) (number_of_repeats + 1) rest

/-- The encoder calls of the whole RLE branch, from `it = begin()`. -/
def write_rle_groups (source : marker) : List rle_call :=
  match source.non_zero_haplotypes_ with
  | [] => []
  | it :: rest => write_rle_calls (u64_sub it.offset 0) it (u64_add it.offset 1) 0 rest

/-- Bytes appended by one pass of the outer RLE loop: the two-bit-prefixed
header, then the repeat count when it is non zero. -/
def rle_call.bytes (c : rle_call) : List Nat :=
  two_bit_prefixed_varint.encode c.allele_repeat_pfx c.offset ++
    (if c.number_of_repeats ≠ 0 then varint_encode c.number_of_repeats else [])

/-- The allele payload appended by the RLE branch of `marker::write`. -/
def write_rle_payload (source : marker) : List Nat :=
  (write_rle_groups source).flatMap rle_call.bytes

/-- The test `calculate_rle_serialized_gt_size() < calculate_serialized_gt_size()`
that selects the branch of `marker::write`. -/
def marker.writes_rle (source : marker) : Bool :=
  decide (source.calculate_rle_serialized_gt_size < source.calculate_serialized_gt_size)

/-- The arguments `(rle, size())` of the call of `one_bit_prefixed_varint::encode`
that writes the mode_and_count field. -/
def write_mode_and_count (source : marker) : Nat × Nat :=
  if source.writes_rle then (0x80, source.non_zero_haplotypes_.length)
  else (0x00, source.non_zero_haplotypes_.length)

/-- Bytes of position, `ref` and `alt` written ahead of the mode_and_count field. -/
def write_site (source : marker) : List Nat :=
  varint_encode source.position_ ++
    (varint_encode source.ref_.length ++ source.ref_) ++
    (varint_encode source.alt_.length ++ source.alt_)

/-- The allele payload written after the mode_and_count field. -/
def write_payload (source : marker) : List Nat :=
  if source.writes_rle then write_rle_payload source else write_plain_payload source

/-- The function `marker::write(os, source)`: every byte it appends to `os`. -/
def marker.write (source : marker) : List Nat :=
  write_site source ++
    (one_bit_prefixed_varint.encode (write_mode_and_count source).1 (write_mode_and_count source).2 ++
      write_payload source)

/-! ## Random access and allele frequency -/

/-- The loop of `std::lower_bound` over `[first, first + len)` with the comparison
`a.offset < b.offset` and the key `val.offset = i`: halve `len`, look at the
middle element, keep the right or the left half.  The first argument bounds the
number of halvings; `len` halvings always suffice. -/
def lower_bound_loop (xs : List sparse_vector_allele) (i : Nat) : Nat → Nat → Nat → Nat
  | 0, first, _ => first
  | fuel + 1, first, len =>
    if len = 0 then first
    else
      let half := len / 2
      let middle := first + half
      if (xs.getD middle default).offset < i then
        lower_bound_loop xs i fuel (middle + 1) (len - half - 1)
      else
        lower_bound_loop xs i fuel first half

/-- The call `std::lower_bound(begin, end, val, cmp)` of `marker::operator[]`; the
iterator returned is given as an index into the vector (`size()` stands for `end`). -/
def lower_bound (xs : List sparse_vector_allele) (i : Nat) : Nat :=
  lower_bound_loop xs i xs.length 0 xs.length

/-- The operator `marker::operator[]`. -/
def marker.subscript (m : marker) (i : Nat) : allele_status :=
  let it := lower_bound m.non_zero_haplotypes_ i
  if it = m.non_zero_haplotypes_.length ∨ (m.non_zero_haplotypes_.getD it default).offset ≠ i then
    allele_status.has_ref
  else
    (m.non_zero_haplotypes_.getD it default).status

/-- The exception `std::out_of_range` thrown by `marker::at`. -/
inductive out_of_range where
  | index_out_of_range
  deriving DecidableEq, Repr

/-- The method `marker::at`. -/
def marker.at (m : marker) (i : Nat) : Except out_of_range allele_status :=
  if i ≥ m.non_zero_haplotypes_.length then
    Except.error out_of_range.index_out_of_range
  else
    Except.ok (m.subscript i)

/-- The two integers `marker::calculate_allele_frequency` converts to `double`
and divides. -/
structure frequency_operands where
  allele_cnt : Nat
  total_haplotypes : Nat
  deriving DecidableEq, Repr

/-- The `for` loop of `marker::calculate_allele_frequency`.  `--total_haplotypes`
wraps; `allele_cnt` counts elements of the vector and stays below `2 ^ 64`. -/
def calculate_allele_frequency_loop (allele_cnt total_haplotypes : Nat) :
    List sparse_vector_allele → frequency_operands
  | [] => ⟨allele_cnt, total_haplotypes⟩
  | it :: rest =>
    if it.status = allele_status.is_missing then
      calculate_allele_frequency_loop allele_cnt (u64_sub total_haplotypes 1) rest
    else
      calculate_allele_frequency_loop (allele_cnt + 1) total_haplotypes rest

/-- The method `marker::calculate_allele_frequency` up to its last line: the
value returned is `double(allele_cnt) / double(total_haplotypes)` of the operands
computed here; the two conversions and the floating-point division are outside
the embedding. -/
def marker.calculate_allele_frequency (m : marker) : frequency_operands :=
  calculate_allele_frequency_loop 0 m.haplotype_count_ m.non_zero_haplotypes_

/-! ## Input streams and the varint decoders -/

/-- A `std::istream`: the bytes not yet extracted and whether `good()` holds. -/
structure istream where
  buf : List Nat
  good : Bool
  deriving DecidableEq, Repr

/-- The call `is.read(p, n)`: the bytes stored and the stream afterwards.  A
stream that is not good extracts nothing; a source shorter than `n` is emptied
and the fail state is set. -/
def istream.read (is : istream) (n : Nat) : List Nat × istream :=
  if is.good then
    if n ≤ is.buf.length then (is.buf.take n, ⟨is.buf.drop n, true⟩)
    else (is.buf, ⟨[], false⟩)
  else ([], ⟨is.buf, false⟩)

/-- The call `is.get()` (result dropped): one byte is extracted; at the end of
the source the fail state is set. -/
def istream.get (is : istream) : istream :=
  if is.good then
    match is.buf with
    | [] => ⟨[], false⟩
    | _ :: rest => ⟨rest, true⟩
  else ⟨is.buf, false⟩

/-- Modelled from the spec: the loop of `varint_decode` over the 7-bit groups
that follow, least significant first, a set MSB announcing another byte.  The
iterator interface is the one the callers in `cvcf_reader.cpp` rely on (they test
the returned iterator against `end_it` and then step with `++in_it`): for a
complete value the result is the value and the source still holding the LAST
byte of the value at its head; when the source ends inside the value the result
is `none` (the iterator returned is `end_it`, the source is used up). -/
def varint_decode_loop (shift acc : Nat) : List Nat → Option (Nat × List Nat)
  | [] => none
  | b :: rest =>
    let acc := (acc + (b % 128) * 2 ^ shift) % u64
    if b / 128 % 2 = 0 then some (acc, b :: rest)
    else varint_decode_loop (shift + 7) acc rest

/-- Modelled from the spec: `varint_decode(in_it, end_it, output)`. -/
def varint_decode (buf : List Nat) : Option (Nat × List Nat) :=
  varint_decode_loop 0 0 buf

/-- Modelled from the spec: `one_bit_prefixed_varint::decode(in_it, end_it, pfx, output)`.
The flag comes back in place (bit 7 of byte 0), the value is the low six bits of
byte 0 plus the 7-bit groups that follow when bit 6 is set.  Same iterator
interface as `varint_decode`. -/
def one_bit_prefixed_varint.decode : List Nat → Option (Nat × Nat × List Nat)
  | [] => none
  | b :: rest =>
    if b / 64 % 2 = 0 then some ((b / 128 % 2) * 128, b % 64, b :: rest)
    else
      match varint_decode_loop 6 (b % 64) rest with
      | none => none
      | some (v, r) => some ((b / 128 % 2) * 128, v, r)

/-- Modelled from the spec: `two_bit_prefixed_varint::decode(in_it, end_it, pfx, output)`.
The two flags come back in place (bits 7 and 6 of byte 0), the value is the low
five bits of byte 0 plus the 7-bit groups that follow when bit 5 is set.  Same
iterator interface as `varint_decode`. -/
def two_bit_prefixed_varint.decode : List Nat → Option (Nat × Nat × List Nat)
  | [] => none
  | b :: rest =>
    if b / 32 % 2 = 0 then some ((b / 64 % 4) * 64, b % 32, b :: rest)
    else
      match varint_decode_loop 5 (b % 32) rest with
      | none => none
      | some (v, r) => some ((b / 64 % 4) * 64, v, r)

/-- What the sources at hand leave open in `marker::read`.  `value_init` is a
value-initialised `sparse_vector_allele` (its declaration is in the missing
header).  `indet_pfx` and `indet_value` are what the locals
`allele_repeat_prefix`, `allele` and `offset`, declared without initialiser, hold
before a decoder writes them.  `trunc_varint old buf` and
`trunc_prefixed bits old_pfx old buf` are what a decoder leaves in its output
arguments when the source `buf` ends inside the value (`old` is what they held). -/
structure unspecified where
  value_init : sparse_vector_allele
  indet_pfx : Nat
  indet_value : Nat
  trunc_varint : Nat → List Nat → Nat
  trunc_prefixed : Nat → Nat → Nat → List Nat → Nat × Nat

/-! ## `marker::read` -/

/-- The call `v.resize(n)` of a vector or string; `fill` is the value-initialised
element. -/
def resize {α : Type} (xs : List α) (n : Nat) (fill : α) : List α :=
  xs.take n ++ List.replicate (n - xs.length) fill

/-- The lines `s.resize(sz); if (s.size()) is.read(&s[0], s.size());` of
`marker::read`: the string afterwards (bytes extracted, then what `resize` left)
and the stream afterwards. -/
def read_string (s : List Nat) (sz : Nat) (is : istream) : List Nat × istream :=
  let s := resize s sz 0
  if s.length ≠ 0 then
    let r := is.read s.length
    (r.1 ++ s.drop r.1.length, r.2)
  else (s, is)

/-- The plain `for` loop of `marker::read`; `total_offset` is the loop variable,
the first list the elements `[it, end)` still to fill, the second the source.
The result is those elements afterwards and the source afterwards. -/
def read_plain_loop (u : unspecified) (total_offset : Nat) :
    List sparse_vector_allele → List Nat → List sparse_vector_allele × List Nat
  | [], buf => ([], buf)
  | it :: rest, [] => (it :: rest, [])
  | _ :: rest, _ :: buf =>
    -- `++in_it` has dropped the head of the source
    let d : Nat × Nat × List Nat :=
      match one_bit_prefixed_varint.decode buf with
      | some r => r
      | none =>
        ((u.trunc_prefixed 1 u.indet_pfx u.indet_value buf).1,
          (u.trunc_prefixed 1 u.indet_pfx u.indet_value buf).2, [])
    let total_offset := u64_add total_offset d.2.1
    let status := if d.1 ≠ 0 then allele_status.has_alt else allele_status.is_missing
    let r := read_plain_loop u (u64_add total_offset 1) rest d.2.2
    (⟨status, total_offset⟩ :: r.1, r.2)

/-- The first `for` loop of the RLE branch of `marker::read`, which decodes the
headers.  `total_repeat_bytes` is the running sum, the first list the pairs
`[it, end)` of `rle_non_zero_haplotypes` still to fill, the second the source.
The result is those pairs afterwards, the sum, and the source afterwards. -/
def read_rle_headers (u : unspecified) (total_repeat_bytes : Nat) :
    List (sparse_vector_allele × Nat) → List Nat →
      List (sparse_vector_allele × Nat) × Nat × List Nat
  | [], buf => ([], total_repeat_bytes, buf)
  | it :: rest, [] => (it :: rest, total_repeat_bytes, [])
  | it :: rest, _ :: buf =>
    -- `++in_it` has dropped the head of the source
    let d : Nat × Nat × List Nat :=
      match two_bit_prefixed_varint.decode buf with
      | some r => r
      | none =>
        ((u.trunc_prefixed 2 u.indet_pfx it.1.offset buf).1,
          (u.trunc_prefixed 2 u.indet_pfx it.1.offset buf).2, [])
    let status :=
      if d.1 / 128 % 2 ≠ 0 then allele_status.has_alt else allele_status.is_missing
    if d.1 / 64 % 2 ≠ 0 ∧ d.2.2 ≠ [] then
      -- Read repeat byte.
      let e : Nat × List Nat :=
        match varint_decode d.2.2.tail with
        | some r => r
        | none => (u.trunc_varint it.2 d.2.2.tail, [])
      let r := read_rle_headers u (u64_add total_repeat_bytes e.1) rest e.2
      ((⟨status, d.2.1⟩, e.1) :: r.1, r.2)
    else
      let r := read_rle_headers u total_repeat_bytes rest d.2.2
      ((⟨status, d.2.1⟩, 0) :: r.1, r.2)

/-- The inner `while (it->second)` of the expansion loop: `step` is
`it->first.offset + 1`, the first argument `it->second`.  The result is the
entries appended and `total_offset` afterwards. -/
def read_rle_repeat (status : allele_status) (step : Nat) :
    Nat → Nat → List sparse_vector_allele × Nat
  | 0, total_offset => ([], total_offset)
  | second + 1, total_offset =>
    let total_offset := u64_add total_offset step
    let r := read_rle_repeat status step second total_offset
    (⟨status, total_offset⟩ :: r.1, r.2)

/-- The second `for` loop of the RLE branch of `marker::read`, which expands the
headers into `destination.non_zero_haplotypes_` (cleared before). -/
def read_rle_expand (total_offset : Nat) :
    List (sparse_vector_allele × Nat) → List sparse_vector_allele
  | [] => []
  | it :: rest =>
    let total_offset := u64_add total_offset it.1.offset
    let r := read_rle_repeat it.1.status (u64_add it.1.offset 1) it.2 total_offset
    ⟨it.1.status, total_offset⟩ :: (r.1 ++ read_rle_expand (u64_add r.2 1) rest)

/-- Lines 98 to 151 of `marker::read`: the mode_and_count field and the allele
payload.  `old` is `destination.non_zero_haplotypes_` on entry, `sz` what the
local `sz` holds (the length of `alt`), `buf` the source.  The result is
`destination.non_zero_haplotypes_` and the source afterwards. -/
def read_alleles (u : unspecified) (old : List sparse_vector_allele) (sz : Nat)
    (buf : List Nat) : List sparse_vector_allele × List Nat :=
  let d : Nat × Nat × List Nat :=
    match one_bit_prefixed_varint.decode buf with
    | some r => r
    | none => ((u.trunc_prefixed 1 0 sz buf).1, (u.trunc_prefixed 1 0 sz buf).2, [])
  if d.1 ≠ 0 then
    let h := read_rle_headers u 0 (List.replicate d.2.1 (u.value_init, 0)) d.2.2
    (read_rle_expand 0 h.1, h.2.2)
  else
    read_plain_loop u 0 (resize old d.2.1 u.value_init) d.2.2

/-- The function `marker::read(destination, haplotype_count, is)`: the marker and
the stream afterwards.  The function is `void` and has no `throw`; allocation
failure in `resize` or `reserve` is outside the embedding. -/
def marker.read (u : unspecified) (destination : marker) (haplotype_count : Nat)
    (is : istream) : marker × istream :=
  let destination := { destination with haplotype_count_ := haplotype_count }
  match varint_decode is.buf with
  | none =>
    ({ destination with position_ := u.trunc_varint destination.position_ is.buf },
      istream.get ⟨[], is.good⟩)
  | some (position, buf) =>
    let destination := { destination with position_ := position }
    match varint_decode buf.tail with
    | none => (destination, istream.get ⟨[], is.good⟩)
    | some (sz, buf) =>
      let r := read_string destination.ref_ sz ⟨buf.tail, is.good⟩
      let destination := { destination with ref_ := r.1 }
      match varint_decode r.2.buf with
      | none => (destination, istream.get ⟨[], r.2.good⟩)
      | some (sz, buf) =>
        let a := read_string destination.alt_ sz ⟨buf.tail, r.2.good⟩
        let destination := { destination with alt_ := a.1 }
        let g := read_alleles u destination.non_zero_haplotypes_ sz a.2.buf
        ({ destination with non_zero_haplotypes_ := g.1 }, istream.get ⟨g.2, a.2.good⟩)

open allele_status

/-! ## Well-formed input and the scenarios of the specification -/

/-- Entries strictly ascending by offset (hence no duplicate offset). -/
def strictly_ascending (es : List sparse_vector_allele) : Prop :=
  es.Pairwise (fun a b => a.offset < b.offset)

instance (es : List sparse_vector_allele) : Decidable (strictly_ascending es) := by
  unfold strictly_ascending; infer_instance

/-- A marker as `marker::write` can receive it: every 64-bit quantity fits its
type, and the stored statuses are `has_alt` or `is_missing`. -/
structure marker.well_formed (m : marker) : Prop where
  position_lt : m.position_ < u64
  ref_lt : m.ref_.length < u64
  alt_lt : m.alt_.length < u64
  size_lt : m.non_zero_haplotypes_.length < u64
  offset_lt : ∀ e ∈ m.non_zero_haplotypes_, e.offset < u64
  stored : ∀ e ∈ m.non_zero_haplotypes_, e.status = has_alt ∨ e.status = is_missing

/-- The scenario `S = {HasAlt@2, HasAlt@5, IsMissing@9}` with `haplotype_count = 10`
(position 100, `ref` "A", `alt` "C"). -/
def scenario_S : marker :=
  ⟨[⟨has_alt, 2⟩, ⟨has_alt, 5⟩, ⟨is_missing, 9⟩], [65], [67], 100, 10⟩

/-- The scenario `{HasAlt@0, HasAlt@1, HasAlt@2, HasAlt@3}` with
`haplotype_count = 4` (position 100, `ref` "A", `alt` "C"). -/
def scenario_R : marker :=
  ⟨[⟨has_alt, 0⟩, ⟨has_alt, 1⟩, ⟨has_alt, 2⟩, ⟨has_alt, 3⟩], [65], [67], 100, 4⟩

/-- A freshly constructed marker, as the destination of a first `marker::read`. -/
def empty_marker : marker := ⟨[], [], [], 0, 0⟩

/-- One way to fill in `unspecified`: zero-initialised elements and locals, and
decoders that leave their output arguments untouched when the source runs out. -/
def untouched : unspecified :=
  ⟨⟨is_missing, 0⟩, 0, 0, fun old _ => old, fun _ old_pfx old _ => (old_pfx, old)⟩

/-- What `marker::read` relies on in a header the writer emitted: the repeat
count fits 64 bits, and bit 6 of the flags is set exactly when it is non zero. -/
def rle_call.framed (c : rle_call) : Prop :=
  c.offset < u64 ∧ c.number_of_repeats < u64 ∧
    (c.allele_repeat_pfx / 64 % 2 ≠ 0 ↔ c.number_of_repeats ≠ 0)

/-! ## Runs, gaps and stream layouts as the specification words them -/

/-- The gaps of the specification: `gap_i = entries[i].offset - last_pos`, where
`last_pos` starts at `last_pos` (0 for a whole vector) and advances to the offset
plus one after each entry; every entry is listed with its status. -/
def entry_gaps (last_pos : Nat) : List sparse_vector_allele → List (allele_status × Nat)
  | [] => []
  | e :: es => (e.status, e.offset - last_pos) :: entry_gaps (e.offset + 1) es

/-- The same list as the write loops compute it, with 64-bit arithmetic. -/
def machine_gaps (last_pos : Nat) : List sparse_vector_allele → List (allele_status × Nat)
  | [] => []
  | e :: es => (e.status, u64_sub e.offset last_pos) :: machine_gaps (u64_add e.offset 1) es

/-- The maximal runs of equal consecutive elements of a list, left to right:
each run is given by its element and by the number of FURTHER elements merged
into it (the run length not counting the anchor). -/
def maximal_runs {α : Type} [DecidableEq α] : List α → List (α × Nat)
  | [] => []
  | a :: rest =>
    match maximal_runs rest with
    | (b, n) :: runs => if a = b then (a, n + 1) :: runs else (a, 0) :: (b, n) :: runs
    | [] => [(a, 0)]

/-- The header the specification prescribes for a run: top bit set exactly for
`has_alt`, second bit set exactly when the run length is positive, the value is
the gap of the anchor; the run length is what follows when it is positive. -/
def run_header (r : (allele_status × Nat) × Nat) : rle_call :=
  ⟨alt_bit r.1.1 + (if r.2 ≠ 0 then 0x40 else 0), r.1.2, r.2⟩

/-- A run put in front of a list of runs, when `n` further elements equal to `a`
have been seen before it. -/
def push_run {α : Type} [DecidableEq α] (a : α) (n : Nat) : List (α × Nat) → List (α × Nat)
  | [] => [(a, n)]
  | (b, m) :: runs => if a = b then (a, n + m + 1) :: runs else (a, n) :: (b, m) :: runs

/-- Three entries of which no two neighbours share both status and gap:
`{HasAlt@2, IsMissing@5, HasAlt@9}` with `haplotype_count = 10`. -/
def scenario_no_run : marker :=
  ⟨[⟨has_alt, 2⟩, ⟨is_missing, 5⟩, ⟨has_alt, 9⟩], [65], [67], 100, 10⟩

/-- One header of an RLE payload as `marker::read` takes it: the `has_alt` flag
(top bit), the gap, and the repeat count, present exactly when the repeat flag
(second bit) is set. -/
structure rle_header where
  alt : Bool
  gap : Nat
  repeats : Option Nat
  deriving DecidableEq, Repr

/-- The two flag bits of a header, in place. -/
def rle_header.flags (h : rle_header) : Nat :=
  (if h.alt then 0x80 else 0x00) + (if h.repeats.isSome then 0x40 else 0x00)

/-- The bytes of a header in the stream: `HEADER` then `REPEAT?`. -/
def rle_header.bytes (h : rle_header) : List Nat :=
  two_bit_prefixed_varint.encode h.flags h.gap ++
    (match h.repeats with
     | some r => varint_encode r
     | none => [])

/-- The status a header stands for. -/
def rle_header.status (h : rle_header) : allele_status :=
  if h.alt then has_alt else is_missing

/-- The repeat count of a header, 0 when the repeat flag is clear. -/
def rle_header.run_length (h : rle_header) : Nat :=
  h.repeats.getD 0

/-- The entries the specification derives from a sequence of headers, `base`
being the running offset: a header yields one entry at the running offset
advanced by its gap, then `repeat` further entries each `gap + 1` beyond the one
before; the running offset then moves one past the last entry.  Offsets are
64-bit values. -/
def expansion (base : Nat) : List rle_header → List sparse_vector_allele
  | [] => []
  | h :: hs =>
    (List.range (h.run_length + 1)).map
        (fun j => ⟨h.status, (base + h.gap + j * (h.gap + 1)) % u64⟩) ++
      expansion (base + h.gap + h.run_length * (h.gap + 1) + 1) hs

/-- Accumulated gaps plus entry count of a sequence of headers: the running
offset after expanding it from 0. -/
def rle_span : List rle_header → Nat
  | [] => 0
  | h :: hs => (h.run_length + 1) * (h.gap + 1) + rle_span hs

/-- The entries the specification derives from a plain payload of
one-bit-prefixed varints `(flag, gap)`, `base` being the running offset. -/
def plain_decoded (base : Nat) : List plain_call → List sparse_vector_allele
  | [] => []
  | c :: cs =>
    ⟨if c.allele / 128 % 2 ≠ 0 then has_alt else is_missing, (base + c.offset) % u64⟩ ::
      plain_decoded (base + c.offset + 1) cs

/-- Accumulated gaps plus entry count of a plain payload. -/
def plain_span : List plain_call → Nat
  | [] => 0
  | c :: cs => c.offset + 1 + plain_span cs

/-- A complete record as the file format lays it out: position, `ref`, `alt`,
the mode_and_count field and the payload. -/
def record_bytes (position : Nat) (ref alt : List Nat) (mode count : Nat)
    (payload : List Nat) : List Nat :=
  varint_encode position ++ (varint_encode ref.length ++ (ref ++
    (varint_encode alt.length ++ (alt ++
      (one_bit_prefixed_varint.encode mode count ++ payload)))))

/-- The argument `sz + total_repeat_bytes` of the call of `reserve` at line 124
of `marker::read`; `buf` is the source once the mode_and_count field is decoded. -/
def read_rle_reserve (u : unspecified) (sz : Nat) (buf : List Nat) : Nat :=
  u64_add sz (read_rle_headers u 0 (List.replicate sz (u.value_init, 0)) buf).2.1

/-! ## The file reader -/

/-- The members of `reader` that `reader::reader` and `reader::operator>>` use
(the class declaration is in a header that is not among the sources at hand).
Strings are lists of bytes. -/
structure reader where
  sample_ids_ : List (List Nat)
  chromosome_ : List Nat
  ploidy_level_ : Nat
  input_stream_ : istream

/-- The `while` loop of `reader::reader` (lines 288 to 298): `sample_size` counts
down, every pass decodes `id_sz`, appends a string to `sample_ids_` and fills it
from the stream when `id_sz` is not 0.  The result is `sample_size`,
`sample_ids_` and the stream when the loop is left. -/
def reader.read_sample_ids :
    Nat → List (List Nat) → istream → Nat × List (List Nat) × istream
  | 0, sample_ids, is => (0, sample_ids, is)
  | sample_size + 1, sample_ids, is =>
    match varint_decode is.buf with
    | none => (sample_size + 1, sample_ids, ⟨[], is.good⟩)
    | some (id_sz, buf) =>
      let r := read_string [] id_sz ⟨buf.tail, is.good⟩
      reader.read_sample_ids sample_size (sample_ids ++ [r.1]) r.2

/-- The constructor `reader::reader(input_stream)`.  `ploidy0` is what
`ploidy_level_` holds when the constructor body does not assign it.  `ndebug`
tells whether `assert` is compiled out; when it is not and the decoded ploidy is
256 or more the program is aborted, which is the result `none`.  The eight bytes
of the version string are extracted and not looked at. -/
def reader.ctor (u : unspecified) (ndebug : Bool) (ploidy0 : Nat)
    (input_stream : istream) : Option reader :=
  let is := (input_stream.read 8).2
  match varint_decode is.buf with
  | none => some ⟨[], [], ploidy0, istream.get ⟨[], is.good⟩⟩
  | some (sample_size, buf) =>
    let l := reader.read_sample_ids sample_size [] ⟨buf.tail, is.good⟩
    if l.1 = 0 then
      match varint_decode l.2.2.buf with
      | none => some ⟨l.2.1, [], ploidy0, istream.get ⟨[], l.2.2.good⟩⟩
      | some (sz, buf) =>
        let c := read_string [] sz ⟨buf.tail, l.2.2.good⟩
        let p : Nat × List Nat :=
          match varint_decode c.2.buf with
          | some (sz, buf) => (sz, buf)
          | none => (u.trunc_varint sz c.2.buf, [])
        if p.1 < 256 ∨ ndebug = true then
          some ⟨l.2.1, c.1, p.1 % 256, istream.get ⟨p.2, c.2.good⟩⟩
        else none
    else some ⟨l.2.1, [], ploidy0, istream.get l.2.2⟩

/-- The operator `reader::operator>>(destination)`: the reader and the marker
afterwards.  The product `sample_ids_.size() * ploidy_level_` is a 64-bit value. -/
def reader.extract (u : unspecified) (r : reader) (destination : marker) : reader × marker :=
  let res := marker.read u destination
    ((r.sample_ids_.length * r.ploidy_level_) % u64) r.input_stream_
  ({ r with input_stream_ := res.2 }, res.1)

/-- A sequence of calls of `reader::operator>>`, one per destination in the list:
the reader afterwards and the markers in the order they were decoded. -/
def reader.extract_all (u : unspecified) : reader → List marker → reader × List marker
  | r, [] => (r, [])
  | r, d :: ds =>
    let e := reader.extract u r d
    let rest := reader.extract_all u e.1 ds
    (rest.1, e.2 :: rest.2)

/-- A length-prefixed string of the header: a varint length, then the bytes. -/
def length_prefixed (s : List Nat) : List Nat :=
  varint_encode s.length ++ s

/-- A complete header as the file format lays it out: eight bytes, the sample
count, the sample ids, the chromosome and the ploidy. -/
def header_bytes (magic : List Nat) (sample_ids : List (List Nat)) (chromosome : List Nat)
    (ploidy : Nat) : List Nat :=
  magic ++ (varint_encode sample_ids.length ++ (sample_ids.flatMap length_prefixed ++
    (length_prefixed chromosome ++ varint_encode ploidy)))

/-- The header of the scenario with sample ids "a" and "bb", chromosome "chr1"
and ploidy 2, after eight bytes "cvcf..." of version string. -/
def scenario_header : List Nat :=
  header_bytes [99, 118, 99, 102, 0, 1, 0, 0] [[97], [98, 98]] [99, 104, 114, 49] 2

/-! ## Groups of the writer handed to the expansion of the reader -/

/-- What the header loop of `marker::read` (lines 108 to 119) stores in an element
of `rle_non_zero_haplotypes` for a header that carries the flags, the gap and the
repeat count of `c`: the status taken from bit 7, the gap, and the repeat count
when bit 6 is set, 0 otherwise. -/
def rle_call.decoded (c : rle_call) : sparse_vector_allele × Nat :=
  (⟨if c.allele_repeat_pfx / 128 % 2 ≠ 0 then has_alt else is_missing, c.offset⟩,
    if c.allele_repeat_pfx / 64 % 2 ≠ 0 then c.number_of_repeats else 0)

/-- The header in the stream that a pass of the outer RLE loop of `marker::write`
emits: the `has_alt` flag, the gap, and the repeat count when the repeat flag is
set. -/
def rle_call.header (c : rle_call) : rle_header :=
  ⟨decide (c.allele_repeat_pfx / 128 % 2 ≠ 0), c.offset,
    if c.allele_repeat_pfx / 64 % 2 ≠ 0 then some c.number_of_repeats else none⟩

/-- A group as the specification names it: status, gap and run length (the
entries merged besides the anchor), in the form the expansion loop takes. -/
def run_group (r : (allele_status × Nat) × Nat) : sparse_vector_allele × Nat :=
  (⟨r.1.1, r.1.2⟩, r.2)

/-- The scenario with two runs and a lone entry: `has_alt` at 2, 5, 8, 11,
`is_missing` at 13, 15 and `has_alt` at 20, with `haplotype_count = 24`. -/
def scenario_runs : marker :=
  ⟨[⟨has_alt, 2⟩, ⟨has_alt, 5⟩, ⟨has_alt, 8⟩, ⟨has_alt, 11⟩, ⟨is_missing, 13⟩,
    ⟨is_missing, 15⟩, ⟨has_alt, 20⟩], [65], [67], 100, 24⟩

/-! ## The command line of `sav import` -/

/-- The member `has_arg` of `struct option` of `<getopt.h>`, with the two values
the table of `import_prog_args` uses. -/
inductive has_arg where
  | no_argument
  | required_argument
  deriving DecidableEq, Repr

/-- An entry of the table handed to `getopt_long`: the members `name`, `has_arg`
and `val` of `struct option` (the member `flag` is 0 in every entry of the table). -/
structure long_option where
  name : List Char
  arg : has_arg
  val : Char
  deriving DecidableEq, Repr

/-- The table `long_options_` that the constructor of `import_prog_args` builds
(lines 32 to 41), without the closing all-zero entry. -/
def long_options_ : List long_option :=
  [⟨"block-size".toList, has_arg.required_argument, 'b'⟩,
   ⟨"data-format".toList, has_arg.required_argument, 'd'⟩,
   ⟨"help".toList, has_arg.no_argument, 'h'⟩,
   ⟨"regions".toList, has_arg.required_argument, 'r'⟩,
   ⟨"sample-ids".toList, has_arg.required_argument, 'i'⟩,
   ⟨"sample-ids-file".toList, has_arg.required_argument, 'I'⟩]

/-- The option string handed to `getopt_long` at line 74. -/
def optstring : List Char := "0123456789b:f:hr:s:S:".toList

/-- What one call of `getopt_long` hands back: the value returned (`'?'` for an
element it does not accept) and `optarg`. -/
structure getopt_return where
  opt : Char
  optarg : Option (List Char)
  deriving DecidableEq, Repr

/-- The C library looks a short option character up in the option string: `none`
when the character is not an option (not in the string, or the colon), else
whether a colon follows it, which means the option takes an argument. -/
def lookup_short : List Char → Char → Option Bool
  | [], _ => none
  | x :: rest, c =>
    if x = c ∧ c ≠ ':' then some (rest.head? = some ':') else lookup_short rest c

/-- The C library scans the characters of an element `-abc` of `argv`: one
return per character; an option with an argument takes the rest of the element,
or the next element `next` when nothing is left (the second component tells that
`next` was taken), and is an error when there is neither. -/
def short_cluster (opts : List Char) :
    List Char → Option (List Char) → List getopt_return × Bool
  | [], _ => ([], false)
  | c :: cs, next =>
    match lookup_short opts c with
    | none =>
      let r := short_cluster opts cs next
      (⟨'?', none⟩ :: r.1, r.2)
    | some false =>
      let r := short_cluster opts cs next
      (⟨c, none⟩ :: r.1, r.2)
    | some true =>
      if cs ≠ [] then ([⟨c, some cs⟩], false)
      else
        match next with
        | some a => ([⟨c, some a⟩], true)
        | none => ([⟨'?', none⟩], false)

/-- The C library looks the name of an element `--name` up in the table: an
exact match wins; otherwise the entries the name abbreviates, provided they all
agree in `has_arg` and `val`; otherwise nothing. -/
def lookup_long (table : List long_option) (name : List Char) : Option long_option :=
  match table.find? (fun o => decide (o.name = name)) with
  | some o => some o
  | none =>
    match table.filter (fun o => name.isPrefixOf o.name) with
    | [] => none
    | o :: os =>
      if os.all (fun p => decide (p.arg = o.arg ∧ p.val = o.val)) then some o else none

/-- The C library handles an element `--name` or `--name=value` of `argv`
(`body` is what follows the two dashes): the return, and whether the next element
`next` was taken as the argument. -/
def long_element (table : List long_option) (body : List Char)
    (next : Option (List Char)) : getopt_return × Bool :=
  let name := body.takeWhile (fun c => decide (c ≠ '='))
  let value := (body.dropWhile (fun c => decide (c ≠ '='))).tail?
  match lookup_long table name with
  | none => (⟨'?', none⟩, false)
  | some o =>
    match o.arg, value with
    | has_arg.required_argument, some v => (⟨o.val, some v⟩, false)
    | has_arg.required_argument, none =>
      (match next with
       | some a => (⟨o.val, some a⟩, true)
       | none => (⟨'?', none⟩, false))
    | has_arg.no_argument, some _ => (⟨'?', none⟩, false)
    | has_arg.no_argument, none => (⟨o.val, none⟩, false)

/-- The successive calls of the C library function `getopt_long(argc, argv,
optstring, longopts, &index)` until it returns -1, in its default mode (the option
string starts with neither `+` nor `-`, so operands may stand between the options
and are moved behind them).  The argument is `argv` from `argv[optind]` on, with
`optind` 1 at the start; `skip` tells that the first element was taken as the
argument of the option before it.  The result is the sequence of returns and the
operands `argv[optind], ...` left when -1 is returned. -/
def getopt_long (opts : List Char) (table : List long_option) :
    Bool → List (List Char) → List getopt_return × List (List Char)
  | _, [] => ([], [])
  | true, _ :: rest => getopt_long opts table false rest
  | false, a :: rest =>
    if a = ['-', '-'] then ([], rest)
    else
      match a with
      | '-' :: '-' :: body =>
        let r := long_element table body rest.head?
        let s := getopt_long opts table r.2 rest
        (r.1 :: s.1, s.2)
      | '-' :: c :: cs =>
        let r := short_cluster opts (c :: cs) rest.head?
        let s := getopt_long opts table r.2 rest
        (r.1 ++ s.1, s.2)
      | _ =>
        let s := getopt_long opts table false rest
        (s.1, a :: s.2)

/-- The two enumerators of `savvy::fmt` that `import.cpp` names. -/
inductive fmt where
  | allele
  | haplotype_dosage
  deriving DecidableEq, Repr

/-- What `import_prog_args::parse` calls and the sources at hand do not define:
`std::atoi` of the C library and the helpers of `sav/utility.hpp`.  `region`
stands for `savvy::region`; a `std::set` of strings is given by its elements. -/
structure utility where
  region : Type
  atoi : List Char → Int
  split_string_to_vector : List Char → Char → List (List Char)
  string_to_region : List Char → region
  split_string_to_set : List Char → Char → List (List Char)
  split_file_to_set : List Char → List (List Char)

/-- The data members of `import_prog_args` that `parse` writes (lines 22 to 29). -/
structure import_prog_args (h : utility) where
  subset_ids_ : List (List Char)
  regions_ : List h.region
  input_path_ : List Char
  output_path_ : List Char
  compression_level_ : Int
  block_size_ : Nat
  help_ : Bool
  format_ : fmt

/-- The constructor `import_prog_args::import_prog_args()`: every member has its
default member initialiser. -/
def import_prog_args.ctor (h : utility) : import_prog_args h :=
  ⟨[], [], [], [], -1, 2048, false, fmt.allele⟩

/-- A value of type `int` (32 bits, two's complement).  Signed overflow is
undefined in C++; the embedding wraps, which takes ten digit flags or more. -/
def int32 (x : Int) : Int :=
  (x + 2 ^ 31) % 2 ^ 32 - 2 ^ 31

/-- The test of the labels `case '0'` to `case '9'`. -/
def is_digit (c : Char) : Bool :=
  decide (48 ≤ c.toNat ∧ c.toNat ≤ 57)

/-- The body of the `switch` of `import_prog_args::parse` for one return of
`getopt_long`: the members afterwards, or `none` when the body executes
`return false` (the members are then as before). -/
def parse_switch (h : utility) (a : import_prog_args h) (e : getopt_return) :
    Option (import_prog_args h) :=
  if is_digit e.opt then
    let c : Int := if a.compression_level_ < 0 then 0 else a.compression_level_
    some { a with compression_level_ := int32 (int32 (c * 10) + ((e.opt.toNat : Int) - 48)) }
  else if e.opt = 'b' then
    let v := h.atoi (e.optarg.getD [])
    some { a with block_size_ := if v > 0xFFFF then 0xFFFF else (v % 65536).toNat }
  else if e.opt = 'd' then
    let str_opt_arg := e.optarg.getD []
    if str_opt_arg = "HDS".toList then some { a with format_ := fmt.haplotype_dosage }
    else if str_opt_arg ≠ "GT".toList then none
    else some a
  else if e.opt = 'h' then some { a with help_ := true }
  else if e.opt = 'r' then
    some { a with regions_ := a.regions_ ++
      (h.split_string_to_vector (e.optarg.getD []) ',').map h.string_to_region }
  else if e.opt = 'i' then
    some { a with subset_ids_ := h.split_string_to_set (e.optarg.getD []) ',' }
  else if e.opt = 'I' then
    some { a with subset_ids_ := h.split_file_to_set (e.optarg.getD []) }
  else none

/-- The `while` loop of `import_prog_args::parse` over the returns of
`getopt_long`: `false` when the body executed `return false`, and the members. -/
def parse_loop (h : utility) (a : import_prog_args h) :
    List getopt_return → Bool × import_prog_args h
  | [] => (true, a)
  | e :: es =>
    match parse_switch h a e with
    | none => (false, a)
    | some a => parse_loop h a es

/-- Lines 160 to 165 of `import_prog_args::parse`. -/
def parse_finish (h : utility) (a : import_prog_args h) : Bool × import_prog_args h :=
  (true, { a with compression_level_ :=
    if a.compression_level_ < 0 then 3
    else if a.compression_level_ > 19 then 19 else a.compression_level_ })

/-- The function `import_prog_args::parse(argc, argv)`: the value returned and the
members afterwards.  `argv[0]` is not looked at. -/
def import_prog_args.parse (h : utility) (a : import_prog_args h)
    (argv : List (List Char)) : Bool × import_prog_args h :=
  let g := getopt_long optstring long_options_ false argv.tail
  let l := parse_loop h a g.1
  if l.1 = false then l
  else
    match g.2 with
    | [] =>
      if l.2.regions_.length ≠ 0 then (false, l.2)
      else parse_finish h { l.2 with input_path_ := "/dev/stdin".toList,
                                     output_path_ := "/dev/stdout".toList }
    | [input] =>
      parse_finish h { l.2 with input_path_ := input, output_path_ := "/dev/stdout".toList }
    | [input, output] =>
      parse_finish h { l.2 with input_path_ := input, output_path_ := output }
    | _ => (false, l.2)

/-- The accessor `import_prog_args::compression_level()`: the member as a
`std::uint8_t`. -/
def import_prog_args.compression_level {h : utility} (a : import_prog_args h) : Nat :=
  (a.compression_level_ % 256).toNat
/-! ## The encoders emit as many bytes as the width functions report -/

theorem varint_encode_loop_length (fuel x : Nat) :
    (varint_encode_loop fuel x).length = varint_groups fuel x := by
  induction fuel generalizing x with
  | zero => simp [varint_encode_loop, varint_groups]
  | succ n ih =>
    by_cases h : x < 128
    · have h0 : x / 128 = 0 := Nat.div_eq_of_lt h
      simp [varint_encode_loop, varint_groups, h, h0]
    · have h0 : ¬ x / 128 = 0 := by omega
      simp [varint_encode_loop, varint_groups, h, h0, ih]
      omega

theorem varint_encode_length (x : Nat) :
    (varint_encode x).length = varint_encoded_byte_width x := by
  simp [varint_encode, varint_encoded_byte_width, varint_encode_loop_length]

theorem one_bit_encode_length (p x : Nat) :
    (one_bit_prefixed_varint.encode p x).length =
      one_bit_prefixed_varint.encoded_byte_width x := by
  unfold one_bit_prefixed_varint.encode one_bit_prefixed_varint.encoded_byte_width
  by_cases h : x % u64 < 64
  · have h0 : x % u64 / 64 = 0 := Nat.div_eq_of_lt h
    simp [h, h0]
  · have h0 : ¬ x % u64 / 64 = 0 := by omega
    simp [h, h0, varint_encode_loop_length]
    omega

theorem two_bit_encode_length (p x : Nat) :
    (two_bit_prefixed_varint.encode p x).length =
      two_bit_prefixed_varint.encoded_byte_width x := by
  unfold two_bit_prefixed_varint.encode two_bit_prefixed_varint.encoded_byte_width
  by_cases h : x % u64 < 32
  · have h0 : x % u64 / 32 = 0 := Nat.div_eq_of_lt h
    simp [h, h0]
  · have h0 : ¬ x % u64 / 32 = 0 := by omega
    simp [h, h0, varint_encode_loop_length]
    omega

theorem rle_call_bytes_length (it : sparse_vector_allele) (offset n : Nat) :
    (rle_call.close it offset n).bytes.length = rle_group_size offset n := by
  unfold rle_call.bytes rle_call.close rle_group_size
  by_cases h : n = 0 <;> simp [h, two_bit_encode_length, varint_encode_length]

theorem plain_payload_length (ret last_pos : Nat) (es : List sparse_vector_allele) :
    ret + ((write_plain_calls last_pos es).flatMap plain_call.bytes).length =
      calculate_serialized_gt_size_loop ret last_pos es := by
  induction es generalizing ret last_pos with
  | nil => simp [write_plain_calls, calculate_serialized_gt_size_loop]
  | cons e es ih =>
    simp only [write_plain_calls, calculate_serialized_gt_size_loop, List.flatMap_cons,
      List.length_append]
    rw [← ih]
    simp [plain_call.bytes, one_bit_encode_length]
    omega

theorem rle_payload_length (ret offset : Nat) (it : sparse_vector_allele)
    (last_pos n : Nat) (es : List sparse_vector_allele) :
    ret + ((write_rle_calls offset it last_pos n es).flatMap rle_call.bytes).length =
      calculate_rle_serialized_gt_size_loop ret offset it last_pos n es := by
  induction es generalizing ret offset it last_pos n with
  | nil =>
    simp [write_rle_calls, calculate_rle_serialized_gt_size_loop, rle_call_bytes_length]
  | cons e es ih =>
    unfold write_rle_calls calculate_rle_serialized_gt_size_loop
    split
    · rw [← ih]
      simp only [List.flatMap_cons, List.length_append, rle_call_bytes_length]
      omega
    · rw [← ih]

/-! ## Binary search, gaps, and reading back what was written -/

theorem ascending_getD (xs : List sparse_vector_allele) (h : strictly_ascending xs)
    (j k : Nat) (hjk : j < k) (hk : k < xs.length) :
    (xs.getD j default).offset < (xs.getD k default).offset := by
  have hj : j < xs.length := by omega
  have := (List.pairwise_iff_getElem.mp h) j k hj hk hjk
  rw [List.getD_eq_getElem _ _ hj, List.getD_eq_getElem _ _ hk]
  exact this

theorem lower_bound_loop_spec (xs : List sparse_vector_allele) (h : strictly_ascending xs)
    (i fuel first len : Nat) (hfuel : len ≤ fuel) (hlen : first + len ≤ xs.length)
    (hlo : ∀ j, j < first → (xs.getD j default).offset < i)
    (hhi : ∀ j, first + len ≤ j → j < xs.length → i ≤ (xs.getD j default).offset) :
    lower_bound_loop xs i fuel first len ≤ xs.length ∧
    (∀ j, j < lower_bound_loop xs i fuel first len → (xs.getD j default).offset < i) ∧
    (∀ j, lower_bound_loop xs i fuel first len ≤ j → j < xs.length →
      i ≤ (xs.getD j default).offset) := by
  induction fuel generalizing first len with
  | zero =>
    have : len = 0 := by omega
    subst this
    exact ⟨by simpa [lower_bound_loop] using hlen, by simpa [lower_bound_loop] using hlo,
      by simpa [lower_bound_loop] using hhi⟩
  | succ n ih =>
    unfold lower_bound_loop
    by_cases h0 : len = 0
    · subst h0
      simp only [if_true]
      exact ⟨by simpa using hlen, hlo, by simpa using hhi⟩
    · simp only [h0, if_false]
      have hmid : first + len / 2 < xs.length := by omega
      by_cases hc : (xs.getD (first + len / 2) default).offset < i
      · simp only [hc, if_true]
        apply ih
        · omega
        · omega
        · intro j hj
          by_cases hjm : j = first + len / 2
          · rw [hjm]; exact hc
          · have := ascending_getD xs h j (first + len / 2) (by omega) hmid
            omega
        · intro j hj hjl
          exact hhi j (by omega) hjl
      · simp only [hc, if_false]
        apply ih
        · omega
        · omega
        · exact hlo
        · intro j hj hjl
          by_cases hjm : j = first + len / 2
          · rw [hjm]; omega
          · have := ascending_getD xs h (first + len / 2) j (by omega) hjl
            omega

theorem lower_bound_spec (xs : List sparse_vector_allele) (h : strictly_ascending xs) (i : Nat) :
    lower_bound xs i ≤ xs.length ∧
    (∀ j, j < lower_bound xs i → (xs.getD j default).offset < i) ∧
    (∀ j, lower_bound xs i ≤ j → j < xs.length → i ≤ (xs.getD j default).offset) := by
  unfold lower_bound
  apply lower_bound_loop_spec xs h i xs.length 0 xs.length (le_refl _) (by omega)
  · intro j hj; omega
  · intro j hj hjl; omega

theorem u64_sub_of_le (a b : Nat) (hab : b ≤ a) (ha : a < u64) : u64_sub a b = a - b := by
  unfold u64_sub
  have hb : b < u64 := by omega
  rw [Nat.mod_eq_of_lt ha, Nat.mod_eq_of_lt hb]
  have h2 : a + u64 - b = (a - b) + u64 := by omega
  rw [h2, Nat.add_mod_right, Nat.mod_eq_of_lt (by omega)]

theorem u64_add_of_lt (a b : Nat) (h : a + b < u64) : u64_add a b = a + b := by
  unfold u64_add
  exact Nat.mod_eq_of_lt h

theorem write_plain_calls_length (last_pos : Nat) (es : List sparse_vector_allele) :
    (write_plain_calls last_pos es).length = es.length := by
  induction es generalizing last_pos with
  | nil => rfl
  | cons e es ih => simp [write_plain_calls, ih]

theorem alt_bit_flag (s : allele_status) : alt_bit s / 128 % 2 = 1 ↔ s = has_alt := by
  cases s <;> simp [alt_bit]

theorem write_plain_calls_getD (es : List sparse_vector_allele)
    (hasc : strictly_ascending es) (hlt : ∀ e ∈ es, e.offset < u64)
    (last_pos : Nat) (hlp : ∀ e ∈ es, last_pos ≤ e.offset) (i : Nat) (hi : i < es.length) :
    (if i = 0 then last_pos else (es.getD (i - 1) default).offset + 1) ≤
        (es.getD i default).offset ∧
    (write_plain_calls last_pos es).getD i default =
      ⟨alt_bit (es.getD i default).status,
        (es.getD i default).offset -
          (if i = 0 then last_pos else (es.getD (i - 1) default).offset + 1)⟩ := by
  induction es generalizing last_pos i with
  | nil => simp at hi
  | cons e es ih =>
    have he : e.offset < u64 := hlt e (List.mem_cons_self _ _)
    have hle : last_pos ≤ e.offset := hlp e (List.mem_cons_self _ _)
    cases i with
    | zero =>
      simp only [List.getD_cons_zero, if_true, write_plain_calls]
      exact ⟨hle, by rw [u64_sub_of_le _ _ hle he]⟩
    | succ j =>
      have hj : j < es.length := by simpa using hi
      have hasc' : strictly_ascending es := (List.pairwise_cons.mp hasc).2
      have hhead : ∀ x ∈ es, e.offset < x.offset := (List.pairwise_cons.mp hasc).1
      have hlt' : ∀ x ∈ es, x.offset < u64 := fun x hx => hlt x (List.mem_cons_of_mem _ hx)
      have hmem : es.getD 0 default ∈ es := by
        rw [List.getD_eq_getElem _ _ (by omega)]; exact List.getElem_mem _
      have hsucc : e.offset + 1 < u64 := by
        have h1 := hhead _ hmem
        have h2 := hlt' _ hmem
        omega
      have hadd : u64_add e.offset 1 = e.offset + 1 := u64_add_of_lt _ _ hsucc
      have hlp' : ∀ x ∈ es, u64_add e.offset 1 ≤ x.offset := by
        intro x hx
        have := hhead x hx
        omega
      have := ih hasc' hlt' (u64_add e.offset 1) hlp' j hj
      simp only [write_plain_calls, List.getD_cons_succ, Nat.add_sub_cancel]
      have hne : ¬ (j + 1 = 0) := by omega
      simp only [hne, if_false]
      cases j with
      | zero =>
        simp only [List.getD_cons_zero]
        simpa [hadd] using this
      | succ k =>
        simp only [List.getD_cons_succ]
        simpa using this

/-! ## Decoding what the encoders wrote -/

theorem varint_decode_encode_loop (fuel x shift acc : Nat) (rest : List Nat)
    (hx : x < 128 ^ (fuel + 1)) :
    ∃ b, varint_decode_loop shift acc (varint_encode_loop fuel x ++ rest) =
      some ((acc + x * 2 ^ shift) % u64, b :: rest) := by
  induction fuel generalizing x shift acc with
  | zero =>
    have hx' : x < 128 := by simpa using hx
    refine ⟨x % 128, ?_⟩
    have h1 : x % 128 / 128 % 2 = 0 := by omega
    have h2 : x % 128 % 128 = x := by omega
    simp [varint_encode_loop, varint_decode_loop, h1, h2]
  | succ n ih =>
    by_cases h0 : x / 128 = 0
    · have hx' : x < 128 := by omega
      refine ⟨x % 128, ?_⟩
      have h1 : x % 128 / 128 % 2 = 0 := by omega
      have h2 : x % 128 % 128 = x := by omega
      simp [varint_encode_loop, varint_decode_loop, h0, h1, h2]
    · have hx' : x / 128 < 128 ^ (n + 1) := by
        rw [Nat.div_lt_iff_lt_mul (by norm_num)]
        calc x < 128 ^ (n + 1 + 1) := hx
          _ = 128 ^ (n + 1) * 128 := by ring
      obtain ⟨b, hb⟩ := ih (x / 128) (shift + 7) ((acc + (x % 128) * 2 ^ shift) % u64) hx'
      refine ⟨b, ?_⟩
      have h1 : ¬ ((x % 128 + 128) / 128 % 2 = 0) := by omega
      have h2 : (x % 128 + 128) % 128 = x % 128 := by omega
      simp only [varint_encode_loop, h0, if_false, List.cons_append, varint_decode_loop, h1, h2]
      rw [hb]
      congr 2
      rw [Nat.add_mod, Nat.mod_mod, ← Nat.add_mod]
      congr 1
      have h3 : x = 128 * (x / 128) + x % 128 := (Nat.div_add_mod x 128).symm
      have h4 : 2 ^ (shift + 7) = 2 ^ shift * 128 := by rw [pow_add]; norm_num
      rw [h4]
      conv_rhs => rw [h3]
      ring

theorem u64_lt_pow : u64 ≤ 128 ^ (9 + 1) := by decide

theorem varint_decode_encode (v : Nat) (rest : List Nat) (hv : v < u64) :
    ∃ b, varint_decode (varint_encode v ++ rest) = some (v, b :: rest) := by
  have hx : v % u64 < 128 ^ (9 + 1) := by
    rw [Nat.mod_eq_of_lt hv]; exact lt_of_lt_of_le hv u64_lt_pow
  obtain ⟨b, hb⟩ := varint_decode_encode_loop 9 (v % u64) 0 0 rest hx
  refine ⟨b, ?_⟩
  unfold varint_decode varint_encode
  rw [hb]
  simp [Nat.mod_eq_of_lt hv]

theorem one_bit_decode_encode (p v : Nat) (rest : List Nat) (hv : v < u64) :
    ∃ b, one_bit_prefixed_varint.decode (one_bit_prefixed_varint.encode p v ++ rest) =
      some ((p / 128 % 2) * 128, v, b :: rest) := by
  unfold one_bit_prefixed_varint.encode
  simp only [Nat.mod_eq_of_lt hv]
  by_cases h0 : v / 64 = 0
  · refine ⟨(p / 128 % 2) * 128 + v % 64, ?_⟩
    have h1 : ((p / 128 % 2) * 128 + v % 64) / 64 % 2 = 0 := by omega
    have h2 : ((p / 128 % 2) * 128 + v % 64) / 128 % 2 = p / 128 % 2 := by omega
    have h3 : ((p / 128 % 2) * 128 + v % 64) % 64 = v := by omega
    simp [h0, one_bit_prefixed_varint.decode, h1, h2, h3]
  · have hx : v / 64 < 128 ^ (9 + 1) := by
      have : v < 128 ^ (9 + 1) := lt_of_lt_of_le hv u64_lt_pow
      exact lt_of_le_of_lt (Nat.div_le_self _ _) this
    obtain ⟨b, hb⟩ := varint_decode_encode_loop 9 (v / 64) 6 (v % 64) rest hx
    refine ⟨b, ?_⟩
    have h1 : ¬ (((p / 128 % 2) * 128 + v % 64 + 64) / 64 % 2 = 0) := by omega
    have h2 : ((p / 128 % 2) * 128 + v % 64 + 64) / 128 % 2 = p / 128 % 2 := by omega
    have h3 : ((p / 128 % 2) * 128 + v % 64 + 64) % 64 = v % 64 := by omega
    have h4 : (v % 64 + v / 64 * 2 ^ 6) % u64 = v := by
      have : v % 64 + v / 64 * 2 ^ 6 = v := by omega
      rw [this, Nat.mod_eq_of_lt hv]
    simp only [h0, if_false, List.cons_append, one_bit_prefixed_varint.decode, h1, h2, h3, hb, h4]

theorem two_bit_decode_encode (p v : Nat) (rest : List Nat) (hv : v < u64) :
    ∃ b, two_bit_prefixed_varint.decode (two_bit_prefixed_varint.encode p v ++ rest) =
      some ((p / 64 % 4) * 64, v, b :: rest) := by
  unfold two_bit_prefixed_varint.encode
  simp only [Nat.mod_eq_of_lt hv]
  by_cases h0 : v / 32 = 0
  · refine ⟨(p / 64 % 4) * 64 + v % 32, ?_⟩
    have h1 : ((p / 64 % 4) * 64 + v % 32) / 32 % 2 = 0 := by omega
    have h2 : ((p / 64 % 4) * 64 + v % 32) / 64 % 4 = p / 64 % 4 := by omega
    have h3 : ((p / 64 % 4) * 64 + v % 32) % 32 = v := by omega
    simp [h0, two_bit_prefixed_varint.decode, h1, h2, h3]
  · have hx : v / 32 < 128 ^ (9 + 1) := by
      have : v < 128 ^ (9 + 1) := lt_of_lt_of_le hv u64_lt_pow
      exact lt_of_le_of_lt (Nat.div_le_self _ _) this
    obtain ⟨b, hb⟩ := varint_decode_encode_loop 9 (v / 32) 5 (v % 32) rest hx
    refine ⟨b, ?_⟩
    have h1 : ¬ (((p / 64 % 4) * 64 + v % 32 + 32) / 32 % 2 = 0) := by omega
    have h2 : ((p / 64 % 4) * 64 + v % 32 + 32) / 64 % 4 = p / 64 % 4 := by omega
    have h3 : ((p / 64 % 4) * 64 + v % 32 + 32) % 32 = v % 32 := by omega
    have h4 : (v % 32 + v / 32 * 2 ^ 5) % u64 = v := by
      have : v % 32 + v / 32 * 2 ^ 5 = v := by omega
      rw [this, Nat.mod_eq_of_lt hv]
    simp only [h0, if_false, List.cons_append, two_bit_prefixed_varint.decode, h1, h2, h3, hb, h4]

/-! ## Reading a plain record back -/

theorem resize_length {α : Type} (xs : List α) (n : Nat) (fill : α) :
    (resize xs n fill).length = n := by
  simp [resize]; omega

theorem read_string_exact (s bytes rest : List Nat) :
    read_string s bytes.length ⟨bytes ++ rest, true⟩ = (bytes, ⟨rest, true⟩) := by
  unfold read_string
  simp only [resize_length]
  by_cases h : bytes.length = 0
  · have hb : bytes = [] := List.length_eq_zero.mp h
    subst hb
    simp [resize]
  · simp [h, istream.read, resize_length]

theorem u64_add_sub (a last_pos : Nat) (ha : a < u64) (hl : last_pos < u64) :
    u64_add last_pos (u64_sub a last_pos) = a := by
  unfold u64_add u64_sub
  rw [Nat.mod_eq_of_lt ha, Nat.mod_eq_of_lt hl]
  rw [Nat.add_mod, Nat.mod_mod, ← Nat.add_mod]
  have : last_pos + (a + u64 - last_pos) = a + u64 := by omega
  rw [this, Nat.add_mod_right, Nat.mod_eq_of_lt ha]

theorem u64_sub_lt (a b : Nat) : u64_sub a b < u64 :=
  Nat.mod_lt _ (by decide)

theorem u64_add_lt (a b : Nat) : u64_add a b < u64 :=
  Nat.mod_lt _ (by decide)

theorem status_of_alt_bit (s : allele_status) (h : s = has_alt ∨ s = is_missing) :
    (if alt_bit s / 128 % 2 * 128 ≠ 0 then has_alt else is_missing) = s := by
  rcases h with h | h <;> subst h <;> simp [alt_bit]

theorem read_plain_loop_written (u : unspecified) (es : List sparse_vector_allele)
    (hlt : ∀ e ∈ es, e.offset < u64)
    (hst : ∀ e ∈ es, e.status = has_alt ∨ e.status = is_missing)
    (last_pos : Nat) (hl : last_pos < u64) (old : List sparse_vector_allele)
    (hold : old.length = es.length) (b0 : Nat) (rest : List Nat) :
    ∃ b, read_plain_loop u last_pos old
        (b0 :: ((write_plain_calls last_pos es).flatMap plain_call.bytes ++ rest)) =
      (es, b :: rest) := by
  induction es generalizing last_pos old b0 with
  | nil =>
    have : old = [] := List.length_eq_zero.mp hold
    subst this
    exact ⟨b0, by simp [read_plain_loop, write_plain_calls]⟩
  | cons e es ih =>
    cases old with
    | nil => simp at hold
    | cons o old =>
      have he : e.offset < u64 := hlt e (List.mem_cons_self _ _)
      obtain ⟨b1, hb1⟩ := one_bit_decode_encode (alt_bit e.status) (u64_sub e.offset last_pos)
        ((write_plain_calls (u64_add e.offset 1) es).flatMap plain_call.bytes ++ rest)
        (u64_sub_lt _ _)
      obtain ⟨b, hb⟩ := ih (fun x hx => hlt x (List.mem_cons_of_mem _ hx))
        (fun x hx => hst x (List.mem_cons_of_mem _ hx)) (u64_add e.offset 1) (u64_add_lt _ _)
        old (by simpa using hold) b1
      refine ⟨b, ?_⟩
      simp only [write_plain_calls, List.flatMap_cons, plain_call.bytes, List.append_assoc,
        read_plain_loop]
      rw [hb1]
      simp only [u64_add_sub _ _ he hl, hb,
        status_of_alt_bit _ (hst e (List.mem_cons_self _ _))]

theorem read_alleles_plain_written (u : unspecified) (m : marker) (hm : m.well_formed)
    (hw : m.writes_rle = false) (old : List sparse_vector_allele) (sz : Nat) (rest : List Nat) :
    ∃ b, read_alleles u old sz
        (one_bit_prefixed_varint.encode (write_mode_and_count m).1 (write_mode_and_count m).2 ++
          (write_payload m ++ rest)) =
      (m.non_zero_haplotypes_, b :: rest) := by
  have h1 : write_mode_and_count m = (0x00, m.non_zero_haplotypes_.length) := by
    simp [write_mode_and_count, hw]
  obtain ⟨b0, hb0⟩ := one_bit_decode_encode 0x00 m.non_zero_haplotypes_.length
    (write_payload m ++ rest) hm.size_lt
  obtain ⟨b, hb⟩ := read_plain_loop_written u m.non_zero_haplotypes_ hm.offset_lt hm.stored 0
    (by decide) (resize old m.non_zero_haplotypes_.length u.value_init) (resize_length _ _ _)
    b0 rest
  refine ⟨b, ?_⟩
  unfold read_alleles
  rw [h1]
  simp only [hb0]
  simp only [write_payload, hw, write_plain_payload] at hb ⊢
  simpa using hb

theorem read_write_plain (u : unspecified) (destination m : marker) (hm : m.well_formed)
    (hw : m.writes_rle = false) (haplotype_count : Nat) (rest : List Nat) :
    marker.read u destination haplotype_count ⟨m.write ++ rest, true⟩ =
      (⟨m.non_zero_haplotypes_, m.ref_, m.alt_, m.position_, haplotype_count⟩, ⟨rest, true⟩) := by
  obtain ⟨b1, h1⟩ := varint_decode_encode m.position_
    (varint_encode m.ref_.length ++ (m.ref_ ++ (varint_encode m.alt_.length ++ (m.alt_ ++
      (one_bit_prefixed_varint.encode (write_mode_and_count m).1 (write_mode_and_count m).2 ++
        (write_payload m ++ rest)))))) hm.position_lt
  obtain ⟨b2, h2⟩ := varint_decode_encode m.ref_.length
    (m.ref_ ++ (varint_encode m.alt_.length ++ (m.alt_ ++
      (one_bit_prefixed_varint.encode (write_mode_and_count m).1 (write_mode_and_count m).2 ++
        (write_payload m ++ rest))))) hm.ref_lt
  obtain ⟨b3, h3⟩ := varint_decode_encode m.alt_.length
    (m.alt_ ++
      (one_bit_prefixed_varint.encode (write_mode_and_count m).1 (write_mode_and_count m).2 ++
        (write_payload m ++ rest))) hm.alt_lt
  obtain ⟨b4, h4⟩ := read_alleles_plain_written u m hm hw destination.non_zero_haplotypes_
    m.alt_.length rest
  simp only [marker.read, marker.write, write_site, List.append_assoc, h1, List.tail_cons, h2,
    read_string_exact, h3, h4, istream.get]
  rfl

/-! ## Decoding a source that ends too early -/

theorem varint_decode_loop_take (fuel x shift acc j : Nat)
    (hj : j < (varint_encode_loop fuel x).length) :
    varint_decode_loop shift acc ((varint_encode_loop fuel x).take j) = none := by
  induction fuel generalizing x shift acc j with
  | zero =>
    have : j = 0 := by simpa [varint_encode_loop] using hj
    subst this
    simp [varint_decode_loop]
  | succ n ih =>
    by_cases h0 : x / 128 = 0
    · have : j = 0 := by simpa [varint_encode_loop, h0] using hj
      subst this
      simp [varint_decode_loop]
    · cases j with
      | zero => simp [varint_decode_loop]
      | succ i =>
        have hi : i < (varint_encode_loop n (x / 128)).length := by
          simpa [varint_encode_loop, h0] using hj
        have h1 : ¬ ((x % 128 + 128) / 128 % 2 = 0) := by omega
        simp only [varint_encode_loop, h0, if_false, List.take_succ_cons, varint_decode_loop, h1]
        exact ih _ _ _ _ hi

theorem take_append_lt {α : Type} (l r : List α) (k : Nat) (hk : k < l.length) :
    (l ++ r).take k = l.take k := by
  rw [List.take_append_eq_append_take]
  have : k - l.length = 0 := by omega
  simp [this]

theorem take_append_ge {α : Type} (l r : List α) (k : Nat) (hk : l.length ≤ k) :
    (l ++ r).take k = l ++ r.take (k - l.length) := by
  rw [List.take_append_eq_append_take, List.take_of_length_le hk]

theorem varint_decode_take_lt (v : Nat) (rest : List Nat) (k : Nat)
    (hk : k < (varint_encode v).length) :
    varint_decode ((varint_encode v ++ rest).take k) = none := by
  rw [take_append_lt _ _ _ hk]
  exact varint_decode_loop_take _ _ _ _ _ hk

theorem varint_decode_take_ge (v : Nat) (rest : List Nat) (k : Nat) (hv : v < u64)
    (hk : (varint_encode v).length ≤ k) :
    ∃ b, varint_decode ((varint_encode v ++ rest).take k) =
      some (v, b :: rest.take (k - (varint_encode v).length)) := by
  rw [take_append_ge _ _ _ hk]
  exact varint_decode_encode v _ hv

theorem one_bit_decode_take_lt (p v : Nat) (rest : List Nat) (k : Nat)
    (hk : k < (one_bit_prefixed_varint.encode p v).length) :
    one_bit_prefixed_varint.decode ((one_bit_prefixed_varint.encode p v ++ rest).take k) =
      none := by
  rw [take_append_lt _ _ _ hk]
  unfold one_bit_prefixed_varint.encode at hk ⊢
  by_cases h0 : v % u64 / 64 = 0
  · have : k = 0 := by simpa [h0] using hk
    subst this
    simp [one_bit_prefixed_varint.decode]
  · cases k with
    | zero => simp [one_bit_prefixed_varint.decode]
    | succ i =>
      have hi : i < (varint_encode_loop 9 (v % u64 / 64)).length := by
        simpa [h0] using hk
      have h1 : ¬ (((p / 128 % 2) * 128 + v % u64 % 64 + 64) / 64 % 2 = 0) := by omega
      simp only [h0, if_false, List.take_succ_cons, one_bit_prefixed_varint.decode, h1,
        varint_decode_loop_take _ _ _ _ _ hi]

theorem one_bit_decode_take_ge (p v : Nat) (rest : List Nat) (k : Nat) (hv : v < u64)
    (hk : (one_bit_prefixed_varint.encode p v).length ≤ k) :
    ∃ b, one_bit_prefixed_varint.decode ((one_bit_prefixed_varint.encode p v ++ rest).take k) =
      some ((p / 128 % 2) * 128, v,
        b :: rest.take (k - (one_bit_prefixed_varint.encode p v).length)) := by
  rw [take_append_ge _ _ _ hk]
  exact one_bit_decode_encode p v _ hv

theorem two_bit_decode_take_lt (p v : Nat) (rest : List Nat) (k : Nat)
    (hk : k < (two_bit_prefixed_varint.encode p v).length) :
    two_bit_prefixed_varint.decode ((two_bit_prefixed_varint.encode p v ++ rest).take k) =
      none := by
  rw [take_append_lt _ _ _ hk]
  unfold two_bit_prefixed_varint.encode at hk ⊢
  by_cases h0 : v % u64 / 32 = 0
  · have : k = 0 := by simpa [h0] using hk
    subst this
    simp [two_bit_prefixed_varint.decode]
  · cases k with
    | zero => simp [two_bit_prefixed_varint.decode]
    | succ i =>
      have hi : i < (varint_encode_loop 9 (v % u64 / 32)).length := by
        simpa [h0] using hk
      have h1 : ¬ (((p / 64 % 4) * 64 + v % u64 % 32 + 32) / 32 % 2 = 0) := by omega
      simp only [h0, if_false, List.take_succ_cons, two_bit_prefixed_varint.decode, h1,
        varint_decode_loop_take _ _ _ _ _ hi]

theorem two_bit_decode_take_ge (p v : Nat) (rest : List Nat) (k : Nat) (hv : v < u64)
    (hk : (two_bit_prefixed_varint.encode p v).length ≤ k) :
    ∃ b, two_bit_prefixed_varint.decode ((two_bit_prefixed_varint.encode p v ++ rest).take k) =
      some ((p / 64 % 4) * 64, v,
        b :: rest.take (k - (two_bit_prefixed_varint.encode p v).length)) := by
  rw [take_append_ge _ _ _ hk]
  exact two_bit_decode_encode p v _ hv

theorem read_string_take_lt (s bytes rest : List Nat) (k : Nat) (hk : k < bytes.length) :
    (read_string s bytes.length ⟨(bytes ++ rest).take k, true⟩).2 = ⟨[], false⟩ := by
  unfold read_string
  simp only [resize_length]
  have h0 : bytes.length ≠ 0 := by omega
  have h1 : ¬ (bytes.length ≤ ((bytes ++ rest).take k).length) := by
    simp only [List.length_take, List.length_append]; omega
  have h2 : ¬ (bytes.length ≤ k) := by omega
  simp [h0, istream.read, h2]

theorem read_string_take_ge (s bytes rest : List Nat) (k : Nat) (hk : bytes.length ≤ k) :
    read_string s bytes.length ⟨(bytes ++ rest).take k, true⟩ =
      (bytes, ⟨rest.take (k - bytes.length), true⟩) := by
  rw [take_append_ge _ _ _ hk]
  exact read_string_exact s bytes _

theorem read_plain_loop_empty (u : unspecified) (t : Nat) (l : List sparse_vector_allele) :
    (read_plain_loop u t l []).2 = [] := by
  cases l <;> simp [read_plain_loop]

theorem read_rle_headers_empty (u : unspecified) (t : Nat)
    (l : List (sparse_vector_allele × Nat)) :
    (read_rle_headers u t l []).2.2 = [] := by
  cases l <;> simp [read_rle_headers]

theorem read_plain_loop_take (u : unspecified) (es : List sparse_vector_allele)
    (last_pos t : Nat) (old : List sparse_vector_allele) (hold : old.length = es.length)
    (b0 j : Nat)
    (hj : j < ((write_plain_calls last_pos es).flatMap plain_call.bytes).length) :
    (read_plain_loop u t old
      (b0 :: ((write_plain_calls last_pos es).flatMap plain_call.bytes).take j)).2 = [] := by
  induction es generalizing last_pos t old b0 j with
  | nil => simp [write_plain_calls] at hj
  | cons e es ih =>
    cases old with
    | nil => simp at hold
    | cons o old =>
      simp only [write_plain_calls, List.flatMap_cons, plain_call.bytes, List.length_append]
        at hj ⊢
      by_cases hlt : j < (one_bit_prefixed_varint.encode (alt_bit e.status)
          (u64_sub e.offset last_pos)).length
      · simp only [read_plain_loop, one_bit_decode_take_lt _ _ _ _ hlt, read_plain_loop_empty]
      · have hge := Nat.le_of_not_lt hlt
        obtain ⟨b1, hb1⟩ := one_bit_decode_take_ge (alt_bit e.status)
          (u64_sub e.offset last_pos)
          ((write_plain_calls (u64_add e.offset 1) es).flatMap plain_call.bytes) j
          (u64_sub_lt _ _) hge
        simp only [read_plain_loop, hb1]
        exact ih _ _ old (by simpa using hold) b1 _ (by omega)

theorem rle_call_close_pfx (it : sparse_vector_allele) (offset n : Nat) :
    (rle_call.close it offset n).allele_repeat_pfx / 64 % 2 ≠ 0 ↔
      (rle_call.close it offset n).number_of_repeats ≠ 0 := by
  unfold rle_call.close alt_bit
  by_cases h : n = 0 <;> by_cases hs : it.status = has_alt <;> simp [h, hs]

theorem write_rle_calls_bound (offset : Nat) (it : sparse_vector_allele)
    (last_pos n : Nat) (rest : List sparse_vector_allele) :
    (write_rle_calls offset it last_pos n rest).length ≤ rest.length + 1 ∧
    ∀ c ∈ write_rle_calls offset it last_pos n rest, c.number_of_repeats ≤ n + rest.length := by
  induction rest generalizing offset it last_pos n with
  | nil => simp [write_rle_calls, rle_call.close]
  | cons e es ih =>
    unfold write_rle_calls
    split
    · obtain ⟨h1, h2⟩ := ih (u64_sub e.offset last_pos) e (u64_add e.offset 1) 0
      refine ⟨by simpa using h1, ?_⟩
      intro c hc
      rcases List.mem_cons.mp hc with hc | hc
      · subst hc; simp [rle_call.close]
      · have := h2 c hc
        simp only [List.length_cons]; omega
    · obtain ⟨h1, h2⟩ := ih offset e (u64_add e.offset 1) (n + 1)
      refine ⟨by simp only [List.length_cons]; omega, ?_⟩
      intro c hc
      have := h2 c hc
      simp only [List.length_cons]; omega

theorem write_rle_calls_pfx (offset : Nat) (it : sparse_vector_allele)
    (last_pos n : Nat) (rest : List sparse_vector_allele) :
    ∀ c ∈ write_rle_calls offset it last_pos n rest,
      (c.allele_repeat_pfx / 64 % 2 ≠ 0 ↔ c.number_of_repeats ≠ 0) := by
  induction rest generalizing offset it last_pos n with
  | nil =>
    intro c hc
    simp only [write_rle_calls, List.mem_singleton] at hc
    subst hc
    exact rle_call_close_pfx it offset n
  | cons e es ih =>
    intro c hc
    unfold write_rle_calls at hc
    split at hc
    · rcases List.mem_cons.mp hc with hc | hc
      · subst hc
        exact rle_call_close_pfx it offset n
      · exact ih _ _ _ _ c hc
    · exact ih _ _ _ _ c hc

theorem write_rle_calls_offset (offset : Nat) (hoff : offset < u64)
    (it : sparse_vector_allele) (last_pos n : Nat) (rest : List sparse_vector_allele) :
    ∀ c ∈ write_rle_calls offset it last_pos n rest, c.offset < u64 := by
  induction rest generalizing offset it last_pos n with
  | nil =>
    intro c hc
    simp only [write_rle_calls, List.mem_singleton] at hc
    subst hc
    exact hoff
  | cons e es ih =>
    intro c hc
    unfold write_rle_calls at hc
    split at hc
    · rcases List.mem_cons.mp hc with hc | hc
      · subst hc
        exact hoff
      · exact ih _ (u64_sub_lt _ _) _ _ _ c hc
    · exact ih _ hoff _ _ _ c hc

theorem write_rle_groups_framed (m : marker) (hsize : m.non_zero_haplotypes_.length < u64) :
    (write_rle_groups m).length ≤ m.non_zero_haplotypes_.length ∧
    ∀ c ∈ write_rle_groups m, c.framed := by
  unfold write_rle_groups
  cases h : m.non_zero_haplotypes_ with
  | nil => simp
  | cons e es =>
    rw [h] at hsize
    simp only [List.length_cons] at hsize ⊢
    obtain ⟨h1, h2⟩ := write_rle_calls_bound (u64_sub e.offset 0) e (u64_add e.offset 1) 0 es
    refine ⟨h1, fun c hc =>
      ⟨write_rle_calls_offset _ (u64_sub_lt _ _) _ _ _ _ c hc, ?_,
        write_rle_calls_pfx _ _ _ _ _ c hc⟩⟩
    have := h2 c hc
    omega

theorem read_rle_headers_take (u : unspecified) (gs : List rle_call)
    (hgs : ∀ c ∈ gs, c.framed) (t : Nat) (l : List (sparse_vector_allele × Nat))
    (hl : gs.length ≤ l.length) (b0 j : Nat)
    (hj : j < (gs.flatMap rle_call.bytes).length) :
    (read_rle_headers u t l (b0 :: (gs.flatMap rle_call.bytes).take j)).2.2 = [] := by
  induction gs generalizing t l b0 j with
  | nil => simp at hj
  | cons g gs ih =>
    cases l with
    | nil => simp at hl
    | cons it l =>
      have hg : g.framed := hgs g (List.mem_cons_self _ _)
      have hgs' : ∀ c ∈ gs, c.framed := fun c hc => hgs c (List.mem_cons_of_mem _ hc)
      have hl' : gs.length ≤ l.length := by simpa using hl
      simp only [List.flatMap_cons, rle_call.bytes, List.length_append, List.append_assoc]
        at hj ⊢
      by_cases hlt : j < (two_bit_prefixed_varint.encode g.allele_repeat_pfx g.offset).length
      · simp [read_rle_headers, two_bit_decode_take_lt _ _ _ _ hlt, read_rle_headers_empty]
      · have hge := Nat.le_of_not_lt hlt
        obtain ⟨b1, hb1⟩ := two_bit_decode_take_ge g.allele_repeat_pfx g.offset
          ((if g.number_of_repeats ≠ 0 then varint_encode g.number_of_repeats else []) ++
            gs.flatMap rle_call.bytes) j hg.1 hge
        have hbit : g.allele_repeat_pfx / 64 % 4 * 64 / 64 % 2 = g.allele_repeat_pfx / 64 % 2 := by
          omega
        by_cases hr : g.number_of_repeats = 0
        · have hz : g.allele_repeat_pfx / 64 % 2 = 0 := by
            by_contra hc
            exact (hg.2.2.mp hc) hr
          simp only [hr, ne_eq, not_true_eq_false, if_false, List.nil_append, List.length_nil,
            Nat.zero_add] at hj hb1 ⊢
          simp only [read_rle_headers, hb1, hbit, hz, ne_eq, not_true_eq_false, false_and,
            if_false]
          exact ih hgs' t l hl' b1
            (j - (two_bit_prefixed_varint.encode g.allele_repeat_pfx g.offset).length)
            (by omega)
        · have hnz : g.allele_repeat_pfx / 64 % 2 ≠ 0 := hg.2.2.mpr hr
          simp only [hr, ne_eq, not_false_eq_true, if_true] at hj hb1 ⊢
          simp only [read_rle_headers, hb1, hbit, hnz, ne_eq, not_false_eq_true,
            reduceCtorEq, and_self, if_true, List.tail_cons]
          by_cases hlt2 : j - (two_bit_prefixed_varint.encode g.allele_repeat_pfx g.offset).length <
              (varint_encode g.number_of_repeats).length
          · simp only [varint_decode_take_lt _ _ _ hlt2, read_rle_headers_empty]
          · have hge2 := Nat.le_of_not_lt hlt2
            obtain ⟨b2, hb2⟩ := varint_decode_take_ge g.number_of_repeats
              (gs.flatMap rle_call.bytes) _ hg.2.1 hge2
            simp only [hb2]
            exact ih hgs' _ l hl' b2
              (j - (two_bit_prefixed_varint.encode g.allele_repeat_pfx g.offset).length -
                (varint_encode g.number_of_repeats).length)
              (by omega)

theorem read_alleles_empty (u : unspecified) (old : List sparse_vector_allele) (sz : Nat) :
    (read_alleles u old sz []).2 = [] := by
  unfold read_alleles
  simp only [one_bit_prefixed_varint.decode]
  split
  · exact read_rle_headers_empty _ _ _
  · exact read_plain_loop_empty _ _ _

theorem read_alleles_take (u : unspecified) (m : marker)
    (hsize : m.non_zero_haplotypes_.length < u64)
    (old : List sparse_vector_allele) (sz j : Nat)
    (hj : j < (one_bit_prefixed_varint.encode (write_mode_and_count m).1
      (write_mode_and_count m).2 ++ write_payload m).length) :
    (read_alleles u old sz
      ((one_bit_prefixed_varint.encode (write_mode_and_count m).1
        (write_mode_and_count m).2 ++ write_payload m).take j)).2 = [] := by
  by_cases hw : m.writes_rle = true
  · have h1 : write_mode_and_count m = (0x80, m.non_zero_haplotypes_.length) := by
      simp [write_mode_and_count, hw]
    have hp : write_payload m = (write_rle_groups m).flatMap rle_call.bytes := by
      simp [write_payload, hw, write_rle_payload]
    rw [h1, hp] at hj ⊢
    simp only [List.length_append] at hj
    unfold read_alleles
    by_cases hlt : j < (one_bit_prefixed_varint.encode 0x80 m.non_zero_haplotypes_.length).length
    · simp only [one_bit_decode_take_lt _ _ _ _ hlt]
      split
      · exact read_rle_headers_empty _ _ _
      · exact read_plain_loop_empty _ _ _
    · have hge := Nat.le_of_not_lt hlt
      obtain ⟨b, hb⟩ := one_bit_decode_take_ge 0x80 m.non_zero_haplotypes_.length
        ((write_rle_groups m).flatMap rle_call.bytes) j hsize hge
      have h2 : ¬ ((0x80 : Nat) / 128 % 2 * 128 = 0) := by decide
      obtain ⟨hlen, hframed⟩ := write_rle_groups_framed m hsize
      simp only [hb, ne_eq, h2, not_false_eq_true, if_true]
      exact read_rle_headers_take u (write_rle_groups m) hframed 0 _
        (by simpa using hlen) b
        (j - (one_bit_prefixed_varint.encode 0x80 m.non_zero_haplotypes_.length).length)
        (by omega)
  · have hw : m.writes_rle = false := by simpa using hw
    have h1 : write_mode_and_count m = (0x00, m.non_zero_haplotypes_.length) := by
      simp [write_mode_and_count, hw]
    have hp : write_payload m =
        (write_plain_calls 0 m.non_zero_haplotypes_).flatMap plain_call.bytes := by
      simp [write_payload, hw, write_plain_payload]
    rw [h1, hp] at hj ⊢
    simp only [List.length_append] at hj
    unfold read_alleles
    by_cases hlt : j < (one_bit_prefixed_varint.encode 0x00 m.non_zero_haplotypes_.length).length
    · simp only [one_bit_decode_take_lt _ _ _ _ hlt]
      split
      · exact read_rle_headers_empty _ _ _
      · exact read_plain_loop_empty _ _ _
    · have hge := Nat.le_of_not_lt hlt
      obtain ⟨b, hb⟩ := one_bit_decode_take_ge 0x00 m.non_zero_haplotypes_.length
        ((write_plain_calls 0 m.non_zero_haplotypes_).flatMap plain_call.bytes) j hsize hge
      simp only [hb, Nat.zero_div, Nat.zero_mod, Nat.zero_mul, ne_eq, not_true_eq_false,
        if_false]
      exact read_plain_loop_take u m.non_zero_haplotypes_ 0 0 _ (resize_length _ _ _) b
        (j - (one_bit_prefixed_varint.encode 0x00 m.non_zero_haplotypes_.length).length)
        (by omega)

theorem istream_get_empty (g : Bool) : istream.get ⟨[], g⟩ = ⟨[], false⟩ := by
  cases g <;> rfl

theorem read_truncated (u : unspecified) (destination m : marker) (hm : m.well_formed)
    (haplotype_count k : Nat) (hk : k < m.write.length) :
    (marker.read u destination haplotype_count ⟨m.write.take k, true⟩).2 = ⟨[], false⟩ := by
  have hW : m.write = varint_encode m.position_ ++ (varint_encode m.ref_.length ++
      (m.ref_ ++ (varint_encode m.alt_.length ++ (m.alt_ ++
        (one_bit_prefixed_varint.encode (write_mode_and_count m).1 (write_mode_and_count m).2 ++
          write_payload m))))) := by
    simp [marker.write, write_site, List.append_assoc]
  rw [hW] at hk ⊢
  simp only [List.length_append] at hk
  unfold marker.read
  simp only
  by_cases h1 : k < (varint_encode m.position_).length
  · simp only [varint_decode_take_lt _ _ _ h1, istream_get_empty]
  obtain ⟨b1, e1⟩ := varint_decode_take_ge m.position_ (varint_encode m.ref_.length ++
      (m.ref_ ++ (varint_encode m.alt_.length ++ (m.alt_ ++
        (one_bit_prefixed_varint.encode (write_mode_and_count m).1 (write_mode_and_count m).2 ++
          write_payload m))))) k hm.position_lt (Nat.le_of_not_lt h1)
  simp only [e1, List.tail_cons]
  generalize hk1 : k - (varint_encode m.position_).length = k1 at *
  by_cases h2 : k1 < (varint_encode m.ref_.length).length
  · simp only [varint_decode_take_lt _ _ _ h2, istream_get_empty]
  obtain ⟨b2, e2⟩ := varint_decode_take_ge m.ref_.length
      (m.ref_ ++ (varint_encode m.alt_.length ++ (m.alt_ ++
        (one_bit_prefixed_varint.encode (write_mode_and_count m).1 (write_mode_and_count m).2 ++
          write_payload m)))) k1 hm.ref_lt (Nat.le_of_not_lt h2)
  simp only [e2, List.tail_cons]
  generalize hk2 : k1 - (varint_encode m.ref_.length).length = k2 at *
  by_cases h3 : k2 < m.ref_.length
  · have e3 := read_string_take_lt destination.ref_ m.ref_ (varint_encode m.alt_.length ++
      (m.alt_ ++
        (one_bit_prefixed_varint.encode (write_mode_and_count m).1 (write_mode_and_count m).2 ++
          write_payload m))) k2 h3
    simp only [e3, varint_decode, varint_decode_loop, istream_get_empty]
  have e3 := read_string_take_ge destination.ref_ m.ref_ (varint_encode m.alt_.length ++
      (m.alt_ ++
        (one_bit_prefixed_varint.encode (write_mode_and_count m).1 (write_mode_and_count m).2 ++
          write_payload m))) k2 (Nat.le_of_not_lt h3)
  simp only [e3]
  generalize hk3 : k2 - m.ref_.length = k3 at *
  by_cases h4 : k3 < (varint_encode m.alt_.length).length
  · simp only [varint_decode_take_lt _ _ _ h4, istream_get_empty]
  obtain ⟨b4, e4⟩ := varint_decode_take_ge m.alt_.length
      (m.alt_ ++
        (one_bit_prefixed_varint.encode (write_mode_and_count m).1 (write_mode_and_count m).2 ++
          write_payload m)) k3 hm.alt_lt (Nat.le_of_not_lt h4)
  simp only [e4, List.tail_cons]
  generalize hk4 : k3 - (varint_encode m.alt_.length).length = k4 at *
  by_cases h5 : k4 < m.alt_.length
  · have e5 := read_string_take_lt destination.alt_ m.alt_
      (one_bit_prefixed_varint.encode (write_mode_and_count m).1 (write_mode_and_count m).2 ++
          write_payload m) k4 h5
    simp only [e5, read_alleles_empty, istream_get_empty]
  have e5 := read_string_take_ge destination.alt_ m.alt_
      (one_bit_prefixed_varint.encode (write_mode_and_count m).1 (write_mode_and_count m).2 ++
          write_payload m) k4 (Nat.le_of_not_lt h5)
  simp only [e5]
  have e6 := read_alleles_take u m hm.size_lt destination.non_zero_haplotypes_ m.alt_.length
    (k4 - m.alt_.length) (by simp only [List.length_append]; omega)
  simp only [e6, istream_get_empty]

/-! ## The RLE loop forms the maximal runs -/

theorem maximal_runs_cons {α : Type} [DecidableEq α] (a : α) (l : List α) :
    maximal_runs (a :: l) = push_run a 0 (maximal_runs l) := by
  cases h : maximal_runs l with
  | nil => simp [maximal_runs, h, push_run]
  | cons r rs =>
    obtain ⟨b, m⟩ := r
    simp [maximal_runs, h, push_run]

theorem push_run_push_run {α : Type} [DecidableEq α] (a : α) (n : Nat) (rs : List (α × Nat)) :
    push_run a n (push_run a 0 rs) = push_run a (n + 1) rs := by
  cases rs with
  | nil => simp [push_run]
  | cons r rs =>
    obtain ⟨b, m⟩ := r
    by_cases h : a = b
    · subst h; simp [push_run]; omega
    · simp [push_run, h]

theorem push_run_ne {α : Type} [DecidableEq α] (a b : α) (n : Nat) (rs : List (α × Nat))
    (h : a ≠ b) : push_run a n (push_run b 0 rs) = (a, n) :: push_run b 0 rs := by
  cases rs with
  | nil => simp [push_run, h]
  | cons r rs =>
    obtain ⟨c, m⟩ := r
    by_cases hc : b = c
    · subst hc; simp [push_run, h]
    · simp [push_run, h, hc]

theorem rle_call_close_eq (it : sparse_vector_allele) (offset n : Nat) :
    rle_call.close it offset n = run_header ((it.status, offset), n) := rfl

theorem write_rle_calls_runs (offset : Nat) (it : sparse_vector_allele)
    (last_pos n : Nat) (rest : List sparse_vector_allele) :
    write_rle_calls offset it last_pos n rest =
      (push_run (it.status, offset) n (maximal_runs (machine_gaps last_pos rest))).map
        run_header := by
  induction rest generalizing offset it last_pos n with
  | nil => simp [write_rle_calls, machine_gaps, maximal_runs, push_run, rle_call_close_eq]
  | cons e es ih =>
    unfold write_rle_calls
    simp only [machine_gaps, maximal_runs_cons]
    split
    · rename_i hc
      have hne : (it.status, offset) ≠ (e.status, u64_sub e.offset last_pos) := by
        intro h
        simp only [Prod.mk.injEq] at h
        rcases hc with hc | hc
        · exact hc h.2
        · exact hc h.1
      rw [push_run_ne _ _ _ _ hne, ih, rle_call_close_eq]
      simp
    · rename_i hc
      have heq : (it.status, offset) = (e.status, u64_sub e.offset last_pos) := by
        simp only [not_or, not_not] at hc
        simp [hc.1, hc.2]
      have hoff : offset = u64_sub e.offset last_pos := (Prod.mk.inj heq).2
      rw [ih, heq, push_run_push_run, ← hoff]

theorem write_rle_groups_runs (m : marker) :
    write_rle_groups m =
      (maximal_runs (machine_gaps 0 m.non_zero_haplotypes_)).map run_header := by
  unfold write_rle_groups
  cases m.non_zero_haplotypes_ with
  | nil => simp [machine_gaps, maximal_runs]
  | cons e es =>
    simp only [write_rle_calls_runs, machine_gaps, maximal_runs_cons]

theorem machine_gaps_eq (es : List sparse_vector_allele)
    (hasc : strictly_ascending es) (hlt : ∀ e ∈ es, e.offset < u64)
    (last_pos : Nat) (hlp : ∀ e ∈ es, last_pos ≤ e.offset) :
    machine_gaps last_pos es = entry_gaps last_pos es := by
  induction es generalizing last_pos with
  | nil => rfl
  | cons e es ih =>
    have he : e.offset < u64 := hlt e (List.mem_cons_self _ _)
    have hle : last_pos ≤ e.offset := hlp e (List.mem_cons_self _ _)
    have hasc' : strictly_ascending es := (List.pairwise_cons.mp hasc).2
    have hhead : ∀ x ∈ es, e.offset < x.offset := (List.pairwise_cons.mp hasc).1
    have hlt' : ∀ x ∈ es, x.offset < u64 := fun x hx => hlt x (List.mem_cons_of_mem _ hx)
    simp only [machine_gaps, entry_gaps, u64_sub_of_le _ _ hle he]
    cases es with
    | nil => rfl
    | cons x xs =>
      have h1 := hhead x (List.mem_cons_self _ _)
      have h2 := hlt' x (List.mem_cons_self _ _)
      have hadd : u64_add e.offset 1 = e.offset + 1 := u64_add_of_lt _ _ (by omega)
      rw [hadd, ih hasc' hlt' (e.offset + 1) (fun y hy => by have := hhead y hy; omega)]

/-! ## RLE is smaller only when a run exists -/

theorem varint_groups_mono (fuel a b : Nat) (h : a ≤ b) :
    varint_groups fuel a ≤ varint_groups fuel b := by
  induction fuel generalizing a b with
  | zero => simp [varint_groups]
  | succ n ih =>
    unfold varint_groups
    by_cases ha : a < 128
    · simp only [ha, if_true]
      split <;> omega
    · have hb : ¬ b < 128 := by omega
      simp only [ha, hb, if_false]
      have := ih (a / 128) (b / 128) (Nat.div_le_div_right h)
      omega

theorem one_bit_width_le_two_bit (v : Nat) :
    one_bit_prefixed_varint.encoded_byte_width v ≤
      two_bit_prefixed_varint.encoded_byte_width v := by
  unfold one_bit_prefixed_varint.encoded_byte_width two_bit_prefixed_varint.encoded_byte_width
  simp only
  by_cases h32 : v % u64 < 32
  · have h64 : v % u64 < 64 := by omega
    simp [h32, h64]
  · by_cases h64 : v % u64 < 64
    · simp only [h32, h64, if_true, if_false]
      omega
    · simp only [h32, h64, if_false]
      have := varint_groups_mono 9 (v % u64 / 64) (v % u64 / 32)
        (by
          have h1 : v % u64 / 64 = v % u64 / 32 / 2 := by omega
          rw [h1]; exact Nat.div_le_self _ _)
      omega

theorem write_rle_calls_head (offset : Nat) (it : sparse_vector_allele)
    (last_pos n : Nat) (rest : List sparse_vector_allele) :
    ∃ c ∈ write_rle_calls offset it last_pos n rest, n ≤ c.number_of_repeats := by
  induction rest generalizing offset it last_pos n with
  | nil =>
    exact ⟨rle_call.close it offset n, by simp [write_rle_calls], Nat.le_refl _⟩
  | cons e es ih =>
    unfold write_rle_calls
    split
    · exact ⟨rle_call.close it offset n, List.mem_cons_self _ _, Nat.le_refl _⟩
    · obtain ⟨c, hc, hn⟩ := ih offset e (u64_add e.offset 1) (n + 1)
      exact ⟨c, hc, by omega⟩

theorem write_rle_calls_cover (offset : Nat) (it : sparse_vector_allele)
    (last_pos n : Nat) (rest : List sparse_vector_allele) :
    ((write_rle_calls offset it last_pos n rest).map
      (fun c => c.number_of_repeats + 1)).sum = n + 1 + rest.length := by
  induction rest generalizing offset it last_pos n with
  | nil => simp [write_rle_calls, rle_call.close]
  | cons e es ih =>
    unfold write_rle_calls
    split
    · simp only [List.map_cons, List.sum_cons, ih, rle_call.close, List.length_cons]
      omega
    · rw [ih]
      simp only [List.length_cons]
      omega

theorem write_rle_groups_cover (m : marker) :
    ((write_rle_groups m).map (fun c => c.number_of_repeats + 1)).sum =
      m.non_zero_haplotypes_.length := by
  unfold write_rle_groups
  cases m.non_zero_haplotypes_ with
  | nil => simp
  | cons e es =>
    simp only [write_rle_calls_cover, List.length_cons]
    omega

theorem sum_succ_ge (l : List rle_call) (c : rle_call) (hc : c ∈ l) :
    l.length + c.number_of_repeats ≤ (l.map (fun c => c.number_of_repeats + 1)).sum := by
  induction l with
  | nil => simp at hc
  | cons x xs ih =>
    simp only [List.map_cons, List.sum_cons, List.length_cons]
    rcases List.mem_cons.mp hc with h | h
    · subst h
      have : xs.length ≤ (xs.map (fun c => c.number_of_repeats + 1)).sum := by
        clear ih hc
        induction xs with
        | nil => simp
        | cons y ys ih2 => simp only [List.map_cons, List.sum_cons, List.length_cons]; omega
      omega
    · have := ih h
      omega

theorem rle_calls_without_repeat_size (offset : Nat) (it : sparse_vector_allele)
    (last_pos : Nat) (rest : List sparse_vector_allele)
    (h : ∀ c ∈ write_rle_calls offset it last_pos 0 rest, c.number_of_repeats = 0) :
    two_bit_prefixed_varint.encoded_byte_width offset +
        ((write_plain_calls last_pos rest).flatMap plain_call.bytes).length ≤
      ((write_rle_calls offset it last_pos 0 rest).flatMap rle_call.bytes).length := by
  induction rest generalizing offset it last_pos with
  | nil =>
    simp [write_rle_calls, write_plain_calls, rle_call_bytes_length, rle_group_size]
  | cons e es ih =>
    unfold write_rle_calls at h ⊢
    split at h
    · rename_i hc
      simp only [hc, if_true, List.flatMap_cons, List.length_append, rle_call_bytes_length,
        rle_group_size, write_plain_calls, plain_call.bytes, one_bit_encode_length]
      have := ih (u64_sub e.offset last_pos) e (u64_add e.offset 1)
        (fun c hc => h c (List.mem_cons_of_mem _ hc))
      have hw := one_bit_width_le_two_bit (u64_sub e.offset last_pos)
      simp only [ne_eq, not_true_eq_false, if_false, Nat.add_zero]
      omega
    · obtain ⟨c, hc, hn⟩ := write_rle_calls_head offset e (u64_add e.offset 1) (0 + 1) es
      have := h c hc
      omega

theorem rle_size_eq (m : marker) :
    m.calculate_rle_serialized_gt_size =
      ((write_rle_groups m).flatMap rle_call.bytes).length := by
  unfold marker.calculate_rle_serialized_gt_size write_rle_groups
  cases m.non_zero_haplotypes_ with
  | nil => simp
  | cons e es =>
    simpa using (rle_payload_length 0 (u64_sub e.offset 0) e (u64_add e.offset 1) 0 es).symm

theorem plain_size_eq (m : marker) :
    m.calculate_serialized_gt_size =
      ((write_plain_calls 0 m.non_zero_haplotypes_).flatMap plain_call.bytes).length := by
  unfold marker.calculate_serialized_gt_size
  simpa using (plain_payload_length 0 0 m.non_zero_haplotypes_).symm

theorem rle_size_without_repeat (m : marker)
    (h : ∀ c ∈ write_rle_groups m, c.number_of_repeats = 0) :
    m.calculate_serialized_gt_size ≤ m.calculate_rle_serialized_gt_size := by
  rw [rle_size_eq, plain_size_eq]
  unfold write_rle_groups at h ⊢
  cases hes : m.non_zero_haplotypes_ with
  | nil => simp [write_plain_calls]
  | cons e es =>
    rw [hes] at h
    have := rle_calls_without_repeat_size (u64_sub e.offset 0) e (u64_add e.offset 1) es h
    have hw := one_bit_width_le_two_bit (u64_sub e.offset 0)
    simp only [write_plain_calls, List.flatMap_cons, List.length_append, plain_call.bytes,
      one_bit_encode_length] at this ⊢
    omega

theorem rle_calls_chain_no_repeat (offset : Nat) (it : sparse_vector_allele)
    (last_pos : Nat) (rest : List sparse_vector_allele)
    (h : List.Chain (fun a b => a ≠ b) (it.status, offset) (machine_gaps last_pos rest)) :
    ∀ c ∈ write_rle_calls offset it last_pos 0 rest, c.number_of_repeats = 0 := by
  induction rest generalizing offset it last_pos with
  | nil =>
    intro c hc
    simp only [write_rle_calls, List.mem_singleton] at hc
    subst hc; rfl
  | cons e es ih =>
    simp only [machine_gaps, List.chain_cons] at h
    obtain ⟨hne, hch⟩ := h
    have hcond : offset ≠ u64_sub e.offset last_pos ∨ it.status ≠ e.status := by
      by_contra hc
      simp only [not_or, not_not] at hc
      exact hne (by simp [hc.1, hc.2])
    intro c hc
    unfold write_rle_calls at hc
    simp only [hcond, if_true] at hc
    rcases List.mem_cons.mp hc with hc | hc
    · subst hc; rfl
    · exact ih _ _ _ hch c hc

/-! ## Reading complete payloads -/

theorem read_site (u : unspecified) (destination : marker) (haplotype_count : Nat)
    (position : Nat) (ref alt tail : List Nat)
    (hp : position < u64) (hr : ref.length < u64) (ha : alt.length < u64) :
    marker.read u destination haplotype_count
        ⟨varint_encode position ++ (varint_encode ref.length ++ (ref ++
          (varint_encode alt.length ++ (alt ++ tail)))), true⟩ =
      (⟨(read_alleles u destination.non_zero_haplotypes_ alt.length tail).1, ref, alt,
          position, haplotype_count⟩,
        istream.get ⟨(read_alleles u destination.non_zero_haplotypes_ alt.length tail).2,
          true⟩) := by
  obtain ⟨b1, h1⟩ := varint_decode_encode position
    (varint_encode ref.length ++ (ref ++ (varint_encode alt.length ++ (alt ++ tail)))) hp
  obtain ⟨b2, h2⟩ := varint_decode_encode ref.length
    (ref ++ (varint_encode alt.length ++ (alt ++ tail))) hr
  obtain ⟨b3, h3⟩ := varint_decode_encode alt.length (alt ++ tail) ha
  simp only [marker.read, h1, List.tail_cons, h2, read_string_exact, h3]

theorem read_haplotype_count (u : unspecified) (destination : marker)
    (haplotype_count : Nat) (is : istream) :
    (marker.read u destination haplotype_count is).1.haplotype_count_ = haplotype_count := by
  unfold marker.read
  simp only
  split
  · rfl
  · split
    · rfl
    · split <;> rfl

theorem rle_header_flags_bits (h : rle_header) :
    (h.flags / 64 % 4 * 64 / 128 % 2 ≠ 0 ↔ h.alt = true) ∧
    (h.flags / 64 % 4 * 64 / 64 % 2 ≠ 0 ↔ h.repeats.isSome = true) := by
  unfold rle_header.flags
  cases h.alt <;> cases h.repeats.isSome <;> simp

theorem read_rle_headers_complete (u : unspecified) (hs : List rle_header)
    (hgap : ∀ h ∈ hs, h.gap < u64) (hrep : ∀ h ∈ hs, h.run_length < u64)
    (t : Nat) (ht : t < u64) (l : List (sparse_vector_allele × Nat))
    (hl : l.length = hs.length) (b0 : Nat) (rest : List Nat) :
    ∃ b, read_rle_headers u t l (b0 :: (hs.flatMap rle_header.bytes ++ rest)) =
      (hs.map (fun h => (⟨h.status, h.gap⟩, h.run_length)),
        (t + (hs.map rle_header.run_length).sum) % u64, b :: rest) := by
  induction hs generalizing t l b0 with
  | nil =>
    have : l = [] := List.length_eq_zero.mp hl
    subst this
    exact ⟨b0, by simp [read_rle_headers, Nat.mod_eq_of_lt ht]⟩
  | cons h hs ih =>
    cases l with
    | nil => simp at hl
    | cons it l =>
      have hg : h.gap < u64 := hgap h (List.mem_cons_self _ _)
      have hr : h.run_length < u64 := hrep h (List.mem_cons_self _ _)
      have hgap' : ∀ x ∈ hs, x.gap < u64 := fun x hx => hgap x (List.mem_cons_of_mem _ hx)
      have hrep' : ∀ x ∈ hs, x.run_length < u64 :=
        fun x hx => hrep x (List.mem_cons_of_mem _ hx)
      have hl' : l.length = hs.length := by simpa using hl
      obtain ⟨hb_alt, hb_rep⟩ := rle_header_flags_bits h
      have hstatus : (if h.flags / 64 % 4 * 64 / 128 % 2 ≠ 0 then has_alt else is_missing) =
          h.status := by
        unfold rle_header.status
        by_cases ha : h.alt = true
        · rw [if_pos (hb_alt.mpr ha), if_pos ha]
        · rw [if_neg (fun hc => ha (hb_alt.mp hc)), if_neg ha]
      cases hrp : h.repeats with
      | none =>
        have hno : ¬ (h.flags / 64 % 4 * 64 / 64 % 2 ≠ 0) := by
          intro hc
          have := hb_rep.mp hc
          simp [hrp] at this
        have hrl : h.run_length = 0 := by simp [rle_header.run_length, hrp]
        obtain ⟨b1, hb1⟩ := two_bit_decode_encode h.flags h.gap
          (hs.flatMap rle_header.bytes ++ rest) hg
        obtain ⟨b, hb⟩ := ih hgap' hrep' t ht l hl' b1
        refine ⟨b, ?_⟩
        simp only [List.flatMap_cons, rle_header.bytes, hrp, List.append_nil, List.append_assoc,
          read_rle_headers, hb1, hno, false_and, if_false, hstatus, hb, List.map_cons,
          List.sum_cons, hrl, Nat.zero_add]
      | some r =>
        have hyes : h.flags / 64 % 4 * 64 / 64 % 2 ≠ 0 := hb_rep.mpr (by simp [hrp])
        have hrl : h.run_length = r := by simp [rle_header.run_length, hrp]
        have hr' : r < u64 := hrl ▸ hr
        obtain ⟨b1, hb1⟩ := two_bit_decode_encode h.flags h.gap
          (varint_encode r ++ (hs.flatMap rle_header.bytes ++ rest)) hg
        obtain ⟨b2, hb2⟩ := varint_decode_encode r (hs.flatMap rle_header.bytes ++ rest) hr'
        obtain ⟨b, hb⟩ := ih hgap' hrep' (u64_add t r) (u64_add_lt _ _) l hl' b2
        refine ⟨b, ?_⟩
        have hsum : (u64_add t r + (hs.map rle_header.run_length).sum) % u64 =
            (t + (r + (hs.map rle_header.run_length).sum)) % u64 := by
          unfold u64_add
          rw [Nat.add_mod, Nat.mod_mod, ← Nat.add_mod, Nat.add_assoc]
        simp only [List.flatMap_cons, rle_header.bytes, hrp, List.append_assoc,
          read_rle_headers, hb1, hyes, ne_eq, not_false_eq_true, reduceCtorEq, and_self,
          if_true, List.tail_cons, hb2, hstatus, hb, List.map_cons, List.sum_cons, hrl, hsum]

theorem read_plain_loop_complete (u : unspecified) (cs : List plain_call)
    (hlt : ∀ c ∈ cs, c.offset < u64) (base : Nat) (old : List sparse_vector_allele)
    (hold : old.length = cs.length) (b0 : Nat) (rest : List Nat) :
    ∃ b, read_plain_loop u (base % u64) old (b0 :: (cs.flatMap plain_call.bytes ++ rest)) =
      (plain_decoded base cs, b :: rest) := by
  induction cs generalizing base old b0 with
  | nil =>
    have : old = [] := List.length_eq_zero.mp hold
    subst this
    exact ⟨b0, by simp [read_plain_loop, plain_decoded]⟩
  | cons c cs ih =>
    cases old with
    | nil => simp at hold
    | cons o old =>
      have hc : c.offset < u64 := hlt c (List.mem_cons_self _ _)
      obtain ⟨b1, hb1⟩ := one_bit_decode_encode c.allele c.offset
        (cs.flatMap plain_call.bytes ++ rest) hc
      obtain ⟨b, hb⟩ := ih (fun x hx => hlt x (List.mem_cons_of_mem _ hx))
        (base + c.offset + 1) old (by simpa using hold) b1
      refine ⟨b, ?_⟩
      have h1 : u64_add (base % u64) c.offset = (base + c.offset) % u64 := by
        unfold u64_add
        rw [Nat.add_mod, Nat.mod_mod, ← Nat.add_mod]
      have h2 : u64_add ((base + c.offset) % u64) 1 = (base + c.offset + 1) % u64 := by
        unfold u64_add
        rw [Nat.add_mod, Nat.mod_mod, ← Nat.add_mod]
      have h3 : (c.allele / 128 % 2 * 128 ≠ 0) ↔ (c.allele / 128 % 2 ≠ 0) := by omega
      simp only [List.flatMap_cons, plain_call.bytes, List.append_assoc, read_plain_loop, hb1,
        h1, h2, hb, plain_decoded, h3]

theorem read_rle_repeat_spec (s : allele_status) (g : Nat) (n b : Nat) :
    read_rle_repeat s ((g + 1) % u64) n (b % u64) =
      ((List.range n).map (fun j => ⟨s, (b + (j + 1) * (g + 1)) % u64⟩),
        (b + n * (g + 1)) % u64) := by
  induction n generalizing b with
  | zero => simp [read_rle_repeat]
  | succ n ih =>
    have h1 : u64_add (b % u64) ((g + 1) % u64) = (b + (g + 1)) % u64 := by
      unfold u64_add
      rw [← Nat.add_mod]
    simp only [read_rle_repeat, h1, ih, List.range_succ_eq_map, List.map_cons, List.map_map]
    refine Prod.ext ?_ ?_
    · simp only [Nat.zero_add, Nat.one_mul, List.cons.injEq, true_and]
      refine List.map_congr_left (fun j _ => ?_)
      simp only [Function.comp, Nat.succ_eq_add_one]
      congr 2
      ring
    · simp only
      congr 1
      ring

theorem read_rle_expand_spec (hs : List rle_header) (base : Nat) :
    read_rle_expand (base % u64)
        (hs.map (fun h => (⟨h.status, h.gap⟩, h.run_length))) =
      expansion base hs := by
  induction hs generalizing base with
  | nil => rfl
  | cons h hs ih =>
    have h1 : u64_add (base % u64) h.gap = (base + h.gap) % u64 := by
      unfold u64_add
      rw [Nat.add_mod, Nat.mod_mod, ← Nat.add_mod]
    have h2 : u64_add h.gap 1 = (h.gap + 1) % u64 := rfl
    have h3 : u64_add ((base + h.gap + h.run_length * (h.gap + 1)) % u64) 1 =
        (base + h.gap + h.run_length * (h.gap + 1) + 1) % u64 := by
      unfold u64_add
      rw [Nat.add_mod, Nat.mod_mod, ← Nat.add_mod]
    simp only [List.map_cons, read_rle_expand, h1, h2, read_rle_repeat_spec, h3, ih, expansion]
    rw [List.range_succ_eq_map (h.run_length)]
    simp only [List.map_cons, List.map_map, Nat.zero_mul, Nat.add_zero, List.cons_append,
      List.cons.injEq, true_and]
    congr 1

theorem expansion_length (hs : List rle_header) (base : Nat) :
    (expansion base hs).length = hs.length + (hs.map rle_header.run_length).sum := by
  induction hs generalizing base with
  | nil => rfl
  | cons h hs ih =>
    simp only [expansion, List.length_append, List.length_map, List.length_range, ih,
      List.length_cons, List.map_cons, List.sum_cons]
    omega

theorem rle_span_bounds (hs : List rle_header) :
    ∀ h ∈ hs, h.gap < rle_span hs ∧ h.run_length < rle_span hs := by
  induction hs with
  | nil => intro h hh; cases hh
  | cons x xs ih =>
    intro h hh
    have hx1 : x.gap + 1 ≤ (x.run_length + 1) * (x.gap + 1) := Nat.le_mul_of_pos_left _ (by omega)
    have hx2 : x.run_length + 1 ≤ (x.run_length + 1) * (x.gap + 1) :=
      Nat.le_mul_of_pos_right _ (by omega)
    simp only [rle_span]
    rcases List.mem_cons.mp hh with rfl | hh
    · omega
    · have := ih h hh
      omega

theorem expansion_ascending (hs : List rle_header) (base : Nat)
    (hspan : base + rle_span hs ≤ u64) :
    (∀ e ∈ expansion base hs, base ≤ e.offset ∧ e.offset < base + rle_span hs) ∧
      strictly_ascending (expansion base hs) := by
  induction hs generalizing base with
  | nil =>
    exact ⟨fun e he => (by cases he), List.Pairwise.nil⟩
  | cons h hs ih =>
    simp only [rle_span] at hspan ⊢
    have hexp : (h.run_length + 1) * (h.gap + 1) =
        h.gap + h.run_length * (h.gap + 1) + 1 := by ring
    have hnext : base + h.gap + h.run_length * (h.gap + 1) + 1 + rle_span hs ≤ u64 := by omega
    obtain ⟨ihb, iha⟩ := ih (base + h.gap + h.run_length * (h.gap + 1) + 1) hnext
    have hhead : ∀ j, j < h.run_length + 1 →
        (base + h.gap + j * (h.gap + 1)) % u64 = base + h.gap + j * (h.gap + 1) ∧
        base + h.gap + j * (h.gap + 1) < base + h.gap + h.run_length * (h.gap + 1) + 1 := by
      intro j hj
      have : j * (h.gap + 1) ≤ h.run_length * (h.gap + 1) :=
        Nat.mul_le_mul_right _ (by omega)
      exact ⟨Nat.mod_eq_of_lt (by omega), by omega⟩
    refine ⟨?_, ?_⟩
    · intro e he
      simp only [expansion, List.mem_append, List.mem_map, List.mem_range] at he
      rcases he with ⟨j, hj, rfl⟩ | he
      · obtain ⟨h1, h2⟩ := hhead j hj
        simp only [h1]
        omega
      · have := ihb e he
        omega
    · unfold strictly_ascending
      simp only [expansion]
      rw [List.pairwise_append]
      refine ⟨?_, iha, ?_⟩
      · rw [List.pairwise_map]
        refine List.Pairwise.imp_of_mem ?_ (List.pairwise_lt_range _)
        intro a b ha hb hab
        obtain ⟨h1, _⟩ := hhead a (List.mem_range.mp ha)
        obtain ⟨h2, _⟩ := hhead b (List.mem_range.mp hb)
        simp only [h1, h2]
        have : a * (h.gap + 1) < b * (h.gap + 1) := Nat.mul_lt_mul_of_pos_right hab (by omega)
        omega
      · intro a ha b hb
        simp only [List.mem_map, List.mem_range] at ha
        obtain ⟨j, hj, rfl⟩ := ha
        obtain ⟨h1, h2⟩ := hhead j hj
        have := ihb b hb
        simp only [h1]
        omega

theorem plain_decoded_length (cs : List plain_call) (base : Nat) :
    (plain_decoded base cs).length = cs.length := by
  induction cs generalizing base with
  | nil => rfl
  | cons c cs ih => simp [plain_decoded, ih]

theorem plain_span_bounds (cs : List plain_call) : ∀ c ∈ cs, c.offset < plain_span cs := by
  induction cs with
  | nil => intro c hc; cases hc
  | cons x xs ih =>
    intro c hc
    simp only [plain_span]
    rcases List.mem_cons.mp hc with rfl | hc
    · omega
    · have := ih c hc
      omega

theorem plain_decoded_ascending (cs : List plain_call) (base : Nat)
    (hspan : base + plain_span cs ≤ u64) :
    (∀ e ∈ plain_decoded base cs, base ≤ e.offset ∧ e.offset < base + plain_span cs) ∧
      strictly_ascending (plain_decoded base cs) := by
  induction cs generalizing base with
  | nil => exact ⟨fun e he => (by cases he), List.Pairwise.nil⟩
  | cons c cs ih =>
    simp only [plain_span] at hspan ⊢
    obtain ⟨ihb, iha⟩ := ih (base + c.offset + 1) (by omega)
    have h1 : (base + c.offset) % u64 = base + c.offset := Nat.mod_eq_of_lt (by omega)
    refine ⟨?_, ?_⟩
    · intro e he
      simp only [plain_decoded, List.mem_cons] at he
      rcases he with rfl | he
      · simp only [h1]
        omega
      · have := ihb e he
        omega
    · unfold strictly_ascending
      simp only [plain_decoded]
      refine List.Pairwise.cons ?_ iha
      intro b hb
      have := ihb b hb
      simp only [h1]
      omega

theorem read_alleles_plain_complete (u : unspecified) (cs : List plain_call)
    (hlt : ∀ c ∈ cs, c.offset < u64) (hn : cs.length < u64)
    (old : List sparse_vector_allele) (sz : Nat) (rest : List Nat) :
    ∃ b, read_alleles u old sz
        (one_bit_prefixed_varint.encode 0x00 cs.length ++
          (cs.flatMap plain_call.bytes ++ rest)) =
      (plain_decoded 0 cs, b :: rest) := by
  obtain ⟨b0, hb0⟩ := one_bit_decode_encode 0x00 cs.length
    (cs.flatMap plain_call.bytes ++ rest) hn
  obtain ⟨b, hb⟩ := read_plain_loop_complete u cs hlt 0
    (resize old cs.length u.value_init) (resize_length _ _ _) b0 rest
  refine ⟨b, ?_⟩
  unfold read_alleles
  simp only [hb0]
  simpa using hb

theorem read_alleles_rle_complete (u : unspecified) (hs : List rle_header)
    (hgap : ∀ h ∈ hs, h.gap < u64) (hrep : ∀ h ∈ hs, h.run_length < u64)
    (hn : hs.length < u64) (old : List sparse_vector_allele) (sz : Nat) (rest : List Nat) :
    ∃ b0 b, one_bit_prefixed_varint.decode (one_bit_prefixed_varint.encode 0x80 hs.length ++
          (hs.flatMap rle_header.bytes ++ rest)) =
        some (0x80, hs.length, b0 :: (hs.flatMap rle_header.bytes ++ rest)) ∧
      read_rle_headers u 0 (List.replicate hs.length (u.value_init, 0))
          (b0 :: (hs.flatMap rle_header.bytes ++ rest)) =
        (hs.map (fun h => (⟨h.status, h.gap⟩, h.run_length)),
          (hs.map rle_header.run_length).sum % u64, b :: rest) ∧
      read_alleles u old sz
        (one_bit_prefixed_varint.encode 0x80 hs.length ++
          (hs.flatMap rle_header.bytes ++ rest)) =
      (expansion 0 hs, b :: rest) := by
  obtain ⟨b0, hb0⟩ := one_bit_decode_encode 0x80 hs.length
    (hs.flatMap rle_header.bytes ++ rest) hn
  obtain ⟨b, hb⟩ := read_rle_headers_complete u hs hgap hrep 0 (by decide)
    (List.replicate hs.length (u.value_init, 0)) (by simp) b0 rest
  rw [Nat.zero_add] at hb
  refine ⟨b0, b, hb0, hb, ?_⟩
  unfold read_alleles
  simp only [hb0]
  have := read_rle_expand_spec hs 0
  rw [Nat.zero_mod] at this
  simp [hb, this]

theorem read_record_plain (u : unspecified) (destination : marker) (haplotype_count : Nat)
    (position : Nat) (ref alt : List Nat) (cs : List plain_call) (rest : List Nat)
    (hp : position < u64) (hr : ref.length < u64) (ha : alt.length < u64)
    (hn : cs.length < u64) (hlt : ∀ c ∈ cs, c.offset < u64) :
    marker.read u destination haplotype_count
        ⟨record_bytes position ref alt 0x00 cs.length (cs.flatMap plain_call.bytes) ++ rest,
          true⟩ =
      (⟨plain_decoded 0 cs, ref, alt, position, haplotype_count⟩, ⟨rest, true⟩) := by
  obtain ⟨b, hb⟩ := read_alleles_plain_complete u cs hlt hn destination.non_zero_haplotypes_
    alt.length rest
  simp only [record_bytes, List.append_assoc]
  rw [read_site u destination haplotype_count position ref alt _ hp hr ha, hb]
  rfl

theorem read_record_rle (u : unspecified) (destination : marker) (haplotype_count : Nat)
    (position : Nat) (ref alt : List Nat) (hs : List rle_header) (rest : List Nat)
    (hp : position < u64) (hr : ref.length < u64) (ha : alt.length < u64)
    (hn : hs.length < u64) (hgap : ∀ h ∈ hs, h.gap < u64)
    (hrep : ∀ h ∈ hs, h.run_length < u64) :
    marker.read u destination haplotype_count
        ⟨record_bytes position ref alt 0x80 hs.length (hs.flatMap rle_header.bytes) ++ rest,
          true⟩ =
      (⟨expansion 0 hs, ref, alt, position, haplotype_count⟩, ⟨rest, true⟩) := by
  obtain ⟨b0, b, _, _, hb⟩ := read_alleles_rle_complete u hs hgap hrep hn
    destination.non_zero_haplotypes_ alt.length rest
  simp only [record_bytes, List.append_assoc]
  rw [read_site u destination haplotype_count position ref alt _ hp hr ha, hb]
  rfl

theorem strictly_ascending_nodup (es : List sparse_vector_allele)
    (h : strictly_ascending es) : (es.map (fun e => e.offset)).Nodup := by
  unfold strictly_ascending at h
  unfold List.Nodup
  rw [List.pairwise_map]
  exact h.imp (fun hab => Nat.ne_of_lt hab)

theorem write_congr (m : marker) (haplotype_count : Nat) :
    marker.write ⟨m.non_zero_haplotypes_, m.ref_, m.alt_, m.position_, haplotype_count⟩ =
      marker.write m := rfl

theorem scenario_R_decoded (u : unspecified) (destination : marker) :
    ∃ es, es.length = 7 ∧
      (marker.read u destination 4 ⟨scenario_R.write, true⟩).1 = ⟨es, [65], [67], 100, 4⟩ := by
  have hw : scenario_R.write =
      varint_encode 100 ++ (varint_encode [65].length ++ ([65] ++
        (varint_encode [67].length ++ ([67] ++ [132, 192, 3])))) := by decide
  rw [hw, read_site u destination 4 100 [65] [67] [132, 192, 3] (by decide) (by decide)
    (by decide)]
  refine ⟨_, ?_, rfl⟩
  simp [read_alleles, one_bit_prefixed_varint.decode, read_rle_headers,
    two_bit_prefixed_varint.decode, varint_decode, varint_decode_loop, read_rle_expand,
    read_rle_repeat, List.replicate, u64_add, u64]

theorem write_seven_entries (es : List sparse_vector_allele) (hes : es.length = 7)
    (haplotype_count : Nat) :
    ∃ mode payload, mode < 2 ∧
      marker.write ⟨es, [65], [67], 100, haplotype_count⟩ =
        [100, 1, 65, 1, 67, mode * 128 + 7] ++ payload := by
  refine ⟨(write_mode_and_count ⟨es, [65], [67], 100, haplotype_count⟩).1 / 128 % 2,
    write_payload ⟨es, [65], [67], 100, haplotype_count⟩, Nat.mod_lt _ (by decide), ?_⟩
  have h1 : write_site ⟨es, [65], [67], 100, haplotype_count⟩ = [100, 1, 65, 1, 67] := by
    simp only [write_site]
    decide
  have h2 : (write_mode_and_count ⟨es, [65], [67], 100, haplotype_count⟩).2 = 7 := by
    unfold write_mode_and_count
    split <;> exact hes
  have h3 : ∀ p, one_bit_prefixed_varint.encode p 7 = [p / 128 % 2 * 128 + 7] := by
    intro p
    simp [one_bit_prefixed_varint.encode, u64]
  simp only [marker.write, h1, h2, h3]
  rfl

/-! ## The file header -/

theorem read_sample_ids_complete (ids : List (List Nat)) (hids : ∀ s ∈ ids, s.length < u64)
    (acc : List (List Nat)) (tail : List Nat) :
    reader.read_sample_ids ids.length acc ⟨ids.flatMap length_prefixed ++ tail, true⟩ =
      (0, acc ++ ids, ⟨tail, true⟩) := by
  induction ids generalizing acc with
  | nil => simp [reader.read_sample_ids]
  | cons s ids ih =>
    obtain ⟨b, hb⟩ := varint_decode_encode s.length
      (s ++ (ids.flatMap length_prefixed ++ tail)) (hids s (List.mem_cons_self _ _))
    simp only [List.length_cons, List.flatMap_cons, length_prefixed, List.append_assoc,
      reader.read_sample_ids, hb, List.tail_cons, read_string_exact]
    have := ih (fun x hx => hids x (List.mem_cons_of_mem _ hx)) (acc ++ [s])
    simp only [length_prefixed, List.append_assoc, List.singleton_append] at this
    exact this

theorem reader_ctor_header (u : unspecified) (ndebug : Bool) (ploidy0 : Nat)
    (magic : List Nat) (ids : List (List Nat)) (chromosome : List Nat) (ploidy : Nat)
    (rest : List Nat) (hmagic : magic.length = 8) (hn : ids.length < u64)
    (hids : ∀ s ∈ ids, s.length < u64) (hc : chromosome.length < u64) (hp : ploidy < 256) :
    reader.ctor u ndebug ploidy0 ⟨header_bytes magic ids chromosome ploidy ++ rest, true⟩ =
      some ⟨ids, chromosome, ploidy, ⟨rest, true⟩⟩ := by
  have hpl : ploidy < u64 := Nat.lt_trans hp (by decide)
  obtain ⟨b1, h1⟩ := varint_decode_encode ids.length
    (ids.flatMap length_prefixed ++ (varint_encode chromosome.length ++ (chromosome ++
      (varint_encode ploidy ++ rest)))) hn
  obtain ⟨b2, h2⟩ := varint_decode_encode chromosome.length
    (chromosome ++ (varint_encode ploidy ++ rest)) hc
  obtain ⟨b3, h3⟩ := varint_decode_encode ploidy rest hpl
  have h0 : (istream.read ⟨magic ++ (varint_encode ids.length ++
      (ids.flatMap length_prefixed ++ (varint_encode chromosome.length ++ (chromosome ++
        (varint_encode ploidy ++ rest))))), true⟩ 8).2 =
      ⟨varint_encode ids.length ++
      (ids.flatMap length_prefixed ++ (varint_encode chromosome.length ++ (chromosome ++
        (varint_encode ploidy ++ rest)))), true⟩ := by
    simp [istream.read, hmagic]
  simp only [reader.ctor, header_bytes, length_prefixed, List.append_assoc, h0, h1,
    List.tail_cons]
  have hl := read_sample_ids_complete ids hids []
    (varint_encode chromosome.length ++ (chromosome ++ (varint_encode ploidy ++ rest)))
  simp only [length_prefixed, List.nil_append] at hl
  simp only [hl, if_true, h2, List.tail_cons, read_string_exact, h3, hp, true_or,
    Nat.mod_eq_of_lt hp, istream.get]

theorem extract_all_spec (u : unspecified) (ds : List marker) (r : reader) :
    (reader.extract_all u r ds).1.sample_ids_ = r.sample_ids_ ∧
    (reader.extract_all u r ds).1.chromosome_ = r.chromosome_ ∧
    (reader.extract_all u r ds).1.ploidy_level_ = r.ploidy_level_ ∧
    (reader.extract_all u r ds).2.length = ds.length ∧
    ∀ m ∈ (reader.extract_all u r ds).2,
      m.haplotype_count_ = (r.sample_ids_.length * r.ploidy_level_) % u64 := by
  induction ds generalizing r with
  | nil => exact ⟨rfl, rfl, rfl, rfl, fun m hm => by cases hm⟩
  | cons d ds ih =>
    obtain ⟨i1, i2, i3, i4, i5⟩ := ih (reader.extract u r d).1
    refine ⟨i1, i2, i3, by simp [reader.extract_all, i4], ?_⟩
    intro m hm
    simp only [reader.extract_all, List.mem_cons] at hm
    rcases hm with rfl | hm
    · exact read_haplotype_count u d _ _
    · exact i5 m hm

theorem plain_span_length (cs : List plain_call) : cs.length ≤ plain_span cs := by
  induction cs with
  | nil => exact Nat.le_refl _
  | cons c cs ih =>
    simp only [List.length_cons, plain_span]
    omega

theorem rle_span_length (hs : List rle_header) : hs.length ≤ rle_span hs := by
  induction hs with
  | nil => exact Nat.le_refl _
  | cons h hs ih =>
    have : 1 ≤ (h.run_length + 1) * (h.gap + 1) := Nat.mul_pos (by omega) (by omega)
    simp only [List.length_cons, rle_span]
    omega

/-! ## The command line -/

theorem parse_switch_level (h : utility) (a b : import_prog_args h) (e : getopt_return)
    (hd : is_digit e.opt = false) (hs : parse_switch h a e = some b) :
    b.compression_level_ = a.compression_level_ := by
  unfold parse_switch at hs
  rw [hd] at hs
  simp only [Bool.false_eq_true, if_false] at hs
  split_ifs at hs <;> (cases hs; rfl)

theorem parse_loop_level (h : utility) (es : List getopt_return)
    (hd : ∀ e ∈ es, is_digit e.opt = false) (a : import_prog_args h) :
    (parse_loop h a es).2.compression_level_ = a.compression_level_ := by
  induction es generalizing a with
  | nil => rfl
  | cons e es ih =>
    unfold parse_loop
    cases hs : parse_switch h a e with
    | none => rfl
    | some b =>
      simp only
      rw [ih (fun x hx => hd x (List.mem_cons_of_mem _ hx)) b]
      exact parse_switch_level h a b e (hd e (List.mem_cons_self _ _)) hs

theorem parse_finish_level (h : utility) (a : import_prog_args h) :
    (parse_finish h a).2.compression_level ≤ 19 ∧
    (a.compression_level_ < 0 → (parse_finish h a).2.compression_level = 3) := by
  unfold parse_finish import_prog_args.compression_level
  simp only
  refine ⟨?_, ?_⟩
  · split_ifs <;> omega
  · intro hneg
    rw [if_pos hneg]
    rfl

theorem parse_accepted (h : utility) (a : import_prog_args h) (argv : List (List Char))
    (hacc : (import_prog_args.parse h a argv).1 = true) :
    ∃ b : import_prog_args h,
      import_prog_args.parse h a argv = parse_finish h b ∧
      b.compression_level_ =
        (parse_loop h a (getopt_long optstring long_options_ false argv.tail).1).2.compression_level_ := by
  unfold import_prog_args.parse at hacc ⊢
  simp only at hacc ⊢
  generalize getopt_long optstring long_options_ false argv.tail = g at hacc ⊢
  obtain ⟨es, ops⟩ := g
  simp only at hacc ⊢
  generalize parse_loop h a es = l at hacc ⊢
  by_cases h1 : l.1 = false
  · rw [if_pos h1] at hacc
    rw [h1] at hacc
    exact absurd hacc (by simp)
  · rw [if_neg h1] at hacc ⊢
    rcases ops with _ | ⟨x, _ | ⟨y, _ | ⟨z, zs⟩⟩⟩
    · simp only at hacc ⊢
      by_cases h2 : l.2.regions_.length ≠ 0
      · rw [if_pos h2] at hacc
        exact absurd hacc (by simp)
      · rw [if_neg h2]
        exact ⟨_, rfl, rfl⟩
    · exact ⟨_, rfl, rfl⟩
    · exact ⟨_, rfl, rfl⟩
    · exact absurd hacc (by simp)

theorem getopt_long_unknown_short (c : Char) (hc : lookup_short optstring c = none)
    (hdash : c ≠ '-') (cs : List Char) (rest : List (List Char)) :
    ∃ es ops, getopt_long optstring long_options_ false (('-' :: c :: cs) :: rest) =
      (⟨'?', none⟩ :: es, ops) := by
  have hne : ('-' :: c :: cs) ≠ ['-', '-'] := by
    intro heq
    simp only [List.cons.injEq, true_and] at heq
    exact hdash heq.1
  unfold getopt_long
  rw [if_neg hne]
  split
  · rename_i body heq
    simp only [List.cons.injEq, true_and] at heq
    exact absurd heq.1 hdash
  · rename_i c2 cs2 _ heq
    simp only [List.cons.injEq, true_and] at heq
    obtain ⟨h1, h2⟩ := heq
    subst h1 h2
    simp only [short_cluster, hc]
    exact ⟨_, _, rfl⟩
  · rename_i hno1 hno2
    exact absurd rfl (hno2 c cs)

theorem parse_unknown_short (h : utility) (a : import_prog_args h) (c : Char)
    (hc : lookup_short optstring c = none) (hdash : c ≠ '-') (arg0 cs : List Char)
    (rest : List (List Char)) :
    import_prog_args.parse h a (arg0 :: ('-' :: c :: cs) :: rest) = (false, a) := by
  obtain ⟨es, ops, hg⟩ := getopt_long_unknown_short c hc hdash cs rest
  unfold import_prog_args.parse
  simp only [List.tail_cons, hg]
  have hl : parse_loop h a (⟨'?', none⟩ :: es) = (false, a) := by
    unfold parse_loop
    have : parse_switch h a ⟨'?', none⟩ = none := by
      unfold parse_switch
      simp [is_digit]
    rw [this]
  rw [hl]
  simp

/-! ## Grouping against expansion -/

theorem read_rle_repeat_succ (s : allele_status) (step n t : Nat) :
    read_rle_repeat s step (n + 1) t =
      ((read_rle_repeat s step n t).1 ++
          [⟨s, u64_add (read_rle_repeat s step n t).2 step⟩],
        u64_add (read_rle_repeat s step n t).2 step) := by
  induction n generalizing t with
  | zero => simp [read_rle_repeat]
  | succ n ih =>
    have h := ih (u64_add t step)
    rw [read_rle_repeat, h]
    simp [read_rle_repeat]

theorem rle_call_decoded_close (it : sparse_vector_allele)
    (hst : it.status = has_alt ∨ it.status = is_missing) (offset n : Nat) :
    (rle_call.close it offset n).decoded = (⟨it.status, offset⟩, n) := by
  unfold rle_call.decoded rle_call.close
  rcases hst with h | h <;> rw [h] <;> by_cases hn : n = 0 <;> simp [alt_bit, hn]

theorem u64_add_step (a g : Nat) :
    u64_add (u64_add a 1) g = u64_add a (u64_add g 1) := by
  unfold u64_add
  rw [Nat.add_mod, Nat.mod_mod, ← Nat.add_mod, Nat.add_mod a, Nat.mod_mod, ← Nat.add_mod]
  congr 1
  omega

theorem read_rle_expand_write_rle_calls (rest : List sparse_vector_allele)
    (hlt : ∀ e ∈ rest, e.offset < u64)
    (hst : ∀ e ∈ rest, e.status = has_alt ∨ e.status = is_missing)
    (it : sparse_vector_allele) (hit : it.status = has_alt ∨ it.status = is_missing)
    (offset n total_offset : Nat)
    (hinv : (read_rle_repeat it.status (u64_add offset 1) n
      (u64_add total_offset offset)).2 = it.offset) :
    read_rle_expand total_offset
        ((write_rle_calls offset it (u64_add it.offset 1) n rest).map rle_call.decoded) =
      ⟨it.status, u64_add total_offset offset⟩ ::
        ((read_rle_repeat it.status (u64_add offset 1) n (u64_add total_offset offset)).1 ++
          rest) := by
  induction rest generalizing it offset n total_offset with
  | nil =>
    simp only [write_rle_calls, List.map_cons, List.map_nil, rle_call_decoded_close it hit,
      read_rle_expand, List.append_nil]
  | cons next rest ih =>
    have hnext : next.offset < u64 := hlt next (List.mem_cons_self _ _)
    have hnst := hst next (List.mem_cons_self _ _)
    have hlt' : ∀ e ∈ rest, e.offset < u64 := fun e he => hlt e (List.mem_cons_of_mem _ he)
    have hst' : ∀ e ∈ rest, e.status = has_alt ∨ e.status = is_missing :=
      fun e he => hst e (List.mem_cons_of_mem _ he)
    have hback : u64_add (u64_add it.offset 1) (u64_sub next.offset (u64_add it.offset 1)) =
        next.offset := u64_add_sub _ _ hnext (u64_add_lt _ _)
    unfold write_rle_calls
    split
    · -- the group is closed, `next` opens a new one
      have h0 := ih hlt' hst' next hnst (u64_sub next.offset (u64_add it.offset 1)) 0
        (u64_add it.offset 1) (by simp only [read_rle_repeat]; exact hback)
      simp only [List.map_cons, rle_call_decoded_close it hit, read_rle_expand, hinv, h0,
        read_rle_repeat, hback, List.nil_append]
    · -- `next` joins the group
      rename_i hsame
      have hsame' : offset = u64_sub next.offset (u64_add it.offset 1) ∧
          it.status = next.status := by
        constructor
        · by_contra hc
          exact hsame (Or.inl hc)
        · by_contra hc
          exact hsame (Or.inr hc)
      obtain ⟨hoff, hstat⟩ := hsame'
      have hnoff : u64_add it.offset (u64_add offset 1) = next.offset := by
        rw [← u64_add_step, hoff]
        exact hback
      have hinv' : (read_rle_repeat next.status (u64_add offset 1) (n + 1)
          (u64_add total_offset offset)).2 = next.offset := by
        rw [read_rle_repeat_succ, ← hstat, hinv]
        exact hnoff
      rw [ih hlt' hst' next hnst offset (n + 1) total_offset hinv', read_rle_repeat_succ,
        ← hstat, hinv, hnoff]
      have hn : next = ⟨it.status, next.offset⟩ := by
        rw [hstat]
      rw [← hn]
      simp

theorem read_rle_expand_write_rle_groups (m : marker)
    (hlt : ∀ e ∈ m.non_zero_haplotypes_, e.offset < u64)
    (hst : ∀ e ∈ m.non_zero_haplotypes_, e.status = has_alt ∨ e.status = is_missing) :
    read_rle_expand 0 ((write_rle_groups m).map rle_call.decoded) =
      m.non_zero_haplotypes_ := by
  unfold write_rle_groups
  cases h : m.non_zero_haplotypes_ with
  | nil => rfl
  | cons it rest =>
    rw [h] at hlt hst
    have hit : it.offset < u64 := hlt it (List.mem_cons_self _ _)
    have hsub : u64_sub it.offset 0 = it.offset := u64_sub_of_le _ _ (Nat.zero_le _) hit
    have hadd : u64_add 0 it.offset = it.offset := by
      unfold u64_add
      rw [Nat.zero_add, Nat.mod_eq_of_lt hit]
    simp only [hsub]
    rw [read_rle_expand_write_rle_calls rest (fun e he => hlt e (List.mem_cons_of_mem _ he))
      (fun e he => hst e (List.mem_cons_of_mem _ he)) it (hst it (List.mem_cons_self _ _))
      it.offset 0 0 (by simp only [read_rle_repeat]; exact hadd)]
    simp only [read_rle_repeat, hadd, List.nil_append]

theorem maximal_runs_mem {α : Type} [DecidableEq α] (l : List α) :
    ∀ r ∈ maximal_runs l, r.1 ∈ l := by
  induction l with
  | nil => intro r hr; cases hr
  | cons a rest ih =>
    intro r hr
    unfold maximal_runs at hr
    cases hm : maximal_runs rest with
    | nil =>
      rw [hm] at hr
      simp only [List.mem_singleton] at hr
      subst hr
      exact List.mem_cons_self _ _
    | cons p runs =>
      obtain ⟨b, k⟩ := p
      rw [hm] at hr ih
      simp only at hr
      split_ifs at hr with hab
      · rcases List.mem_cons.mp hr with h | h
        · subst h
          exact List.mem_cons_self _ _
        · exact List.mem_cons_of_mem _ (ih r (List.mem_cons_of_mem _ h))
      · rcases List.mem_cons.mp hr with h | h
        · subst h
          exact List.mem_cons_self _ _
        · exact List.mem_cons_of_mem _ (ih r h)

theorem entry_gaps_mem (es : List sparse_vector_allele) (last_pos : Nat) :
    ∀ p ∈ entry_gaps last_pos es, ∃ e ∈ es, e.status = p.1 := by
  induction es generalizing last_pos with
  | nil => intro p hp; cases hp
  | cons e es ih =>
    intro p hp
    simp only [entry_gaps, List.mem_cons] at hp
    rcases hp with h | h
    · subst h
      exact ⟨e, List.mem_cons_self _ _, rfl⟩
    · obtain ⟨x, hx, hxs⟩ := ih _ p h
      exact ⟨x, List.mem_cons_of_mem _ hx, hxs⟩

theorem rle_call_decoded_run_header (r : (allele_status × Nat) × Nat)
    (hst : r.1.1 = has_alt ∨ r.1.1 = is_missing) :
    (run_header r).decoded = run_group r := by
  have h := rle_call_decoded_close ⟨r.1.1, 0⟩ hst r.1.2 r.2
  exact h

theorem write_rle_groups_decoded_runs (m : marker)
    (hasc : strictly_ascending m.non_zero_haplotypes_)
    (hlt : ∀ e ∈ m.non_zero_haplotypes_, e.offset < u64)
    (hst : ∀ e ∈ m.non_zero_haplotypes_, e.status = has_alt ∨ e.status = is_missing) :
    (write_rle_groups m).map rle_call.decoded =
      (maximal_runs (entry_gaps 0 m.non_zero_haplotypes_)).map run_group := by
  rw [write_rle_groups_runs, machine_gaps_eq _ hasc hlt 0 (fun _ _ => Nat.zero_le _),
    List.map_map]
  refine List.map_congr_left (fun r hr => ?_)
  obtain ⟨e, he, hes⟩ := entry_gaps_mem _ _ _ (maximal_runs_mem _ r hr)
  exact rle_call_decoded_run_header r (hes ▸ hst e he)

theorem two_bit_encode_congr (p q v : Nat) (h : p / 64 % 4 = q / 64 % 4) :
    two_bit_prefixed_varint.encode p v = two_bit_prefixed_varint.encode q v := by
  unfold two_bit_prefixed_varint.encode
  simp only [h]

theorem rle_call_header_flags (c : rle_call) :
    c.header.flags / 64 % 4 = c.allele_repeat_pfx / 64 % 4 := by
  have hq : c.allele_repeat_pfx / 64 % 4 =
      2 * (c.allele_repeat_pfx / 128 % 2) + c.allele_repeat_pfx / 64 % 2 := by omega
  unfold rle_header.flags rle_call.header
  by_cases h6 : c.allele_repeat_pfx / 64 % 2 = 0 <;>
    by_cases h7 : c.allele_repeat_pfx / 128 % 2 = 0 <;>
    simp [h6, h7] <;> omega

theorem rle_call_header_spec (c : rle_call) (hc : c.framed) :
    c.header.bytes = c.bytes ∧
    (⟨c.header.status, c.header.gap⟩, c.header.run_length) = c.decoded ∧
    c.header.gap < u64 ∧ c.header.run_length < u64 := by
  obtain ⟨hoff, hrep, hflag⟩ := hc
  have henc := two_bit_encode_congr _ _ c.offset (rle_call_header_flags c)
  have hstatus : c.header.status =
      (if c.allele_repeat_pfx / 128 % 2 ≠ 0 then has_alt else is_missing) := by
    unfold rle_header.status rle_call.header
    by_cases h7 : c.allele_repeat_pfx / 128 % 2 ≠ 0 <;> simp [h7]
  by_cases h6 : c.allele_repeat_pfx / 64 % 2 ≠ 0
  · have hn : c.number_of_repeats ≠ 0 := hflag.mp h6
    have hr : c.header.repeats = some c.number_of_repeats := by
      unfold rle_call.header
      exact if_pos h6
    have hg : c.header.gap = c.offset := rfl
    refine ⟨?_, ?_, hoff, ?_⟩
    · unfold rle_header.bytes rle_call.bytes
      rw [hr, hg, henc, if_pos hn]
    · unfold rle_call.decoded rle_header.run_length
      rw [hr, hstatus, hg, if_pos h6]
      rfl
    · unfold rle_header.run_length
      rw [hr]
      exact hrep
  · have hn : ¬ c.number_of_repeats ≠ 0 := fun hh => h6 (hflag.mpr hh)
    have hr : c.header.repeats = none := by
      unfold rle_call.header
      exact if_neg h6
    have hg : c.header.gap = c.offset := rfl
    refine ⟨?_, ?_, hoff, ?_⟩
    · unfold rle_header.bytes rle_call.bytes
      rw [hr, hg, henc, if_neg hn]
    · unfold rle_call.decoded rle_header.run_length
      rw [hr, hstatus, hg, if_neg h6]
      rfl
    · unfold rle_header.run_length
      rw [hr]
      exact Nat.pos_of_ne_zero (by decide)

theorem write_rle_groups_decoded_snd (m : marker) :
    ∀ c ∈ write_rle_groups m, c.decoded.2 = c.number_of_repeats := by
  intro c hc
  have hflag : (c.allele_repeat_pfx / 64 % 2 ≠ 0 ↔ c.number_of_repeats ≠ 0) := by
    unfold write_rle_groups at hc
    cases h : m.non_zero_haplotypes_ with
    | nil =>
      rw [h] at hc
      cases hc
    | cons e es =>
      rw [h] at hc
      exact write_rle_calls_pfx _ _ _ _ _ c hc
  unfold rle_call.decoded
  by_cases h6 : c.allele_repeat_pfx / 64 % 2 ≠ 0
  · exact if_pos h6
  · have hn : c.number_of_repeats = 0 := by
      by_contra hne
      exact h6 (hflag.mpr hne)
    simp only [if_neg h6, hn]

theorem write_rle_groups_decoded_cover (m : marker) :
    (((write_rle_groups m).map rle_call.decoded).map (fun g => 1 + g.2)).sum =
      m.non_zero_haplotypes_.length := by
  rw [← write_rle_groups_cover m, List.map_map]
  congr 1
  refine List.map_congr_left (fun c hc => ?_)
  simp only [Function.comp, write_rle_groups_decoded_snd m c hc]
  exact Nat.add_comm _ _

theorem read_rle_headers_written (u : unspecified) (m : marker)
    (hsize : m.non_zero_haplotypes_.length < u64) (b0 : Nat) (rest : List Nat) :
    ∃ b, read_rle_headers u 0
        (List.replicate (write_rle_groups m).length (u.value_init, 0))
        (b0 :: (write_rle_payload m ++ rest)) =
      ((write_rle_groups m).map rle_call.decoded,
        (((write_rle_groups m).map rle_call.decoded).map (fun g => g.2)).sum % u64,
        b :: rest) := by
  obtain ⟨_, hframed⟩ := write_rle_groups_framed m hsize
  have hspec := fun c hc => rle_call_header_spec c (hframed c hc)
  obtain ⟨b, hb⟩ := read_rle_headers_complete u ((write_rle_groups m).map rle_call.header)
    (by
      intro h hh
      obtain ⟨c, hc, rfl⟩ := List.mem_map.mp hh
      exact (hspec c hc).2.2.1)
    (by
      intro h hh
      obtain ⟨c, hc, rfl⟩ := List.mem_map.mp hh
      exact (hspec c hc).2.2.2)
    0 (by decide) (List.replicate (write_rle_groups m).length (u.value_init, 0))
    (by simp) b0 rest
  have hbytes : ((write_rle_groups m).map rle_call.header).flatMap rle_header.bytes =
      write_rle_payload m := by
    unfold write_rle_payload
    rw [List.flatMap_map]
    exact List.flatMap_congr (fun c hc => (hspec c hc).1)
  have hpairs : ((write_rle_groups m).map rle_call.header).map
      (fun h => ((⟨h.status, h.gap⟩ : sparse_vector_allele), h.run_length)) =
      (write_rle_groups m).map rle_call.decoded := by
    rw [List.map_map]
    exact List.map_congr_left (fun c hc => (hspec c hc).2.1)
  have hsum : (((write_rle_groups m).map rle_call.header).map rle_header.run_length).sum =
      (((write_rle_groups m).map rle_call.decoded).map (fun g => g.2)).sum := by
    rw [List.map_map, List.map_map]
    congr 1
    refine List.map_congr_left (fun c hc => ?_)
    have := (hspec c hc).2.1
    simp only [Function.comp]
    rw [← this]
  rw [hbytes, hpairs, hsum, Nat.zero_add] at hb
  exact ⟨b, hb⟩

/-! ## The claims -/

theorem one_bit_encode_flag (p x : Nat) :
    (one_bit_prefixed_varint.encode p x).headD 0 / 128 % 2 = p / 128 % 2 := by
  unfold one_bit_prefixed_varint.encode
  by_cases h0 : x % u64 / 64 = 0
  · simp [h0]; omega
  · simp [h0]; omega

theorem scenario_R_write : scenario_R.write = [100, 1, 65, 1, 67, 132, 192, 3] := by decide

theorem scenario_R_well_formed : scenario_R.well_formed :=
  ⟨by decide, by decide, by decide, by decide, by decide, by decide⟩

theorem scenario_S_well_formed : scenario_S.well_formed :=
  ⟨by decide, by decide, by decide, by decide, by decide, by decide⟩

/-- Claim C1, evaluated at the failing input.  The marker with four `has_alt`
entries at offsets 0, 1, 2, 3 is valid (strictly ascending, offsets below
`haplotype_count = 4`, statuses `has_alt`) and `marker::write` selects RLE mode for
it.  Whatever the destination held and whatever the decoders leave behind at the
end of the source, `marker::read` on exactly the bytes written returns seven
entries: the four written ones followed by three more, because it decodes
`count = 4` headers where the writer emitted one.  The round trip fails. -/
theorem read_write_rle_scenario (u : unspecified) (destination : marker) :
    scenario_R.well_formed ∧
    strictly_ascending scenario_R.non_zero_haplotypes_ ∧
    (∀ e ∈ scenario_R.non_zero_haplotypes_, e.offset < scenario_R.haplotype_count_) ∧
    scenario_R.writes_rle = true ∧
    (marker.read u destination 4 ⟨scenario_R.write, true⟩).1.non_zero_haplotypes_.length = 7 ∧
    (marker.read u destination 4 ⟨scenario_R.write, true⟩).1.non_zero_haplotypes_.take 4 =
      scenario_R.non_zero_haplotypes_ ∧
    (marker.read u destination 4 ⟨scenario_R.write, true⟩).1.non_zero_haplotypes_ ≠
      scenario_R.non_zero_haplotypes_ ∧
    (marker.read u destination 4 ⟨scenario_R.write, true⟩).2 = ⟨[], false⟩ := by
  have e1 : varint_decode [100, 1, 65, 1, 67, 132, 192, 3] =
      some (100, [100, 1, 65, 1, 67, 132, 192, 3]) := by decide
  have e2 : varint_decode [1, 65, 1, 67, 132, 192, 3] =
      some (1, [1, 65, 1, 67, 132, 192, 3]) := by decide
  have e3 := read_string_exact destination.ref_ [65] [1, 67, 132, 192, 3]
  have e4 : varint_decode [1, 67, 132, 192, 3] = some (1, [1, 67, 132, 192, 3]) := by decide
  have e5 := read_string_exact destination.alt_ [67] [132, 192, 3]
  simp only [List.length_singleton, List.singleton_append] at e3 e5
  have hlen : (marker.read u destination 4
      ⟨scenario_R.write, true⟩).1.non_zero_haplotypes_.length = 7 := by
    rw [scenario_R_write]
    simp only [marker.read, e1, List.tail_cons, e2, e3, e4, e5]
    simp [read_alleles, one_bit_prefixed_varint.decode, read_rle_headers,
      two_bit_prefixed_varint.decode, varint_decode, varint_decode_loop, read_rle_expand,
      read_rle_repeat, List.replicate, u64_add, u64]
  refine ⟨scenario_R_well_formed, by decide, by decide, by decide, hlen, ?_, ?_, ?_⟩
  · rw [scenario_R_write]
    simp only [marker.read, e1, List.tail_cons, e2, e3, e4, e5]
    simp [read_alleles, one_bit_prefixed_varint.decode, read_rle_headers,
      two_bit_prefixed_varint.decode, varint_decode, varint_decode_loop, read_rle_expand,
      read_rle_repeat, List.replicate, u64_add, u64, scenario_R]
  · intro h
    rw [h] at hlen
    simp [scenario_R] at hlen
  · rw [scenario_R_write]
    simp only [marker.read, e1, List.tail_cons, e2, e3, e4, e5]
    simp [read_alleles, one_bit_prefixed_varint.decode, read_rle_headers,
      two_bit_prefixed_varint.decode, varint_decode, varint_decode_loop, istream.get]

/-- Claim C2.  Mode selection: `marker::write` hands the flag `0x80` (RLE) to the
encoder of the mode_and_count field if and only if
`calculate_rle_serialized_gt_size() < calculate_serialized_gt_size()`, the flag
`0x00` (plain) otherwise and in particular when the two sizes are equal; in both
modes the value of the field is the number of entries; and bit 7 of the first byte
written for the field is set exactly in the RLE case. -/
theorem mode_selection (m : marker) :
    ((write_mode_and_count m).1 = 0x80 ↔
      m.calculate_rle_serialized_gt_size < m.calculate_serialized_gt_size) ∧
    ((write_mode_and_count m).1 = 0x00 ↔
      ¬ m.calculate_rle_serialized_gt_size < m.calculate_serialized_gt_size) ∧
    (m.calculate_rle_serialized_gt_size = m.calculate_serialized_gt_size →
      (write_mode_and_count m).1 = 0x00) ∧
    (write_mode_and_count m).2 = m.non_zero_haplotypes_.length ∧
    m.write = write_site m ++
      (one_bit_prefixed_varint.encode (write_mode_and_count m).1 m.non_zero_haplotypes_.length ++
        write_payload m) ∧
    ((one_bit_prefixed_varint.encode (write_mode_and_count m).1
        m.non_zero_haplotypes_.length).headD 0 / 128 % 2 = 1 ↔
      m.calculate_rle_serialized_gt_size < m.calculate_serialized_gt_size) := by
  have hlen : (write_mode_and_count m).2 = m.non_zero_haplotypes_.length := by
    unfold write_mode_and_count; split <;> rfl
  by_cases h : m.calculate_rle_serialized_gt_size < m.calculate_serialized_gt_size
  · have hw : m.writes_rle = true := by simp [marker.writes_rle, h]
    have h1 : (write_mode_and_count m).1 = 0x80 := by simp [write_mode_and_count, hw]
    refine ⟨by simp [h1, h], by simp [h1, h], by omega, hlen, ?_, ?_⟩
    · simp [marker.write, hlen]
    · rw [one_bit_encode_flag, h1]; simp [h]
  · have hw : m.writes_rle = false := by simp [marker.writes_rle, h]
    have h1 : (write_mode_and_count m).1 = 0x00 := by simp [write_mode_and_count, hw]
    refine ⟨by simp [h1, h], by simp [h1, h], fun _ => h1, hlen, ?_, ?_⟩
    · simp [marker.write, hlen]
    · rw [one_bit_encode_flag, h1]; simp [h]

/-- Claim C3.  Estimator exactness: for every marker the bytes `marker::write`
emits after the mode_and_count field number exactly
`calculate_rle_serialized_gt_size()` when the RLE flag is written and exactly
`calculate_serialized_gt_size()` when the plain flag is written (each encoder
emitting `encoded_byte_width` bytes, which holds of the codec as specified). -/
theorem estimator_exact (m : marker) :
    m.write = write_site m ++
      (one_bit_prefixed_varint.encode (write_mode_and_count m).1 (write_mode_and_count m).2 ++
        write_payload m) ∧
    (write_payload m).length =
      (if (write_mode_and_count m).1 = 0x80 then m.calculate_rle_serialized_gt_size
       else m.calculate_serialized_gt_size) := by
  refine ⟨rfl, ?_⟩
  by_cases hw : m.writes_rle = true
  · have h1 : (write_mode_and_count m).1 = 0x80 := by simp [write_mode_and_count, hw]
    rw [if_pos h1]
    simp only [write_payload, hw, if_true, write_rle_payload, write_rle_groups,
      marker.calculate_rle_serialized_gt_size]
    cases m.non_zero_haplotypes_ with
    | nil => simp
    | cons e es => simpa using rle_payload_length 0 (u64_sub e.offset 0) e (u64_add e.offset 1) 0 es
  · have hw : m.writes_rle = false := by simpa using hw
    have h1 : ¬ (write_mode_and_count m).1 = 0x80 := by simp [write_mode_and_count, hw]
    rw [if_neg h1]
    simp only [write_payload, hw, write_plain_payload, marker.calculate_serialized_gt_size]
    simpa using plain_payload_length 0 0 m.non_zero_haplotypes_

/-- Claim C4, evaluated at the failing input.  For the marker with four `has_alt`
entries at offsets 0, 1, 2, 3 `marker::write` selects RLE mode, puts the count 4
(the number of entries) in the mode_and_count field and then emits ONE
two-bit-prefixed header (flags `0xC0`, gap 0, followed by the repeat count 3).
The header loop of `marker::read`, set up for 4 headers, finds the source used up
after the first. -/
theorem rle_count_scenario (u : unspecified) :
    scenario_R.writes_rle = true ∧
    write_mode_and_count scenario_R = (0x80, 4) ∧
    write_rle_groups scenario_R = [⟨0xC0, 0, 3⟩] ∧
    (write_rle_groups scenario_R).length = 1 ∧
    scenario_R.write = write_site scenario_R ++ ([132] ++ [192, 3]) ∧
    (read_rle_headers u 0 (List.replicate 4 (u.value_init, 0)) [132, 192, 3]).1.take 1 =
      [(⟨has_alt, 0⟩, 3)] ∧
    (read_rle_headers u 0 (List.replicate 4 (u.value_init, 0)) [132, 192, 3]).2.2 = [] := by
  refine ⟨by decide, by decide, by decide, by decide, by decide, ?_, ?_⟩ <;>
  simp [read_rle_headers, two_bit_prefixed_varint.decode, varint_decode, varint_decode_loop,
    List.replicate, u64_add, u64]

/-- Claim C5 as stated fails: the source `05 03 41` is the record of position 5
with `ref` "ABC" cut after the first byte of `ref`, and `marker::read` returns
normally on it, leaving a partially filled marker (position 5, `ref` "A" padded
with two zero bytes, nothing else) and the stream in its fail state.  No error is
raised. -/
theorem read_cut_record_returns :
    (marker.write ⟨[], [65, 66, 67], [71], 5, 10⟩).take 3 = [5, 3, 65] ∧
    marker.read untouched empty_marker 10 ⟨[5, 3, 65], true⟩ =
      (⟨[], [65, 0, 0], [], 5, 10⟩, ⟨[], false⟩) := by
  decide

/-- Claim C5, amended.  For every well-formed marker and every proper prefix of
the bytes `marker::write` produces for it (a source that ends before the record is
complete, wherever the cut falls), `marker::read` returns normally, whatever the
destination held: the `void` function has no error path.  The only trace of the
truncation is in the stream, which is left used up with its fail state set by the
closing `is.get()`. -/
theorem read_truncated_fail_state (u : unspecified) (destination m : marker)
    (hm : m.well_formed) (haplotype_count k : Nat) (hk : k < m.write.length) :
    ∃ filled : marker,
      marker.read u destination haplotype_count ⟨m.write.take k, true⟩ =
        (filled, ⟨[], false⟩) := by
  refine ⟨(marker.read u destination haplotype_count ⟨m.write.take k, true⟩).1, ?_⟩
  have h := read_truncated u destination m hm haplotype_count k hk
  exact Prod.ext rfl h

theorem read_truncated_fail_state_witness :
    scenario_S.well_formed ∧ 4 < scenario_S.write.length ∧
    ∃ filled : marker,
      marker.read untouched empty_marker 10 ⟨scenario_S.write.take 4, true⟩ =
        (filled, ⟨[], false⟩) :=
  ⟨scenario_S_well_formed, by decide,
    read_truncated_fail_state untouched empty_marker scenario_S scenario_S_well_formed 10 4
      (by decide)⟩

/-- Claim C6 as stated fails: the nine bytes `marker::write` produces for the
scenario `S` are position, `ref`, `alt`, the mode_and_count byte and the three
payload bytes; nothing follows the payload.  And when a byte does follow the
record in the source, `marker::read` leaves it in the stream: its closing
`is.get()` takes the last byte of the payload. -/
theorem write_emits_no_separator :
    scenario_S.write = [100, 1, 65, 1, 67, 3, 130, 130, 3] ∧
    write_site scenario_S = [100, 1, 65, 1, 67] ∧
    one_bit_prefixed_varint.encode (write_mode_and_count scenario_S).1
      (write_mode_and_count scenario_S).2 = [3] ∧
    write_payload scenario_S = [130, 130, 3] ∧
    scenario_S.write.length =
      (write_site scenario_S).length + 1 + (write_payload scenario_S).length ∧
    marker.read untouched empty_marker 10 ⟨scenario_S.write ++ [0], true⟩ =
      (scenario_S, ⟨[0], true⟩) := by
  decide

/-- Claim C6, amended.  The bytes produced by `marker::write` are position, `ref`,
`alt`, the mode_and_count field and the allele payload, with no byte after the
payload.  The single byte `marker::read` extracts with its closing `is.get()` is
the last byte of the record itself, which the decoders leave in the stream: for a
well-formed marker written in plain mode `marker::read` extracts exactly the bytes
written, returns the marker, and leaves what follows the record untouched. -/
theorem write_layout_and_closing_get :
    (∀ m : marker,
      m.write = (varint_encode m.position_ ++
          (varint_encode m.ref_.length ++ m.ref_) ++
          (varint_encode m.alt_.length ++ m.alt_)) ++
        (one_bit_prefixed_varint.encode (write_mode_and_count m).1 (write_mode_and_count m).2 ++
          write_payload m)) ∧
    (∀ (u : unspecified) (destination m : marker) (haplotype_count : Nat) (rest : List Nat),
      m.well_formed → m.writes_rle = false →
      marker.read u destination haplotype_count ⟨m.write ++ rest, true⟩ =
        (⟨m.non_zero_haplotypes_, m.ref_, m.alt_, m.position_, haplotype_count⟩,
          ⟨rest, true⟩)) :=
  ⟨fun _ => rfl, fun u destination m haplotype_count rest hm hw =>
    read_write_plain u destination m hm hw haplotype_count rest⟩

theorem write_layout_and_closing_get_witness :
    scenario_S.well_formed ∧ scenario_S.writes_rle = false ∧
    marker.read untouched empty_marker 10 ⟨scenario_S.write ++ scenario_S.write, true⟩ =
      (scenario_S, ⟨scenario_S.write, true⟩) :=
  ⟨scenario_S_well_formed, by decide,
    write_layout_and_closing_get.2 untouched empty_marker scenario_S 10 scenario_S.write
      scenario_S_well_formed (by decide)⟩

/-- Claim C7.  Random access: for every marker whose entries are strictly
ascending by offset and every index `i`, `marker::operator[]` (binary search with
`std::lower_bound`) returns the status of the stored entry whose offset is `i` when
there is one, and `has_ref` when no stored entry has offset `i`. -/
theorem subscript_spec (m : marker) (h : strictly_ascending m.non_zero_haplotypes_) (i : Nat) :
    (∀ e ∈ m.non_zero_haplotypes_, e.offset = i → m.subscript i = e.status) ∧
    ((∀ e ∈ m.non_zero_haplotypes_, e.offset ≠ i) → m.subscript i = has_ref) := by
  obtain ⟨hle, hlo, hhi⟩ := lower_bound_spec m.non_zero_haplotypes_ h i
  constructor
  · intro e he hei
    obtain ⟨j, hj, hje⟩ := List.getElem_of_mem he
    have hjD : m.non_zero_haplotypes_.getD j default = e := by
      rw [List.getD_eq_getElem _ _ hj]; exact hje
    have hkj : lower_bound m.non_zero_haplotypes_ i ≤ j := by
      by_contra hc
      have := hlo j (by omega)
      rw [hjD] at this
      omega
    have hk : lower_bound m.non_zero_haplotypes_ i = j := by
      by_contra hc
      have h1 := ascending_getD _ h (lower_bound m.non_zero_haplotypes_ i) j (by omega) hj
      have h2 := hhi (lower_bound m.non_zero_haplotypes_ i) (le_refl _) (by omega)
      rw [hjD] at h1
      omega
    unfold marker.subscript
    simp only [hk, hjD]
    have : ¬ (j = m.non_zero_haplotypes_.length ∨ e.offset ≠ i) := by
      intro hc
      rcases hc with hc | hc
      · omega
      · exact hc hei
    rw [if_neg this]
  · intro hne
    unfold marker.subscript
    simp only
    by_cases hk : lower_bound m.non_zero_haplotypes_ i = m.non_zero_haplotypes_.length
    · simp [hk]
    · have hlt : lower_bound m.non_zero_haplotypes_ i < m.non_zero_haplotypes_.length := by omega
      have hmem : m.non_zero_haplotypes_.getD (lower_bound m.non_zero_haplotypes_ i) default ∈
          m.non_zero_haplotypes_ := by
        rw [List.getD_eq_getElem _ _ hlt]
        exact List.getElem_mem _
      rw [if_pos (Or.inr (hne _ hmem))]

theorem subscript_spec_witness :
    strictly_ascending scenario_S.non_zero_haplotypes_ ∧
    (∀ e ∈ scenario_S.non_zero_haplotypes_, e.offset = 5 → scenario_S.subscript 5 = e.status) ∧
    ((∀ e ∈ scenario_S.non_zero_haplotypes_, e.offset ≠ 5) → scenario_S.subscript 5 = has_ref) :=
  ⟨by decide, subscript_spec scenario_S (by decide) 5⟩

/-- Claim C8.  Checked access: `marker::at(i)` throws `std::out_of_range` if and
only if `i` is at least the number of stored entries (not `haplotype_count`), and
otherwise returns what `operator[](i)` returns. -/
theorem at_spec (m : marker) (i : Nat) :
    ((∃ e, m.at i = Except.error e) ↔ i ≥ m.non_zero_haplotypes_.length) ∧
    (m.at i = Except.error out_of_range.index_out_of_range ↔ i ≥ m.non_zero_haplotypes_.length) ∧
    (¬ i ≥ m.non_zero_haplotypes_.length → m.at i = Except.ok (m.subscript i)) := by
  by_cases h : i ≥ m.non_zero_haplotypes_.length
  · simp [marker.at, h]
    exact ⟨out_of_range.index_out_of_range, trivial⟩
  · simp [marker.at, h]

theorem allele_frequency_loop_spec (es : List sparse_vector_allele) (a t : Nat)
    (hs : ∀ e ∈ es, e.status = has_alt ∨ e.status = is_missing)
    (hM : es.countP (fun e => e.status = is_missing) ≤ t) (ht : t < u64) :
    calculate_allele_frequency_loop a t es =
      ⟨a + es.countP (fun e => e.status = has_alt),
        t - es.countP (fun e => e.status = is_missing)⟩ := by
  induction es generalizing a t with
  | nil => simp [calculate_allele_frequency_loop]
  | cons e es ih =>
    have hs' : ∀ x ∈ es, x.status = has_alt ∨ x.status = is_missing :=
      fun x hx => hs x (List.mem_cons_of_mem _ hx)
    rcases hs e (List.mem_cons_self _ _) with he | he
    · have hM' : es.countP (fun e => e.status = is_missing) ≤ t := by
        simpa [List.countP_cons, he] using hM
      simp [calculate_allele_frequency_loop, he, List.countP_cons, ih _ _ hs' hM' ht]
      omega
    · have hM' : es.countP (fun e => e.status = is_missing) + 1 ≤ t := by
        simpa [List.countP_cons, he] using hM
      have h1 : u64_sub t 1 = t - 1 := by
        unfold u64_sub
        have : (1 : Nat) % u64 = 1 := by decide
        rw [Nat.mod_eq_of_lt ht, this]
        have h2 : t + u64 - 1 = (t - 1) + u64 := by omega
        rw [h2, Nat.add_mod_right, Nat.mod_eq_of_lt (by omega)]
      have ht' : t - 1 < u64 := by omega
      simp [calculate_allele_frequency_loop, he, List.countP_cons, h1,
        ih a (t - 1) hs' (by omega) ht']
      omega

/-- Claim C9.  Allele frequency: for every marker whose stored statuses are
`has_alt` or `is_missing` and whose number `M` of `is_missing` entries is below
`haplotype_count` (a 64-bit value), the operands `calculate_allele_frequency`
divides are the number `A` of `has_alt` entries and `haplotype_count - M`; for
`{HasAlt@2, HasAlt@5, IsMissing@9}` with `haplotype_count = 10` they are 2 and 9. -/
theorem allele_frequency_operands :
    (∀ m : marker,
      (∀ e ∈ m.non_zero_haplotypes_, e.status = has_alt ∨ e.status = is_missing) →
      m.non_zero_haplotypes_.countP (fun e => e.status = is_missing) < m.haplotype_count_ →
      m.haplotype_count_ < u64 →
      m.calculate_allele_frequency =
        ⟨m.non_zero_haplotypes_.countP (fun e => e.status = has_alt),
          m.haplotype_count_ - m.non_zero_haplotypes_.countP (fun e => e.status = is_missing)⟩) ∧
    marker.calculate_allele_frequency
      ⟨[⟨has_alt, 2⟩, ⟨has_alt, 5⟩, ⟨is_missing, 9⟩], [], [], 0, 10⟩ = ⟨2, 9⟩ := by
  refine ⟨fun m hs hM ht => ?_, by decide⟩
  have := allele_frequency_loop_spec m.non_zero_haplotypes_ 0 m.haplotype_count_ hs (by omega) ht
  simpa [marker.calculate_allele_frequency] using this

theorem allele_frequency_operands_witness :
    (∀ e ∈ scenario_S.non_zero_haplotypes_, e.status = has_alt ∨ e.status = is_missing) ∧
    scenario_S.non_zero_haplotypes_.countP (fun e => e.status = is_missing) < scenario_S.haplotype_count_ ∧
    scenario_S.haplotype_count_ < u64 ∧
    scenario_S.calculate_allele_frequency =
        ⟨scenario_S.non_zero_haplotypes_.countP (fun e => e.status = has_alt),
          scenario_S.haplotype_count_ - scenario_S.non_zero_haplotypes_.countP (fun e => e.status = is_missing)⟩ :=
  ⟨by decide, by decide, by decide,
    allele_frequency_operands.1 scenario_S (by decide) (by decide) (by decide)⟩

/-- Claim C10.  Plain payload layout: for every marker with strictly ascending
entries (64-bit offsets) written in plain mode the payload is one
one-bit-prefixed varint per entry, in order, whose flag is set exactly when the
status is `has_alt` and whose value is the difference `offset_i - last_pos`, which
does not wrap, `last_pos` being 0 for the first entry and the previous offset plus
one afterwards.  For `{HasAlt@2, HasAlt@5, IsMissing@9}` plain mode is selected and
the payload is the three varints with flags 1, 1, 0 and values 2, 2, 3. -/
theorem plain_payload_layout :
    (∀ m : marker, strictly_ascending m.non_zero_haplotypes_ →
      (∀ e ∈ m.non_zero_haplotypes_, e.offset < u64) →
      m.writes_rle = false →
      write_payload m =
        (write_plain_calls 0 m.non_zero_haplotypes_).flatMap
          (fun c => one_bit_prefixed_varint.encode c.allele c.offset) ∧
      (write_plain_calls 0 m.non_zero_haplotypes_).length = m.non_zero_haplotypes_.length ∧
      ∀ i, i < m.non_zero_haplotypes_.length →
        (((write_plain_calls 0 m.non_zero_haplotypes_).getD i default).allele / 128 % 2 = 1 ↔
          (m.non_zero_haplotypes_.getD i default).status = has_alt) ∧
        (if i = 0 then 0 else (m.non_zero_haplotypes_.getD (i - 1) default).offset + 1) ≤
          (m.non_zero_haplotypes_.getD i default).offset ∧
        ((write_plain_calls 0 m.non_zero_haplotypes_).getD i default).offset =
          (m.non_zero_haplotypes_.getD i default).offset -
            (if i = 0 then 0 else (m.non_zero_haplotypes_.getD (i - 1) default).offset + 1)) ∧
    (∀ (r a : List Nat) (p hc : Nat),
      marker.writes_rle ⟨[⟨has_alt, 2⟩, ⟨has_alt, 5⟩, ⟨is_missing, 9⟩], r, a, p, hc⟩ = false ∧
      write_payload ⟨[⟨has_alt, 2⟩, ⟨has_alt, 5⟩, ⟨is_missing, 9⟩], r, a, p, hc⟩ =
        one_bit_prefixed_varint.encode 0x80 2 ++ (one_bit_prefixed_varint.encode 0x80 2 ++
          one_bit_prefixed_varint.encode 0x00 3)) := by
  refine ⟨fun m hasc hlt hw => ⟨?_, write_plain_calls_length _ _, fun i hi => ?_⟩,
    fun r a p hc => ⟨rfl, rfl⟩⟩
  · simp only [write_payload, hw, write_plain_payload]
    rfl
  · obtain ⟨h1, h2⟩ := write_plain_calls_getD m.non_zero_haplotypes_ hasc hlt 0
      (fun _ _ => Nat.zero_le _) i hi
    rw [h2]
    exact ⟨alt_bit_flag _, h1, rfl⟩

theorem plain_payload_layout_witness :
    strictly_ascending scenario_S.non_zero_haplotypes_ ∧
    (∀ e ∈ scenario_S.non_zero_haplotypes_, e.offset < u64) ∧
    scenario_S.writes_rle = false ∧
    write_payload scenario_S =
        (write_plain_calls 0 scenario_S.non_zero_haplotypes_).flatMap
          (fun c => one_bit_prefixed_varint.encode c.allele c.offset) ∧
    write_payload scenario_S = [130, 130, 3] :=
  ⟨by decide, by decide, by decide,
    (plain_payload_layout.1 scenario_S (by decide) (by decide) (by decide)).1, by decide⟩

theorem two_bit_encode_flags (p x : Nat) :
    (two_bit_prefixed_varint.encode p x).headD 0 / 64 % 4 = p / 64 % 4 := by
  unfold two_bit_prefixed_varint.encode
  by_cases h0 : x % u64 / 32 = 0
  · simp [h0]; omega
  · simp [h0]; omega

theorem run_header_bits (r : (allele_status × Nat) × Nat) :
    ((run_header r).allele_repeat_pfx / 128 % 2 = 1 ↔ r.1.1 = has_alt) ∧
    ((run_header r).allele_repeat_pfx / 64 % 2 = 1 ↔ 0 < r.2) := by
  obtain ⟨⟨s, g⟩, n⟩ := r
  unfold run_header alt_bit
  by_cases hn : n = 0 <;> by_cases hs : s = has_alt <;> simp [hn, hs] <;> omega

/-- Claim C11.  RLE payload grouping: for every marker with strictly ascending
entries (64-bit offsets) written in RLE mode, the headers `marker::write` emits are
the maximal runs, left to right, of consecutive entries sharing both status and
gap; the header of a run is a two-bit-prefixed varint whose top bit is set exactly
for `has_alt`, whose second bit is set exactly when the run length (entries merged
besides the anchor) is positive and whose value is the gap of the anchor, followed
by the run length as a plain varint only when it is positive.  For four `has_alt`
entries at offsets 0, 1, 2, 3 there is one run with gap 0, both bits set and run
length 3; its two payload bytes are fewer than the four of the plain payload. -/
theorem rle_payload_grouping :
    (∀ m : marker, strictly_ascending m.non_zero_haplotypes_ →
      (∀ e ∈ m.non_zero_haplotypes_, e.offset < u64) →
      m.writes_rle = true →
      write_rle_groups m =
        (maximal_runs (entry_gaps 0 m.non_zero_haplotypes_)).map run_header ∧
      write_payload m =
        (maximal_runs (entry_gaps 0 m.non_zero_haplotypes_)).flatMap (fun r =>
          two_bit_prefixed_varint.encode (run_header r).allele_repeat_pfx r.1.2 ++
            (if r.2 ≠ 0 then varint_encode r.2 else []))) ∧
    (∀ r : (allele_status × Nat) × Nat,
      ((run_header r).allele_repeat_pfx / 128 % 2 = 1 ↔ r.1.1 = has_alt) ∧
      ((run_header r).allele_repeat_pfx / 64 % 2 = 1 ↔ 0 < r.2) ∧
      (two_bit_prefixed_varint.encode (run_header r).allele_repeat_pfx r.1.2).headD 0 / 64 % 4 =
        (run_header r).allele_repeat_pfx / 64 % 4) ∧
    (maximal_runs (entry_gaps 0 scenario_R.non_zero_haplotypes_) = [((has_alt, 0), 3)] ∧
      scenario_R.writes_rle = true ∧
      write_rle_groups scenario_R = [⟨0xC0, 0, 3⟩] ∧
      write_payload scenario_R = [0xC0, 3] ∧
      (write_plain_payload scenario_R).length = 4 ∧
      (write_payload scenario_R).length < (write_plain_payload scenario_R).length) := by
  refine ⟨fun m hasc hlt hw => ?_, fun r => ⟨(run_header_bits r).1, (run_header_bits r).2,
    two_bit_encode_flags _ _⟩, by decide⟩
  have hg : write_rle_groups m =
      (maximal_runs (entry_gaps 0 m.non_zero_haplotypes_)).map run_header := by
    rw [write_rle_groups_runs,
      machine_gaps_eq _ hasc hlt 0 (fun _ _ => Nat.zero_le _)]
  refine ⟨hg, ?_⟩
  simp only [write_payload, hw, if_true, write_rle_payload, hg, List.flatMap_map]
  rfl

theorem rle_payload_grouping_witness :
    strictly_ascending scenario_R.non_zero_haplotypes_ ∧
    (∀ e ∈ scenario_R.non_zero_haplotypes_, e.offset < u64) ∧
    scenario_R.writes_rle = true ∧
    write_rle_groups scenario_R =
      (maximal_runs (entry_gaps 0 scenario_R.non_zero_haplotypes_)).map run_header :=
  ⟨by decide, by decide, by decide,
    (rle_payload_grouping.1 scenario_R (by decide) (by decide) (by decide)).1⟩

/-- Claim C20.  RLE is only chosen when a run exists: for every marker with
strictly ascending entries (64-bit offsets) in which no two consecutive entries
share both status and gap, `calculate_rle_serialized_gt_size()` is at least
`calculate_serialized_gt_size()` and `marker::write` emits plain mode; and for
every marker written in RLE mode at least one emitted header has its repeat bit
set and the emitted headers are fewer than the entries. -/
theorem rle_needs_a_run :
    (∀ m : marker, strictly_ascending m.non_zero_haplotypes_ →
      (∀ e ∈ m.non_zero_haplotypes_, e.offset < u64) →
      List.Chain' (fun a b => a ≠ b) (entry_gaps 0 m.non_zero_haplotypes_) →
      m.calculate_serialized_gt_size ≤ m.calculate_rle_serialized_gt_size ∧
      m.writes_rle = false ∧ (write_mode_and_count m).1 = 0x00) ∧
    (∀ m : marker, m.writes_rle = true →
      (∃ c ∈ write_rle_groups m, c.allele_repeat_pfx / 64 % 2 = 1 ∧ 0 < c.number_of_repeats) ∧
      (write_rle_groups m).length < m.non_zero_haplotypes_.length) := by
  constructor
  · intro m hasc hlt hch
    have hsize : m.calculate_serialized_gt_size ≤ m.calculate_rle_serialized_gt_size := by
      apply rle_size_without_repeat
      rw [← machine_gaps_eq _ hasc hlt 0 (fun _ _ => Nat.zero_le _)] at hch
      unfold write_rle_groups
      cases hes : m.non_zero_haplotypes_ with
      | nil => simp
      | cons e es =>
        rw [hes] at hch
        simp only [machine_gaps] at hch
        exact rle_calls_chain_no_repeat _ _ _ _ hch
    have hw : m.writes_rle = false := by simp [marker.writes_rle]; omega
    exact ⟨hsize, hw, by simp [write_mode_and_count, hw]⟩
  · intro m hw
    have hlt : m.calculate_rle_serialized_gt_size < m.calculate_serialized_gt_size := by
      simpa [marker.writes_rle] using hw
    have hex : ∃ c ∈ write_rle_groups m, c.number_of_repeats ≠ 0 := by
      by_contra hc
      simp only [not_exists, not_and, not_not] at hc
      have := rle_size_without_repeat m hc
      omega
    obtain ⟨c, hc, hr⟩ := hex
    have hbit : c.allele_repeat_pfx / 64 % 2 ≠ 0 := by
      have hp : ∀ c ∈ write_rle_groups m,
          (c.allele_repeat_pfx / 64 % 2 ≠ 0 ↔ c.number_of_repeats ≠ 0) := by
        unfold write_rle_groups
        cases m.non_zero_haplotypes_ with
        | nil => simp
        | cons e es => exact write_rle_calls_pfx _ _ _ _ _
      exact (hp c hc).mpr hr
    refine ⟨⟨c, hc, by omega, by omega⟩, ?_⟩
    have h1 := sum_succ_ge _ c hc
    have h2 := write_rle_groups_cover m
    omega

theorem rle_needs_a_run_witness :
    strictly_ascending scenario_no_run.non_zero_haplotypes_ ∧
    (∀ e ∈ scenario_no_run.non_zero_haplotypes_, e.offset < u64) ∧
    List.Chain' (fun a b => a ≠ b) (entry_gaps 0 scenario_no_run.non_zero_haplotypes_) ∧
    scenario_no_run.writes_rle = false ∧
    scenario_R.writes_rle = true ∧
    (write_rle_groups scenario_R).length < scenario_R.non_zero_haplotypes_.length :=
  ⟨by decide, by decide, by simp [scenario_no_run, entry_gaps],
    (rle_needs_a_run.1 scenario_no_run (by decide) (by decide)
      (by simp [scenario_no_run, entry_gaps])).2.1,
    by decide, (rle_needs_a_run.2 scenario_R (by decide)).2⟩

/-- Claim C12.  Header decoding: for a header made of eight bytes of version
string, a varint sample count, that many length-prefixed sample ids, a
length-prefixed chromosome and a varint ploidy below 256, whatever follows it in
the stream, `reader::reader` returns (the assertion holds) with exactly those
sample ids in order, that chromosome and that ploidy, and leaves the stream at
the first byte after the header; every call of `reader::operator>>` after it, in
any number, decodes its record with `haplotype_count` equal to sample count times
ploidy as a 64-bit value, which is the product itself when that fits 64 bits. -/
theorem reader_header_decoding (u : unspecified) (ndebug : Bool) (ploidy0 : Nat)
    (magic : List Nat) (ids : List (List Nat)) (chromosome : List Nat) (ploidy : Nat)
    (rest : List Nat) (hmagic : magic.length = 8) (hn : ids.length < u64)
    (hids : ∀ s ∈ ids, s.length < u64) (hc : chromosome.length < u64) (hp : ploidy < 256) :
    ∃ r, reader.ctor u ndebug ploidy0
        ⟨header_bytes magic ids chromosome ploidy ++ rest, true⟩ = some r ∧
      r.sample_ids_ = ids ∧ r.chromosome_ = chromosome ∧ r.ploidy_level_ = ploidy ∧
      r.input_stream_ = ⟨rest, true⟩ ∧
      (∀ destination, (reader.extract u r destination).2.haplotype_count_ =
        (ids.length * ploidy) % u64) ∧
      (∀ ds, (reader.extract_all u r ds).2.length = ds.length ∧
        ∀ m ∈ (reader.extract_all u r ds).2,
          m.haplotype_count_ = (ids.length * ploidy) % u64) ∧
      (ids.length * ploidy < u64 → (ids.length * ploidy) % u64 = ids.length * ploidy) :=
  ⟨⟨ids, chromosome, ploidy, ⟨rest, true⟩⟩,
    reader_ctor_header u ndebug ploidy0 magic ids chromosome ploidy rest hmagic hn hids hc hp,
    rfl, rfl, rfl, rfl,
    fun destination => read_haplotype_count u destination _ _,
    fun ds => ⟨(extract_all_spec u ds ⟨ids, chromosome, ploidy, ⟨rest, true⟩⟩).2.2.2.1,
      (extract_all_spec u ds ⟨ids, chromosome, ploidy, ⟨rest, true⟩⟩).2.2.2.2⟩,
    fun h => Nat.mod_eq_of_lt h⟩

theorem reader_header_decoding_witness :
    scenario_header =
      [99, 118, 99, 102, 0, 1, 0, 0, 2, 1, 97, 2, 98, 98, 4, 99, 104, 114, 49, 2] ∧
    ∃ r, reader.ctor untouched false 0 ⟨scenario_header ++ scenario_S.write, true⟩ = some r ∧
      r.sample_ids_ = [[97], [98, 98]] ∧ r.chromosome_ = [99, 104, 114, 49] ∧
      r.ploidy_level_ = 2 ∧ r.input_stream_ = ⟨scenario_S.write, true⟩ ∧
      (∀ destination, (reader.extract untouched r destination).2.haplotype_count_ = 4) := by
  refine ⟨by decide, ?_⟩
  obtain ⟨r, h1, h2, h3, h4, h5, h6, _⟩ :=
    reader_header_decoding untouched false 0 [99, 118, 99, 102, 0, 1, 0, 0] [[97], [98, 98]]
      [99, 104, 114, 49] 2 scenario_S.write (by decide) (by decide) (by decide) (by decide)
      (by decide)
  exact ⟨r, h1, h2, h3, h4, h5, h6⟩

/-- Claim C13, evaluated at the failing input.  The marker with four `has_alt`
entries at offsets 0, 1, 2, 3 is valid and `marker::write` encodes it in RLE mode
as `[100, 1, 65, 1, 67, 132, 192, 3]`.  Whatever the destination held,
`marker::read` decodes seven entries from these bytes, and `marker::write` of the
decoded marker gives a different byte sequence: its mode_and_count byte (index 5)
carries the count 7, where the first encoding has `132 = 0x80 + 4`.  In plain
mode the second encoding equals the first. -/
theorem rewrite_differs_scenario (u : unspecified) (destination : marker) :
    scenario_R.well_formed ∧
    strictly_ascending scenario_R.non_zero_haplotypes_ ∧
    (∀ e ∈ scenario_R.non_zero_haplotypes_, e.offset < scenario_R.haplotype_count_) ∧
    scenario_R.write = [100, 1, 65, 1, 67, 132, 192, 3] ∧
    marker.write (marker.read u destination 4 ⟨scenario_R.write, true⟩).1 ≠
      scenario_R.write ∧
    (marker.write (marker.read u destination 4 ⟨scenario_R.write, true⟩).1).getD 5 0 % 128 = 7 ∧
    (∀ (m : marker) (haplotype_count : Nat), m.well_formed → m.writes_rle = false →
      marker.write (marker.read u destination haplotype_count ⟨m.write, true⟩).1 =
        m.write) := by
  obtain ⟨es, hes, hdec⟩ := scenario_R_decoded u destination
  obtain ⟨mode, payload, hmode, hw⟩ := write_seven_entries es hes 4
  refine ⟨scenario_R_well_formed, by decide, by decide, scenario_R_write, ?_, ?_, ?_⟩
  · rw [hdec, hw, scenario_R_write]
    intro h
    simp only [List.cons_append, List.nil_append, List.cons.injEq, true_and] at h
    omega
  · rw [hdec, hw]
    simp only [List.cons_append, List.nil_append, List.getD_cons_succ, List.getD_cons_zero]
    omega
  · intro m haplotype_count hm hplain
    have h := read_write_plain u destination m hm hplain haplotype_count []
    rw [List.append_nil] at h
    rw [h]
    exact write_congr m haplotype_count

/-- Claim C14, the counterexample.  The record `[100, 1, 65, 1, 67, 1, 133]`
(position 100, `ref` "A", `alt` "C", plain mode, one entry, `has_alt` with gap 5)
is complete; read with `haplotype_count = 4` it gives the entry `has_alt` at
offset 5, which is not below 4. -/
theorem read_offset_beyond_haplotype_count :
    (marker.read untouched empty_marker 4 ⟨[100, 1, 65, 1, 67, 1, 133], true⟩) =
      (⟨[⟨has_alt, 5⟩], [65], [67], 100, 4⟩, ⟨[], true⟩) ∧
    ¬ (∀ e ∈ (marker.read untouched empty_marker 4
        ⟨[100, 1, 65, 1, 67, 1, 133], true⟩).1.non_zero_haplotypes_, e.offset < 4) := by
  have h : (marker.read untouched empty_marker 4 ⟨[100, 1, 65, 1, 67, 1, 133], true⟩) =
      (⟨[⟨has_alt, 5⟩], [65], [67], 100, 4⟩, ⟨[], true⟩) := by decide
  refine ⟨h, ?_⟩
  rw [h]
  decide

/-- Claim C14, amended.  `marker::read` stores `haplotype_count` and never
compares an offset with it.  What holds is a bound by the stream: in a complete
record, plain or RLE, every decoded offset is below the accumulated gaps plus the
entry count; so the offsets are below `haplotype_count` whenever that sum is at
most `haplotype_count` (a 64-bit value).  In particular this is so for the plain
record `marker::write` produces from a marker whose offsets are below
`haplotype_count`. -/
theorem read_offsets_bounded_by_span (u : unspecified) (destination : marker)
    (haplotype_count position : Nat) (ref alt rest : List Nat)
    (hh : haplotype_count < u64) (hp : position < u64) (hr : ref.length < u64)
    (ha : alt.length < u64) :
    (∀ cs : List plain_call, plain_span cs ≤ haplotype_count →
      ∀ e ∈ (marker.read u destination haplotype_count
        ⟨record_bytes position ref alt 0x00 cs.length (cs.flatMap plain_call.bytes) ++ rest,
          true⟩).1.non_zero_haplotypes_, e.offset < haplotype_count) ∧
    (∀ hs : List rle_header, rle_span hs ≤ haplotype_count →
      ∀ e ∈ (marker.read u destination haplotype_count
        ⟨record_bytes position ref alt 0x80 hs.length (hs.flatMap rle_header.bytes) ++ rest,
          true⟩).1.non_zero_haplotypes_, e.offset < haplotype_count) ∧
    (∀ m : marker, m.well_formed → m.writes_rle = false →
      (∀ e ∈ m.non_zero_haplotypes_, e.offset < haplotype_count) →
      ∀ e ∈ (marker.read u destination haplotype_count
        ⟨m.write ++ rest, true⟩).1.non_zero_haplotypes_, e.offset < haplotype_count) := by
  refine ⟨?_, ?_, ?_⟩
  · intro cs hspan e he
    have hlen : cs.length < u64 := Nat.lt_of_le_of_lt (plain_span_length cs) (by omega)
    rw [read_record_plain u destination haplotype_count position ref alt cs rest hp hr ha hlen
      (fun c hc => Nat.lt_trans (plain_span_bounds cs c hc) (by omega))] at he
    have := (plain_decoded_ascending cs 0 (by omega)).1 e he
    omega
  · intro hs hspan e he
    have hlen : hs.length < u64 := Nat.lt_of_le_of_lt (rle_span_length hs) (by omega)
    rw [read_record_rle u destination haplotype_count position ref alt hs rest hp hr ha hlen
      (fun h hh => Nat.lt_trans (rle_span_bounds hs h hh).1 (by omega))
      (fun h hh => Nat.lt_trans (rle_span_bounds hs h hh).2 (by omega))] at he
    have := (expansion_ascending hs 0 (by omega)).1 e he
    omega
  · intro m hm hplain hoff e he
    rw [read_write_plain u destination m hm hplain haplotype_count rest] at he
    exact hoff e he

theorem read_offsets_bounded_by_span_witness :
    (10 : Nat) < u64 ∧ plain_span [⟨0x80, 2⟩, ⟨0x80, 2⟩, ⟨0x00, 3⟩] ≤ 10 ∧
    rle_span [⟨true, 0, some 3⟩] ≤ 10 ∧
    (∀ e ∈ (marker.read untouched empty_marker 10
        ⟨record_bytes 100 [65] [67] 0x00 3
          ([⟨0x80, 2⟩, ⟨0x80, 2⟩, ⟨0x00, 3⟩].flatMap plain_call.bytes) ++ [], true⟩).1.non_zero_haplotypes_,
      e.offset < 10) ∧
    (∀ e ∈ (marker.read untouched empty_marker 10
        ⟨record_bytes 100 [65] [67] 0x80 1
          ([⟨true, 0, some 3⟩].flatMap rle_header.bytes) ++ [], true⟩).1.non_zero_haplotypes_,
      e.offset < 10) :=
  ⟨by decide, by decide, by decide,
    (read_offsets_bounded_by_span untouched empty_marker 10 100 [65] [67] [] (by decide)
      (by decide) (by decide) (by decide)).1 [⟨0x80, 2⟩, ⟨0x80, 2⟩, ⟨0x00, 3⟩] (by decide),
    (read_offsets_bounded_by_span untouched empty_marker 10 100 [65] [67] [] (by decide)
      (by decide) (by decide) (by decide)).2.1 [⟨true, 0, some 3⟩] (by decide)⟩

/-- Claim C17.  RLE decode expansion: for a complete record in RLE mode with
`count` headers (status, gap, repeat), `marker::read` leaves in the marker exactly
the expansion of the headers from the running offset 0: per header one entry at
the running offset advanced by the gap, then `repeat` entries each `gap + 1`
beyond the one before, all with the status of the header, the running offset
moving one past the last entry.  The entry vector has `count` plus the sum of all
repeats elements.  The amount handed to `reserve` before the expansion is that
number as a 64-bit value, so it is the final size whenever the size fits 64 bits. -/
theorem rle_decode_expansion (u : unspecified) (destination : marker)
    (haplotype_count position : Nat) (ref alt : List Nat) (hs : List rle_header)
    (rest : List Nat) (hp : position < u64) (hr : ref.length < u64) (ha : alt.length < u64)
    (hn : hs.length < u64) (hgap : ∀ h ∈ hs, h.gap < u64)
    (hrep : ∀ h ∈ hs, h.run_length < u64) :
    (marker.read u destination haplotype_count
        ⟨record_bytes position ref alt 0x80 hs.length (hs.flatMap rle_header.bytes) ++ rest,
          true⟩).1.non_zero_haplotypes_ = expansion 0 hs ∧
    (expansion 0 hs).length = hs.length + (hs.map rle_header.run_length).sum ∧
    (∃ b0, one_bit_prefixed_varint.decode (one_bit_prefixed_varint.encode 0x80 hs.length ++
          (hs.flatMap rle_header.bytes ++ rest)) =
        some (0x80, hs.length, b0 :: (hs.flatMap rle_header.bytes ++ rest)) ∧
      read_rle_reserve u hs.length (b0 :: (hs.flatMap rle_header.bytes ++ rest)) =
        (hs.length + (hs.map rle_header.run_length).sum) % u64 ∧
      (hs.length + (hs.map rle_header.run_length).sum < u64 →
        read_rle_reserve u hs.length (b0 :: (hs.flatMap rle_header.bytes ++ rest)) =
          (expansion 0 hs).length)) := by
  obtain ⟨b0, b, h1, h2, _⟩ := read_alleles_rle_complete u hs hgap hrep hn
    destination.non_zero_haplotypes_ alt.length rest
  have hres : read_rle_reserve u hs.length (b0 :: (hs.flatMap rle_header.bytes ++ rest)) =
      (hs.length + (hs.map rle_header.run_length).sum) % u64 := by
    unfold read_rle_reserve u64_add
    rw [h2]
    simp only [Nat.add_mod_mod]
  refine ⟨?_, expansion_length hs 0, b0, h1, hres, ?_⟩
  · rw [read_record_rle u destination haplotype_count position ref alt hs rest hp hr ha hn
      hgap hrep]
  · intro hfit
    rw [hres, Nat.mod_eq_of_lt hfit, expansion_length]

theorem rle_decode_expansion_witness :
    (marker.read untouched empty_marker 20
        ⟨record_bytes 100 [65] [67] 0x80 2
          ([⟨true, 2, some 3⟩, ⟨false, 1, none⟩].flatMap rle_header.bytes) ++ [7], true⟩).1.non_zero_haplotypes_ =
      [⟨has_alt, 2⟩, ⟨has_alt, 5⟩, ⟨has_alt, 8⟩, ⟨has_alt, 11⟩, ⟨is_missing, 13⟩] ∧
    expansion 0 [⟨true, 2, some 3⟩, ⟨false, 1, none⟩] =
      [⟨has_alt, 2⟩, ⟨has_alt, 5⟩, ⟨has_alt, 8⟩, ⟨has_alt, 11⟩, ⟨is_missing, 13⟩] ∧
    (expansion 0 [⟨true, 2, some 3⟩, ⟨false, 1, none⟩]).length = 2 + 3 := by
  have h := rle_decode_expansion untouched empty_marker 20 100 [65] [67]
    [⟨true, 2, some 3⟩, ⟨false, 1, none⟩] [7] (by decide) (by decide) (by decide) (by decide)
    (by decide) (by decide)
  have he : expansion 0 [⟨true, 2, some 3⟩, ⟨false, 1, none⟩] =
      [⟨has_alt, 2⟩, ⟨has_alt, 5⟩, ⟨has_alt, 8⟩, ⟨has_alt, 11⟩, ⟨is_missing, 13⟩] := by decide
  exact ⟨h.1.trans he, he, h.2.1⟩

/-- Claim C18.  Ordering of decoded markers: for a complete record, plain or RLE,
in which the accumulated gaps plus the entry count stay within 64 bits (and the
count itself is a 64-bit value), the entries `marker::read` leaves in the marker
are strictly ascending by offset, and no offset occurs twice. -/
theorem read_entries_ascending (u : unspecified) (destination : marker)
    (haplotype_count position : Nat) (ref alt rest : List Nat)
    (hp : position < u64) (hr : ref.length < u64) (ha : alt.length < u64) :
    (∀ cs : List plain_call, cs.length < u64 → plain_span cs ≤ u64 →
      strictly_ascending (marker.read u destination haplotype_count
        ⟨record_bytes position ref alt 0x00 cs.length (cs.flatMap plain_call.bytes) ++ rest,
          true⟩).1.non_zero_haplotypes_ ∧
      ((marker.read u destination haplotype_count
        ⟨record_bytes position ref alt 0x00 cs.length (cs.flatMap plain_call.bytes) ++ rest,
          true⟩).1.non_zero_haplotypes_.map (fun e => e.offset)).Nodup) ∧
    (∀ hs : List rle_header, hs.length < u64 → rle_span hs ≤ u64 →
      strictly_ascending (marker.read u destination haplotype_count
        ⟨record_bytes position ref alt 0x80 hs.length (hs.flatMap rle_header.bytes) ++ rest,
          true⟩).1.non_zero_haplotypes_ ∧
      ((marker.read u destination haplotype_count
        ⟨record_bytes position ref alt 0x80 hs.length (hs.flatMap rle_header.bytes) ++ rest,
          true⟩).1.non_zero_haplotypes_.map (fun e => e.offset)).Nodup) := by
  refine ⟨?_, ?_⟩
  · intro cs hlen hspan
    rw [read_record_plain u destination haplotype_count position ref alt cs rest hp hr ha hlen
      (fun c hc => Nat.lt_of_lt_of_le (plain_span_bounds cs c hc) hspan)]
    have h := (plain_decoded_ascending cs 0 (by omega)).2
    exact ⟨h, strictly_ascending_nodup _ h⟩
  · intro hs hlen hspan
    rw [read_record_rle u destination haplotype_count position ref alt hs rest hp hr ha hlen
      (fun h hh => Nat.lt_of_lt_of_le (rle_span_bounds hs h hh).1 hspan)
      (fun h hh => Nat.lt_of_lt_of_le (rle_span_bounds hs h hh).2 hspan)]
    have h := (expansion_ascending hs 0 (by omega)).2
    exact ⟨h, strictly_ascending_nodup _ h⟩

theorem read_entries_ascending_witness :
    strictly_ascending (marker.read untouched empty_marker 10
        ⟨record_bytes 100 [65] [67] 0x00 3
          ([⟨0x80, 2⟩, ⟨0x80, 2⟩, ⟨0x00, 3⟩].flatMap plain_call.bytes) ++ [], true⟩).1.non_zero_haplotypes_ ∧
    strictly_ascending (marker.read untouched empty_marker 20
        ⟨record_bytes 100 [65] [67] 0x80 2
          ([⟨true, 2, some 3⟩, ⟨false, 1, none⟩].flatMap rle_header.bytes) ++ [], true⟩).1.non_zero_haplotypes_ :=
  ⟨((read_entries_ascending untouched empty_marker 10 100 [65] [67] [] (by decide) (by decide)
      (by decide)).1 [⟨0x80, 2⟩, ⟨0x80, 2⟩, ⟨0x00, 3⟩] (by decide) (by decide)).1,
    ((read_entries_ascending untouched empty_marker 20 100 [65] [67] [] (by decide) (by decide)
      (by decide)).2 [⟨true, 2, some 3⟩, ⟨false, 1, none⟩] (by decide) (by decide)).1⟩

/-- Claim C19.  Plain-mode round trip: for a marker whose entries are `has_alt` or
`is_missing` (position, lengths and offsets being 64-bit values) and for which
`calculate_rle_serialized_gt_size()` is not smaller than
`calculate_serialized_gt_size()`, `marker::write` emits plain mode and
`marker::read` on the written bytes, whatever follows them and whatever the
destination held, returns the same position, `ref`, `alt` and entry sequence,
takes exactly the written bytes and leaves the stream good.  The entries need not
even be ascending for this. -/
theorem plain_round_trip (u : unspecified) (destination m : marker) (haplotype_count : Nat)
    (rest : List Nat) (hm : m.well_formed)
    (hsize : ¬ m.calculate_rle_serialized_gt_size < m.calculate_serialized_gt_size) :
    (write_mode_and_count m).1 = 0x00 ∧
    (marker.read u destination haplotype_count ⟨m.write ++ rest, true⟩).1.position_ =
      m.position_ ∧
    (marker.read u destination haplotype_count ⟨m.write ++ rest, true⟩).1.ref_ = m.ref_ ∧
    (marker.read u destination haplotype_count ⟨m.write ++ rest, true⟩).1.alt_ = m.alt_ ∧
    (marker.read u destination haplotype_count ⟨m.write ++ rest, true⟩).1.non_zero_haplotypes_ =
      m.non_zero_haplotypes_ ∧
    (marker.read u destination haplotype_count ⟨m.write ++ rest, true⟩).2 = ⟨rest, true⟩ := by
  have hplain : m.writes_rle = false := by
    unfold marker.writes_rle
    exact decide_eq_false hsize
  rw [read_write_plain u destination m hm hplain haplotype_count rest]
  refine ⟨?_, rfl, rfl, rfl, rfl, rfl⟩
  simp [write_mode_and_count, hplain]

theorem plain_round_trip_witness :
    scenario_S.well_formed ∧ strictly_ascending scenario_S.non_zero_haplotypes_ ∧
    ¬ scenario_S.calculate_rle_serialized_gt_size < scenario_S.calculate_serialized_gt_size ∧
    (marker.read untouched empty_marker 10
      ⟨scenario_S.write ++ [], true⟩).1.non_zero_haplotypes_ =
      [⟨has_alt, 2⟩, ⟨has_alt, 5⟩, ⟨is_missing, 9⟩] :=
  ⟨scenario_S_well_formed, by decide, by decide,
    (plain_round_trip untouched empty_marker scenario_S 10 [] scenario_S_well_formed
      (by decide)).2.2.2.2.1⟩

/-- Claim C15, evaluated at the failing input.  `import_prog_args::parse` accepts
the argument vector `sav -0` (it returns true) and `compression_level()` is then
0, outside the range 1 to 19 of the usage text: the level is clamped to at most 19
and a negative level (no digit flag) becomes 3, and nothing raises a level of 0.
The rest of the claim holds: for every accepted argument vector the level is at
most 19, and it is 3 when `getopt_long` returned no digit. -/
theorem compression_level_zero_accepted (h : utility) :
    (import_prog_args.parse h (import_prog_args.ctor h) ["sav".toList, "-0".toList]).1 = true ∧
    (import_prog_args.parse h (import_prog_args.ctor h)
      ["sav".toList, "-0".toList]).2.compression_level = 0 ∧
    (import_prog_args.parse h (import_prog_args.ctor h)
      ["sav".toList, "-0".toList, "in.vcf".toList, "out.sav".toList]) =
      (true, ⟨[], [], "in.vcf".toList, "out.sav".toList, 0, 2048, false, fmt.allele⟩) ∧
    (import_prog_args.parse h (import_prog_args.ctor h)
      ["sav".toList, "-1".toList]).2.compression_level = 1 ∧
    (import_prog_args.parse h (import_prog_args.ctor h)
      ["sav".toList, "-19".toList]).2.compression_level = 19 ∧
    (import_prog_args.parse h (import_prog_args.ctor h)
      ["sav".toList, "-25".toList]).2.compression_level = 19 ∧
    (∀ (a : import_prog_args h) (argv : List (List Char)),
      (import_prog_args.parse h a argv).1 = true →
      (import_prog_args.parse h a argv).2.compression_level ≤ 19) ∧
    (∀ argv : List (List Char),
      (import_prog_args.parse h (import_prog_args.ctor h) argv).1 = true →
      (∀ e ∈ (getopt_long optstring long_options_ false argv.tail).1, is_digit e.opt = false) →
      (import_prog_args.parse h (import_prog_args.ctor h) argv).2.compression_level = 3) := by
  refine ⟨rfl, rfl, rfl, rfl, rfl, rfl, ?_, ?_⟩
  · intro a argv hacc
    obtain ⟨b, hb, _⟩ := parse_accepted h a argv hacc
    rw [hb]
    exact (parse_finish_level h b).1
  · intro argv hacc hd
    obtain ⟨b, hb, hlev⟩ := parse_accepted h (import_prog_args.ctor h) argv hacc
    rw [parse_loop_level h _ hd] at hlev
    rw [hb]
    refine (parse_finish_level h b).2 ?_
    rw [hlev]
    show (-1 : Int) < 0
    decide

/-- Claim C16, evaluated at the failing inputs.  The option string handed to
`getopt_long` is `0123456789b:f:hr:s:S:`; it has none of the letters `d`, `i` and
`I` of the usage text.  So `getopt_long` returns `'?'` for `-d`, `-i` and `-I`,
the `switch` takes `default` and `parse` returns false with no member changed,
whatever follows the letter; the long options `--data-format`, `--sample-ids` and
`--sample-ids-file` are in the table and are accepted with the documented effect. -/
theorem short_options_rejected (h : utility) :
    lookup_short optstring 'd' = none ∧ lookup_short optstring 'i' = none ∧
    lookup_short optstring 'I' = none ∧
    (∀ (a : import_prog_args h) (arg0 cs : List Char) (rest : List (List Char)),
      import_prog_args.parse h a (arg0 :: ('-' :: 'd' :: cs) :: rest) = (false, a) ∧
      import_prog_args.parse h a (arg0 :: ('-' :: 'i' :: cs) :: rest) = (false, a) ∧
      import_prog_args.parse h a (arg0 :: ('-' :: 'I' :: cs) :: rest) = (false, a)) ∧
    (import_prog_args.parse h (import_prog_args.ctor h)
      ["sav".toList, "-d".toList, "HDS".toList]).1 = false ∧
    (import_prog_args.parse h (import_prog_args.ctor h)
      ["sav".toList, "-d".toList, "GT".toList]).1 = false ∧
    (import_prog_args.parse h (import_prog_args.ctor h)
      ["sav".toList, "-i".toList, "a,b".toList]).1 = false ∧
    (import_prog_args.parse h (import_prog_args.ctor h)
      ["sav".toList, "-I".toList, "path".toList]).1 = false ∧
    (import_prog_args.parse h (import_prog_args.ctor h)
      ["sav".toList, "--data-format".toList, "HDS".toList]) =
      (true, ⟨[], [], "/dev/stdin".toList, "/dev/stdout".toList, 3, 2048, false,
        fmt.haplotype_dosage⟩) ∧
    (import_prog_args.parse h (import_prog_args.ctor h)
      ["sav".toList, "--data-format".toList, "GT".toList]) =
      (true, ⟨[], [], "/dev/stdin".toList, "/dev/stdout".toList, 3, 2048, false,
        fmt.allele⟩) ∧
    (import_prog_args.parse h (import_prog_args.ctor h)
      ["sav".toList, "--sample-ids".toList, "a,b".toList]) =
      (true, ⟨h.split_string_to_set "a,b".toList ',', [], "/dev/stdin".toList,
        "/dev/stdout".toList, 3, 2048, false, fmt.allele⟩) ∧
    (import_prog_args.parse h (import_prog_args.ctor h)
      ["sav".toList, "--sample-ids-file".toList, "path".toList]) =
      (true, ⟨h.split_file_to_set "path".toList, [], "/dev/stdin".toList,
        "/dev/stdout".toList, 3, 2048, false, fmt.allele⟩) := by
  have hd : lookup_short optstring 'd' = none := by decide
  have hi : lookup_short optstring 'i' = none := by decide
  have hI : lookup_short optstring 'I' = none := by decide
  refine ⟨hd, hi, hI, ?_, ?_, ?_, ?_, ?_, rfl, rfl, rfl, rfl⟩
  · intro a arg0 cs rest
    exact ⟨parse_unknown_short h a 'd' hd (by decide) arg0 cs rest,
      parse_unknown_short h a 'i' hi (by decide) arg0 cs rest,
      parse_unknown_short h a 'I' hI (by decide) arg0 cs rest⟩
  · rw [show "-d".toList = '-' :: 'd' :: [] from rfl,
      parse_unknown_short h _ 'd' hd (by decide)]
  · rw [show "-d".toList = '-' :: 'd' :: [] from rfl,
      parse_unknown_short h _ 'd' hd (by decide)]
  · rw [show "-i".toList = '-' :: 'i' :: [] from rfl,
      parse_unknown_short h _ 'i' hi (by decide)]
  · rw [show "-I".toList = '-' :: 'I' :: [] from rfl,
      parse_unknown_short h _ 'I' hI (by decide)]

/-- Claim C21.  Grouping and expansion are inverse: for every marker whose
entries are strictly ascending by offset (64-bit offsets) with statuses `has_alt`
or `is_missing`, the groups the RLE loop of `marker::write` forms, taken as the
header loop of `marker::read` stores them, are the maximal runs of the entry list
as triples (status, gap, run length); the expansion loop of `marker::read`
started at running offset 0 turns them back into exactly the entry list; and the
groups cover every entry once: the sum over the groups of 1 plus the run length
is the number of entries.  The header loop recovers these groups from the bytes
written when it is run for as many headers as there are groups. -/
theorem grouping_expansion_inverse (m : marker)
    (hasc : strictly_ascending m.non_zero_haplotypes_)
    (hlt : ∀ e ∈ m.non_zero_haplotypes_, e.offset < u64)
    (hst : ∀ e ∈ m.non_zero_haplotypes_, e.status = has_alt ∨ e.status = is_missing) :
    read_rle_expand 0 ((write_rle_groups m).map rle_call.decoded) =
      m.non_zero_haplotypes_ ∧
    (write_rle_groups m).map rle_call.decoded =
      (maximal_runs (entry_gaps 0 m.non_zero_haplotypes_)).map run_group ∧
    ((write_rle_groups m).map (fun c => 1 + c.number_of_repeats)).sum =
      m.non_zero_haplotypes_.length ∧
    (((write_rle_groups m).map rle_call.decoded).map (fun g => 1 + g.2)).sum =
      m.non_zero_haplotypes_.length ∧
    (m.non_zero_haplotypes_.length < u64 → ∀ (u : unspecified) (b0 : Nat) (rest : List Nat),
      ∃ b, read_rle_headers u 0
          (List.replicate (write_rle_groups m).length (u.value_init, 0))
          (b0 :: (write_rle_payload m ++ rest)) =
        ((write_rle_groups m).map rle_call.decoded,
          (((write_rle_groups m).map rle_call.decoded).map (fun g => g.2)).sum % u64,
          b :: rest)) := by
  refine ⟨read_rle_expand_write_rle_groups m hlt hst,
    write_rle_groups_decoded_runs m hasc hlt hst, ?_, write_rle_groups_decoded_cover m,
    fun hsize u b0 rest => read_rle_headers_written u m hsize b0 rest⟩
  rw [← write_rle_groups_cover m]
  congr 1
  exact List.map_congr_left (fun c _ => Nat.add_comm _ _)

theorem grouping_expansion_inverse_witness :
    strictly_ascending scenario_runs.non_zero_haplotypes_ ∧
    (∀ e ∈ scenario_runs.non_zero_haplotypes_, e.offset < u64) ∧
    (∀ e ∈ scenario_runs.non_zero_haplotypes_,
      e.status = has_alt ∨ e.status = is_missing) ∧
    (write_rle_groups scenario_runs).map rle_call.decoded =
      [(⟨has_alt, 2⟩, 3), (⟨is_missing, 1⟩, 1), (⟨has_alt, 4⟩, 0)] ∧
    read_rle_expand 0 ((write_rle_groups scenario_runs).map rle_call.decoded) =
      [⟨has_alt, 2⟩, ⟨has_alt, 5⟩, ⟨has_alt, 8⟩, ⟨has_alt, 11⟩, ⟨is_missing, 13⟩,
        ⟨is_missing, 15⟩, ⟨has_alt, 20⟩] ∧
    ((write_rle_groups scenario_runs).map (fun c => 1 + c.number_of_repeats)).sum = 7 :=
  ⟨by decide, by decide, by decide, by decide,
    (grouping_expansion_inverse scenario_runs (by decide) (by decide) (by decide)).1,
    (grouping_expansion_inverse scenario_runs (by decide) (by decide) (by decide)).2.2.1⟩

end cvcf
